import Mathlib

/-!
# Verification of `mi::octree` (octree.hpp)

A shallow embedding of the class template `mi::octree<T>` and of its private
class `node<U>`, followed by theorems about the embedded code.

Conventions of the embedding

* `int` is a 32-bit two's complement integer, `size_t` a 64-bit unsigned
  integer, `unsigned char` an 8-bit unsigned integer.  They are modelled by
  `Int` / `Nat` with explicit wrap-around where the code can overflow.
* Undefined behaviour (null pointer access, array index out of bounds,
  division by zero, a floating point value that does not fit the integer type
  it is cast to) is the result `none`.
* `pow(2.0, k)` is taken to be the exact power of two.
* A node owns either no child array (`_child` is `NULL` or has been freed) or
  an array of exactly eight nodes.
-/

namespace mi

/-! ## Machine integers -/

/-- A byte (`char`, `unsigned char`) of a stream or of an object. -/
abbrev Byte := Fin 256

/-- Conversion of an integer to `int` (32 bit, two's complement, wrapping). -/
def wrap_int (a : Int) : Int :=
  let u := (a % 4294967296).toNat
  if u < 2147483648 then (u : Int) else (u : Int) - 4294967296

/-- Conversion of an `int` to `size_t` (64 bit, unsigned, wrapping). -/
def to_size_t (a : Int) : Nat := (a % 18446744073709551616).toNat

/-- Conversion of `lv - 0x01` to `unsigned char`: level 0 wraps to 255. -/
def dec_level (lv : Nat) : Nat := if lv = 0 then 255 else lv - 1

/-- The expression `static_cast<int>(pow(2.0, k))`: the fraction `2^k` of a
negative `k` truncates to 0, and the cast is undefined from `2^31` on. -/
def pow2_int (k : Int) : Option Int :=
  if k < 0 then some 0 else if k ≤ 30 then some ((2 ^ k.toNat : Nat) : Int) else none

/-- The expression `static_cast<size_t>(pow(2.0, k))`. -/
def pow2_size_t (k : Int) : Option Nat :=
  if k < 0 then some 0 else if k ≤ 63 then some (2 ^ k.toNat) else none

/-! ## Nodes -/

/-- Node type tag `INVALID`. -/
abbrev INVALID : Byte := 0x00
/-- Node type tag `EMPTY` (a leaf). -/
abbrev EMPTY : Byte := 0x01
/-- Node type tag `INTERMEDIATE`. -/
abbrev INTERMEDIATE : Byte := 0x02

/-- The class `node<U>`: the fields `_data.type`, `_data.level`, `_value` and
`_child`.  The constructor `nochild` is a node whose `_child` points to no
array, `haschild` a node whose `_child` points to an array of eight nodes. -/
inductive node (U : Type) where
  | nochild (type : Byte) (level : Nat) (value : U) : node U
  | haschild (type : Byte) (level : Nat) (value : U) (child : Fin 8 → node U) : node U

namespace node

variable {U : Type}

/-- Field `_data.type`. -/
def type : node U → Byte
  | nochild t _ _ => t
  | haschild t _ _ _ => t

/-- Field `_data.level`. -/
def level : node U → Nat
  | nochild _ lv _ => lv
  | haschild _ lv _ _ => lv

/-- Field `_value`. -/
def value : node U → U
  | nochild _ _ v => v
  | haschild _ _ v _ => v

/-- Field `_child`: the array of eight children, when there is one. -/
def child : node U → Option (Fin 8 → node U)
  | nochild _ _ _ => none
  | haschild _ _ _ c => some c

/-- Assignment to `_data.type`. -/
def set_type (n : node U) (t : Byte) : node U :=
  match n with
  | nochild _ lv v => nochild t lv v
  | haschild _ lv v c => haschild t lv v c

/-- Assignment to `_value`. -/
def set_value (n : node U) (v : U) : node U :=
  match n with
  | nochild t lv _ => nochild t lv v
  | haschild t lv _ c => haschild t lv v c

/-- Assignment to `_data.level`. -/
def set_level (n : node U) (lv : Nat) : node U :=
  match n with
  | nochild t _ v => nochild t lv v
  | haschild t _ v c => haschild t lv v c

/-- Assignment of a new array to `_child`. -/
def set_child (n : node U) (c : Fin 8 → node U) : node U :=
  haschild n.type n.level n.value c

/-- The method `init(lv, value)`: sets level, value and the type `EMPTY`. -/
def init (n : node U) (lv : Nat) (value : U) : node U :=
  ((n.set_level lv).set_value value).set_type EMPTY

/-- The constructor `node(lv, value)`: `_child = NULL`, then `init`, then the
type `EMPTY`.  An element of `new node<U>[8]` followed by `init(lv, value)` is
the same node (the default constructor only differs in fields that `init`
overwrites). -/
def new (lv : Nat) (value : U) : node U :=
  ((nochild INVALID 0 value).init lv value).set_type EMPTY

/-- The method `create_child()`: an `EMPTY` node becomes `INTERMEDIATE` with
eight new children at level `level - 1` holding the node's value; any other
node is left as it is. -/
def create_child (n : node U) : node U :=
  if n.type = EMPTY then
    (n.set_type INTERMEDIATE).set_child (fun _ => new (dec_level n.level) n.value)
  else n

/-- The method `remove_child()`: an `INTERMEDIATE` node becomes `EMPTY` and its
child array is freed. -/
def remove_child (n : node U) : node U :=
  if n.type = INTERMEDIATE then nochild EMPTY n.level n.value else n

/-- The method `get(x, y, z)`. -/
def get : node U → Int → Int → Int → Option U
  | nochild t _ v, _, _, _ => if t = INTERMEDIATE then none else some v
  | haschild t lv v c, x, y, z =>
    if t = INTERMEDIATE then
      match pow2_int ((lv : Int) - 1) with
      | none => none
      | some d =>
        if d = 0 then none
        else
          let id := x.tdiv d + 2 * y.tdiv d + 4 * z.tdiv d
          if h : 0 ≤ id ∧ id < 8 then
            (c ⟨id.toNat, by omega⟩).get (x.tmod d) (y.tmod d) (z.tmod d)
          else none
    else some v

/-- The body of the method `set(x, y, z, v)`, with a bound on the depth of the
recursion; out of fuel is `none`. -/
def set_fuel : Nat → node U → Int → Int → Int → U → Option (node U)
  | 0, _, _, _, _, _ => none
  | fuel + 1, n, x, y, z, v =>
    if n.level = 0 then some (n.set_value v)
    else
      let n1 := n.create_child
      match n1.child, pow2_size_t ((n1.level : Int) - 1) with
      | some c, some d =>
        if d = 0 then none
        else
          let id := (to_size_t x / d + 2 * (to_size_t y / d) + 4 * (to_size_t z / d)) % 18446744073709551616
          if h : id < 8 then
            match set_fuel fuel (c ⟨id, h⟩) (wrap_int (to_size_t x % d : Nat))
                (wrap_int (to_size_t y % d : Nat)) (wrap_int (to_size_t z % d : Nat)) v with
            | some ci => some (n1.set_child (Function.update c ⟨id, h⟩ ci))
            | none => none
          else none
      | _, _ => none

/-- The method `set(x, y, z, v)`.  The recursion descends one level per call
and stops at level 0, so `level + 1` calls suffice in every tree in which a
child's level is its parent's level minus one, as it is in every tree that
`create_child` has built (theorem `set_eq`). -/
def set (n : node U) (x y z : Int) (v : U) : Option (node U) :=
  set_fuel (n.level + 1) n x y z v

end node

/-- The six output parameters of `boundingbox`. -/
structure Box where
  mnx : Int
  mny : Int
  mnz : Int
  mxx : Int
  mxy : Int
  mxz : Int
deriving DecidableEq, Repr

/-- One pass through the body of the innermost loop of `boundingbox`, for the
child at `(x, y, z)` whose own call returned `r`: a child that reports `false`
is skipped, the box of any other child is moved by the child's offset and
folded into the running minimum and maximum.  Here `d` is positive, so that
`d / 2` is the quotient of C++; the sums are taken in `Int`: in a tree whose
levels decrease from a root of level at most 30 they stay below `2^30`. -/
def boundingbox_step (d : Int) (x y z : Int) (r : Bool × Box) (m : Box) : Box :=
  if !r.1 then m
  else
    let offx := d / 2 * x
    let offy := d / 2 * y
    let offz := d / 2 * z
    let lnx := r.2.mnx + offx
    let lny := r.2.mny + offy
    let lnz := r.2.mnz + offz
    let lxx := r.2.mxx + offx
    let lxy := r.2.mxy + offy
    let lxz := r.2.mxz + offz
    { mnx := if lnx < m.mnx then lnx else m.mnx
      mny := if lny < m.mny then lny else m.mny
      mnz := if lnz < m.mnz then lnz else m.mnz
      mxx := if lxx > m.mxx then lxx else m.mxx
      mxy := if lxy > m.mxy then lxy else m.mxy
      mxz := if lxz > m.mxz then lxz else m.mxz }

namespace node

variable {U : Type}

/-- The three nested loops of `boundingbox` (`z` outermost, `x` innermost, the
child index is `x + 2 * y + 4 * z`), over the results `r` of the calls on the
eight children. -/
def boundingbox_loop (d : Int) (r : Fin 8 → Option (Bool × Box)) (m : Box) : Option Box :=
  [0, 1].foldlM (fun m1 (z : Fin 2) =>
    [0, 1].foldlM (fun m2 (y : Fin 2) =>
      [0, 1].foldlM (fun m3 (x : Fin 2) =>
        match r ⟨x.val + 2 * y.val + 4 * z.val, by omega⟩ with
        | none => none
        | some ri => some (boundingbox_step d x.val y.val z.val ri m3)) m2) m1) m

/-- The method `boundingbox(emptyValue, mnx, mny, mnz, mxx, mxy, mxz)`: the
returned flag and the six outputs. -/
def boundingbox [DecidableEq U] : node U → U → Option (Bool × Box)
  | nochild t lv v, emptyValue =>
    match pow2_int lv with
    | none => none
    | some d =>
      if t = EMPTY then
        if v ≠ emptyValue then some (true, ⟨0, 0, 0, d - 1, d - 1, d - 1⟩)
        else some (false, ⟨d - 1, d - 1, d - 1, 0, 0, 0⟩)
      else if t = INTERMEDIATE then none
      else some (false, ⟨d - 1, d - 1, d - 1, 0, 0, 0⟩)
  | haschild t lv v c, emptyValue =>
    match pow2_int lv with
    | none => none
    | some d =>
      if t = EMPTY then
        if v ≠ emptyValue then some (true, ⟨0, 0, 0, d - 1, d - 1, d - 1⟩)
        else some (false, ⟨d - 1, d - 1, d - 1, 0, 0, 0⟩)
      else if t = INTERMEDIATE then
        match boundingbox_loop d (fun i => (c i).boundingbox emptyValue)
            ⟨d - 1, d - 1, d - 1, 0, 0, 0⟩ with
        | none => none
        | some m => some (decide (m.mnx ≤ m.mxx ∧ m.mny ≤ m.mxy ∧ m.mnz ≤ m.mxz), m)
      else some (false, ⟨d - 1, d - 1, d - 1, 0, 0, 0⟩)

/-- The loop `for i in 0..7: if (!_child[i].optimize()) return false;` over the
results `r` of the calls on the children, from child `i = 8 - k` on: the flag
tells whether the loop ran to its end, the array holds the children as the
loop left them. -/
def optimize_loop (r : Fin 8 → Option (Bool × node U)) :
    Nat → (Fin 8 → node U) → Option (Bool × (Fin 8 → node U))
  | 0, c => some (true, c)
  | k + 1, c =>
    if h : 8 - (k + 1) < 8 then
      match r ⟨8 - (k + 1), h⟩ with
      | none => none
      | some (ok, ci) =>
        if !ok then some (false, Function.update c ⟨8 - (k + 1), h⟩ ci)
        else optimize_loop r k (Function.update c ⟨8 - (k + 1), h⟩ ci)
    else none

/-- The method `optimize()`: the returned flag and the node afterwards. -/
def optimize : node U → Option (Bool × node U)
  | nochild t lv v => if t = INTERMEDIATE then none else some (true, nochild t lv v)
  | haschild t lv v c =>
    if t = INTERMEDIATE then
      match optimize_loop (fun i => (c i).optimize) 8 c with
      | none => none
      | some (false, c1) => some (false, haschild t lv v c1)
      | some (true, c1) => some (true, (haschild t lv (c1 0).value c1).remove_child)
    else some (true, haschild t lv v c)

end node

/-! ## Streams and object representations -/

/-- The state of a `std::ifstream` opened in binary mode: the bytes not yet
extracted and the three state bits. -/
structure ifstream where
  data : List Byte
  eofbit : Bool
  failbit : Bool
  badbit : Bool
deriving DecidableEq, Repr

namespace ifstream

/-- The member `good()`. -/
def good (s : ifstream) : Bool := !(s.eofbit || s.failbit || s.badbit)

/-- The member `fail()`. -/
def fail (s : ifstream) : Bool := s.failbit || s.badbit

/-- The member `bad()`. -/
def bad (s : ifstream) : Bool := s.badbit

/-- The member `read(buf, n)`: the characters stored into `buf` and the stream
afterwards.  A stream that is not good sets `failbit` and extracts nothing; a
stream that holds fewer than `n` characters hands out what it has and sets
`eofbit` and `failbit`. -/
def read (s : ifstream) (n : Nat) : List Byte × ifstream :=
  if s.good then
    if n ≤ s.data.length then (s.data.take n, { s with data := s.data.drop n })
    else (s.data, { s with data := [], eofbit := true, failbit := true })
  else ([], { s with failbit := true })

/-- A stream just opened on a file with the given content. -/
def ofBytes (bs : List Byte) : ifstream := ⟨bs, false, false, false⟩

end ifstream

/-- The state of a `std::ofstream` opened in binary mode: the bytes written so
far and the state bits. -/
structure ofstream where
  data : List Byte
  failbit : Bool
  badbit : Bool
deriving DecidableEq, Repr

namespace ofstream

/-- The member `fail()`. -/
def fail (s : ofstream) : Bool := s.failbit || s.badbit

/-- The member `write(buf, n)` with the `n` characters `bs`: a stream in a
failed state writes nothing. -/
def write (s : ofstream) (bs : List Byte) : ofstream :=
  if s.fail then { s with failbit := true } else { s with data := s.data ++ bs }

/-- A stream just opened on an empty file. -/
def empty : ofstream := ⟨[], false, false⟩

end ofstream

/-- The bytes of an object after `got` has been stored at its start: the
object keeps its old bytes `old` beyond the length of `got`. -/
def store (old got : List Byte) : List Byte := got ++ old.drop got.length

/-- The object representation of the value type: `size` is `sizeof(T)`,
`toBytes` the bytes of an object, `ofBytes` the value of the object that has
the given bytes. -/
structure Layout (T : Type) where
  size : Nat
  toBytes : T → List Byte
  ofBytes : List Byte → T

/-- A layout is lawful when an object has `size` bytes and is determined by
them. -/
structure Layout.Lawful {T : Type} (L : Layout T) : Prop where
  length_toBytes : ∀ v, (L.toBytes v).length = L.size
  ofBytes_toBytes : ∀ v, L.ofBytes (L.toBytes v) = v

/-- The four bytes of an `int`, least significant first. -/
def int_toBytes (a : Int) : List Byte :=
  let u := (a % 4294967296).toNat
  [Fin.ofNat (u % 256), Fin.ofNat (u / 256 % 256), Fin.ofNat (u / 65536 % 256),
    Fin.ofNat (u / 16777216 % 256)]

/-- The `int` that has the given four bytes. -/
def int_ofBytes (bs : List Byte) : Int :=
  wrap_int (((bs.getD 0 0).val + 256 * (bs.getD 1 0).val + 65536 * (bs.getD 2 0).val
    + 16777216 * (bs.getD 3 0).val : Nat) : Int)

/-- The layout of `unsigned char` values. -/
def ucharLayout : Layout Byte := ⟨1, fun v => [v], fun bs => bs.getD 0 0⟩

/-- The layout of `int` values, as far as they are in the range of `int`. -/
def intLayout : Layout Int := ⟨4, int_toBytes, int_ofBytes⟩

namespace node

variable {U : Type}

/-- The loop `for i in 0..7: if (!_child[i].write(fout)) return false;` from
child `i = 8 - k` on, where `w i` is the call on child `i`. -/
def write_loop (w : Fin 8 → ofstream → Option (Bool × ofstream)) :
    Nat → ofstream → Option (Bool × ofstream)
  | 0, fout => some (true, fout)
  | k + 1, fout =>
    if h : 8 - (k + 1) < 8 then
      match w ⟨8 - (k + 1), h⟩ fout with
      | none => none
      | some (ok, fout1) => if !ok then some (false, fout1) else write_loop w k fout1
    else none

/-- The method `write(fout)`: the returned flag and the stream afterwards. -/
def write (L : Layout U) : node U → ofstream → Option (Bool × ofstream)
  | nochild t _ v, fout =>
    let fout1 := fout.write [t]
    if t = INTERMEDIATE then none
    else if t = EMPTY then some (true, fout1.write (L.toBytes v))
    else some (false, fout1)
  | haschild t _ v c, fout =>
    let fout1 := fout.write [t]
    if t = INTERMEDIATE then write_loop (fun i s => (c i).write L s) 8 fout1
    else if t = EMPTY then some (true, fout1.write (L.toBytes v))
    else some (false, fout1)

/-- The loop `for i in 0..7: if (!_child[i].read(fin)) return false;` from
child `i = 8 - k` on, where `rd` is the call on a child. -/
def read_loop (rd : node U → ifstream → Option (Bool × node U × ifstream)) :
    Nat → (Fin 8 → node U) → ifstream → Option (Bool × (Fin 8 → node U) × ifstream)
  | 0, c, fin => some (true, c, fin)
  | k + 1, c, fin =>
    if h : 8 - (k + 1) < 8 then
      match rd (c ⟨8 - (k + 1), h⟩) fin with
      | none => none
      | some (ok, ci, fin1) =>
        if !ok then some (false, Function.update c ⟨8 - (k + 1), h⟩ ci, fin1)
        else read_loop rd k (Function.update c ⟨8 - (k + 1), h⟩ ci) fin1
    else none

/-- The body of the method `read(fin)`, with a bound on the depth of the
recursion; out of fuel is `none`.  The result is the returned flag, the node
afterwards and the stream afterwards.  The local `type` is only used after a
successful read of one byte. -/
def read_fuel (L : Layout U) : Nat → node U → ifstream → Option (Bool × node U × ifstream)
  | 0, _, _ => none
  | fuel + 1, n, fin =>
    let (got, fin1) := fin.read 1
    if fin1.fail then some (false, n, fin1)
    else
      let type := got.getD 0 0
      if type = INTERMEDIATE then
        let n1 := n.create_child
        match n1.child with
        | none => none
        | some c =>
          match read_loop (read_fuel L fuel) 8 c fin1 with
          | none => none
          | some (ok, c1, fin2) => some (ok, n1.set_child c1, fin2)
      else if type = EMPTY then
        let (got2, fin2) := fin1.read L.size
        some (!fin2.bad, n.set_value (L.ofBytes (store (L.toBytes n.value) got2)), fin2)
      else some (false, n.set_type INVALID, fin1)

/-- The method `read(fin)`.  Every call that recurses has extracted one byte
before, so the depth of the recursion is at most the number of bytes left
(theorem `read_eq`). -/
def read (L : Layout U) (n : node U) (fin : ifstream) : Option (Bool × node U × ifstream) :=
  read_fuel L (fin.data.length + 1) n fin

end node

/-! ## The container -/

/-- The class `octree<T>` after `init`: the fields `_level`, `_dimension`,
`_emptyValue` and the node `*_root`. -/
structure octree (T : Type) where
  _level : Nat
  _dimension : Int
  _emptyValue : T
  _root : node T

namespace octree

variable {T : Type}

/-- The loop of `get_level`: `k` passes are left, `i` is the loop counter and
`x` the running power of two (an `int`, doubled with wrap-around); leaving the
loop returns 0. -/
def get_level_loop (dimension : Int) : Nat → Nat → Int → Nat
  | 0, _, _ => 0
  | k + 1, i, x => if dimension ≤ x then i else get_level_loop dimension k (i + 1) (wrap_int (x * 2))

/-- The method `get_level(dimension)`: the loop runs for `i = 0, ..., 254`. -/
def get_level (dimension : Int) : Nat := get_level_loop dimension 255 0 1

/-- The method `init(dimension, emptyValue)`, which replaces the whole state of
the container. -/
def init (dimension : Int) (emptyValue : T) : Option (octree T) :=
  let lv := get_level dimension
  match pow2_int lv with
  | none => none
  | some d => some ⟨lv, d, emptyValue, node.new lv emptyValue⟩

/-- The method `getDimension()`. -/
def getDimension (c : octree T) : Int := c._dimension

/-- The method `getEmptyValue()`. -/
def getEmptyValue (c : octree T) : T := c._emptyValue

/-- The method `is_valid(x, y, z)`. -/
def is_valid (c : octree T) (x y z : Int) : Bool :=
  if x < 0 then false
  else if y < 0 then false
  else if z < 0 then false
  else if c.getDimension ≤ x then false
  else if c.getDimension ≤ y then false
  else if c.getDimension ≤ z then false
  else true

/-- The method `get(x, y, z)`. -/
def get (c : octree T) (x y z : Int) : Option T :=
  if c.is_valid x y z then c._root.get x y z else some c._emptyValue

/-- The method `set(x, y, z, v)`: the container afterwards. -/
def set (c : octree T) (x y z : Int) (v : T) : Option (octree T) :=
  if c.is_valid x y z then
    match c._root.set x y z v with
    | none => none
    | some r => some { c with _root := r }
  else some c

/-- The method `is_empty(x, y, z)`. -/
def is_empty [DecidableEq T] (c : octree T) (x y z : Int) : Option Bool :=
  match c.get x y z with
  | none => none
  | some v => some (decide (v = c._emptyValue))

/-- The method `boundingbox(mnx, mny, mnz, mxx, mxy, mxz, optimized)`: the six
outputs.  The flag returned by the root is dropped. -/
def boundingbox [DecidableEq T] (c : octree T) (optimized : Bool) : Option Box :=
  if optimized then
    match c._root.boundingbox c._emptyValue with
    | none => none
    | some r => some r.2
  else some ⟨0, 0, 0, c._dimension - 1, c._dimension - 1, c._dimension - 1⟩

/-- The method `optimize(opt)`: the container afterwards. -/
def optimize (c : octree T) (opt : Bool) : Option (octree T) :=
  if opt then
    match c._root.optimize with
    | none => none
    | some r => some { c with _root := r.2 }
  else some c

/-- The method `write(fout)`: the returned flag and the stream afterwards. -/
def write (L : Layout T) (c : octree T) (fout : ofstream) : Option (Bool × ofstream) :=
  if fout.fail then some (false, fout)
  else
    let fout1 := fout.write (int_toBytes c._dimension)
    let fout2 := fout1.write (L.toBytes c._emptyValue)
    if fout2.fail then some (false, fout2)
    else c._root.write L fout2

/-- The method `read(fin)`: the returned flag, the container afterwards and the
stream afterwards.  The locals `dimension` and `emptyValue` are not
initialised: `dimension0` and `emptyValue0` are what they hold before the two
reads.  `init` replaces the whole state, so the container before the call
plays no part. -/
def read (L : Layout T) (dimension0 : Int) (emptyValue0 : T) (fin : ifstream) :
    Option (Bool × octree T × ifstream) :=
  let (got1, fin1) := fin.read 4
  let dimension := int_ofBytes (store (int_toBytes dimension0) got1)
  let (got2, fin2) := fin1.read L.size
  let emptyValue := L.ofBytes (store (L.toBytes emptyValue0) got2)
  match init dimension emptyValue with
  | none => none
  | some c =>
    if fin2.fail then some (false, c, fin2)
    else
      match c._root.read L fin2 with
      | none => none
      | some (ok, r, fin3) => some (ok, { c with _root := r }, fin3)

/-! ## Sequences of calls -/

/-- A call that changes a container: `set(x, y, z, v)` or `optimize(opt)`. -/
inductive Op (T : Type) where
  | set (x y z : Int) (v : T) : Op T
  | optimize (opt : Bool) : Op T

/-- Whether the call is a `set`. -/
def Op.isSet : Op T → Bool
  | Op.set _ _ _ _ => true
  | Op.optimize _ => false

/-- The container after one call. -/
def apply (c : octree T) : Op T → Option (octree T)
  | Op.set x y z v => c.set x y z v
  | Op.optimize opt => c.optimize opt

/-- The container after a sequence of calls, first call first. -/
def run (c : octree T) : List (Op T) → Option (octree T)
  | [] => some c
  | op :: ops =>
    match c.apply op with
    | none => none
    | some c1 => run c1 ops

end octree

end mi

/-! ## Vocabulary of the specification -/

namespace mi

/-- The index of the child that holds the local coordinate `(x, y, z)` in a
node whose children have side `d`. -/
def cidx (d x y z : Nat) : Fin 8 := Fin.ofNat (x / d + 2 * (y / d) + 4 * (z / d))

namespace node
variable {U : Type}

/-- Well-formed trees: every node is `EMPTY` or `INTERMEDIATE`, an
`INTERMEDIATE` node has a level of at least 1 and eight well-formed children,
each at that level minus one. -/
def WF : node U → Prop
  | nochild t _ _ => t = EMPTY
  | haschild t lv _ c =>
    t = EMPTY ∨ (t = INTERMEDIATE ∧ lv ≠ 0 ∧ ∀ i, (c i).level = lv - 1 ∧ WF (c i))

end node

namespace octree
variable {T : Type}

/-- The state invariant of a container: the level is at most 30, the
dimension is two to the level, and the root is a well-formed tree at that
level. -/
structure Inv (c : octree T) : Prop where
  level_le : c._level ≤ 30
  dimension_eq : c._dimension = ((2 ^ c._level : Nat) : Int)
  root_wf : node.WF c._root
  root_level : c._root.level = c._level

/-- The containers obtained from `init(n, e)` by a sequence of calls of `set`
and `optimize`. -/
def Reached (n : Int) (e : T) (c : octree T) : Prop :=
  ∃ c0 ops, init n e = some c0 ∧ run c0 ops = some c

/-- The containers obtained from `init(n, e)` by a sequence of calls of
`set`. -/
def ReachedBySet (n : Int) (e : T) (c : octree T) : Prop :=
  ∃ c0 ops, init n e = some c0 ∧ (∀ op ∈ ops, Op.isSet op = true) ∧ run c0 ops = some c

end octree

end mi

namespace mi

/-- The minimum corner of a box, by axis. -/
def Box.mn (b : Box) (a : Fin 3) : Int := ![b.mnx, b.mny, b.mnz] a

/-- The maximum corner of a box, by axis. -/
def Box.mx (b : Box) (a : Fin 3) : Int := ![b.mxx, b.mxy, b.mxz] a

/-- The box that `boundingbox` starts from at a node of side `d`. -/
def Box.start (d : Int) : Box := ⟨d - 1, d - 1, d - 1, 0, 0, 0⟩

/-- Bit `a` of a child index: the position of the child along axis `a`. -/
def cbit (a : Fin 3) (i : Fin 8) : Nat := i.val / 2 ^ a.val % 2

/-- The offset along axis `a` of child `i` of a node at level `L + 1`. -/
def coff (L : Nat) (a : Fin 3) (i : Fin 8) : Int := ((2 ^ L : Nat) : Int) * (cbit a i : Int)

namespace node
variable {U : Type}

/-- The voxel `p` lies in the cube of a node at level `L` and `get` returns a
value other than `e` there. -/
def occ (n : node U) (e : U) (L : Nat) (p : Fin 3 → Nat) : Prop :=
  (∀ a, p a < 2 ^ L) ∧ ∃ u, n.get (p 0) (p 1) (p 2) = some u ∧ u ≠ e

/-- What `boundingbox` has to return at a node at level `L`: the flag tells
whether some voxel of the cube is occupied; when it is set, the box holds on
every axis the least and the greatest coordinate of an occupied voxel;
when it is not, the box is the one the method starts from. -/
def BoxSpec (n : node U) (e : U) (L : Nat) (r : Bool × Box) : Prop :=
  (r.1 = true ↔ ∃ p, occ n e L p) ∧
  (r.1 = true → ∀ a,
    (∀ p, occ n e L p → r.2.mn a ≤ (p a : Int) ∧ (p a : Int) ≤ r.2.mx a) ∧
    (∃ p, occ n e L p ∧ (p a : Int) = r.2.mn a) ∧
    (∃ p, occ n e L p ∧ (p a : Int) = r.2.mx a)) ∧
  (r.1 = false → r.2 = Box.start ((2 ^ L : Nat) : Int))

/-- The body of the loops of `boundingbox` for the child with index `i`. -/
def boundingbox_at (d : Int) (ri : Fin 8 → Bool × Box) (i : Fin 8) (m : Box) : Box :=
  boundingbox_step d ((i.val % 2 : Nat) : Int) ((i.val / 2 % 2 : Nat) : Int)
    ((i.val / 4 : Nat) : Int) (ri i) m

/-- The state of the loops of `boundingbox` at a node `n` of level `L + 1`
once the children that satisfy `P` are done. -/
def LoopInv (n : node U) (e : U) (L : Nat) (P : Fin 8 → Prop) (m : Box) : Prop :=
  ∀ a,
    (∀ p, occ n e (L + 1) p → P (cidx (2 ^ L) (p 0) (p 1) (p 2)) →
      m.mn a ≤ (p a : Int) ∧ (p a : Int) ≤ m.mx a) ∧
    (m.mn a = ((2 ^ (L + 1) : Nat) : Int) - 1 ∨
      ∃ p, occ n e (L + 1) p ∧ P (cidx (2 ^ L) (p 0) (p 1) (p 2)) ∧ (p a : Int) = m.mn a) ∧
    (m.mx a = 0 ∨
      ∃ p, occ n e (L + 1) p ∧ P (cidx (2 ^ L) (p 0) (p 1) (p 2)) ∧ (p a : Int) = m.mx a)

/-- The body of the method `set(x, y, z, v)`, with the recursive call on a
child written `st`. -/
def set_body (st : node U → Int → Int → Int → U → Option (node U))
    (n : node U) (x y z : Int) (v : U) : Option (node U) :=
  if n.level = 0 then some (n.set_value v)
  else
    let n1 := n.create_child
    match n1.child, pow2_size_t ((n1.level : Int) - 1) with
    | some c, some d =>
      if d = 0 then none
      else
        let id := (to_size_t x / d + 2 * (to_size_t y / d) + 4 * (to_size_t z / d)) %
          18446744073709551616
        if h : id < 8 then
          match st (c ⟨id, h⟩) (wrap_int (to_size_t x % d : Nat))
              (wrap_int (to_size_t y % d : Nat)) (wrap_int (to_size_t z % d : Nat)) v with
          | some ci => some (n1.set_child (Function.update c ⟨id, h⟩ ci))
          | none => none
        else none
    | _, _ => none

/-- The body of the method `read(fin)`, with the recursive call on a child
written `rd`. -/
def read_body (L : Layout U) (rd : node U → ifstream → Option (Bool × node U × ifstream))
    (n : node U) (fin : ifstream) : Option (Bool × node U × ifstream) :=
  let (got, fin1) := fin.read 1
  if fin1.fail then some (false, n, fin1)
  else
    let type := got.getD 0 0
    if type = INTERMEDIATE then
      let n1 := n.create_child
      match n1.child with
      | none => none
      | some c =>
        match read_loop rd 8 c fin1 with
        | none => none
        | some (ok, c1, fin2) => some (ok, n1.set_child c1, fin2)
    else if type = EMPTY then
      let (got2, fin2) := fin1.read L.size
      some (!fin2.bad, n.set_value (L.ofBytes (store (L.toBytes n.value) got2)), fin2)
    else some (false, n.set_type INVALID, fin1)

/-- The bytes of the children from child `8 - k` on, where `enc i` are the
bytes of child `i`. -/
def encode_from (enc : Fin 8 → List Byte) : Nat → List Byte
  | 0 => []
  | k + 1 => if h : 8 - (k + 1) < 8 then enc ⟨8 - (k + 1), h⟩ ++ encode_from enc k else []

/-- The encoding of a tree: the tag byte of the node, followed by the
encodings of the eight children in index order for an `INTERMEDIATE` node and
by the bytes of the value for any other node. -/
def encode (L : Layout U) : node U → List Byte
  | nochild t _ v => t :: L.toBytes v
  | haschild t _ v c =>
    if t = INTERMEDIATE then
      t :: (encode L (c 0) ++ encode L (c 1) ++ encode L (c 2) ++ encode L (c 3) ++
        encode L (c 4) ++ encode L (c 5) ++ encode L (c 6) ++ encode L (c 7))
    else t :: L.toBytes v

end node

namespace octree
variable {T : Type}

/-- The coordinate `(x, y, z)` is in range and `get` returns a value other
than the empty value there. -/
def occupied (c : octree T) (x y z : Int) : Prop :=
  (0 ≤ x ∧ x < c.getDimension) ∧ (0 ≤ y ∧ y < c.getDimension) ∧
    (0 ≤ z ∧ z < c.getDimension) ∧ ∃ u, c.get x y z = some u ∧ u ≠ c.getEmptyValue

end octree
end mi

/-! ## Vocabulary of the specification: merging and reading -/

namespace mi
namespace node
variable {U : Type}

/-- The value found by following `_child[0]` from a node down to the first
node that is not `INTERMEDIATE`: the value at the local coordinate
`(0, 0, 0)`. -/
def corner : node U → U
  | nochild _ _ v => v
  | haschild t _ v c => if t = INTERMEDIATE then corner (c 0) else v

/-- Structural equality of two trees: the same kind and the same level at
every node, the same value at every node that is not `INTERMEDIATE`; the
`_value` field of an `INTERMEDIATE` node, which no method reads, and the
child array of a node that is not `INTERMEDIATE` play no part. -/
def Sim : node U → node U → Prop
  | nochild t lv v, m => m.type = t ∧ m.level = lv ∧ m.value = v
  | haschild t lv v c, m =>
    m.type = t ∧ m.level = lv ∧
      (t = INTERMEDIATE → ∃ c1, m.child = some c1 ∧ ∀ i, Sim (c i) (c1 i)) ∧
      (t ≠ INTERMEDIATE → m.value = v)

/-- The node at the end of a path of child indices, when every node on the
way has a child array. -/
def descend : node U → List (Fin 8) → Option (node U)
  | n, [] => some n
  | n, k :: p =>
    match n.child with
    | none => none
    | some c => descend (c k) p

/-- The passes `i = 0, ..., k - 1` of the loop
`for i in 0..7: if (!_child[i].read(fin)) return false;` when the call `rd` on
each of these children returns `true`: the children and the stream after
them. -/
def read_upto (rd : node U → ifstream → Option (Bool × node U × ifstream)) :
    Nat → (Fin 8 → node U) → ifstream → Option ((Fin 8 → node U) × ifstream)
  | 0, c, fin => some (c, fin)
  | k + 1, c, fin =>
    match read_upto rd k c fin with
    | none => none
    | some (c1, fin1) =>
      if h : k < 8 then
        match rd (c1 ⟨k, h⟩) fin1 with
        | some (true, ci, fin2) => some (Function.update c1 ⟨k, h⟩ ci, fin2)
        | _ => none
      else none

/-- The calls of `read` that start with `read(fin)` on the node `n` come, in
the order of the calls and along the path `p` of child indices, to a node at
which the stream is good and the next byte, the tag, is neither `EMPTY`
(0x01) nor `INTERMEDIATE` (0x02).  On the way every node has read the tag
`INTERMEDIATE` and the calls on the children before the one on the path have
returned `true`.  The last two arguments are the node `n` with the node at
the end of the path marked `INVALID` and the later children of every node on
the path as `create_child` made them, and the stream right after the tag that
is neither. -/
inductive BadTag (L : Layout U) : node U → ifstream → List (Fin 8) → node U → ifstream → Prop
  | here (n : node U) (s : ifstream) (t : Byte) (rest : List Byte) :
      s.good = true → s.data = t :: rest → t ≠ EMPTY → t ≠ INTERMEDIATE →
      BadTag L n s [] (n.set_type INVALID) { s with data := rest }
  | inner (n : node U) (s : ifstream) (rest : List Byte) (c c1 : Fin 8 → node U) (k : Fin 8)
      (s1 : ifstream) (p : List (Fin 8)) (ck : node U) (s2 : ifstream) :
      s.good = true → s.data = INTERMEDIATE :: rest → n.create_child.child = some c →
      read_upto (read L) k.val c { s with data := rest } = some (c1, s1) →
      BadTag L (c1 k) s1 p ck s2 →
      BadTag L n s (k :: p) (n.create_child.set_child (Function.update c1 k ck)) s2

end node
end mi

namespace mi
namespace octree

/-- A stream for `octree<int>::read`: the header (dimension 1, empty value
0), the tag `INTERMEDIATE` for the root, and eight leaves with the values 1
to 8. -/
def split_at_level_zero : List Byte :=
  [1, 0, 0, 0, 0, 0, 0, 0, 2,
    1, 1, 0, 0, 0, 1, 2, 0, 0, 0, 1, 3, 0, 0, 0, 1, 4, 0, 0, 0,
    1, 5, 0, 0, 0, 1, 6, 0, 0, 0, 1, 7, 0, 0, 0, 1, 8, 0, 0, 0]

end octree
end mi

/-! ## The method `copy` -/

namespace mi
namespace node
variable {U : Type}

/-- The loop `for i in 0..7: this->_child[i].copy(d._child[i]);` over the
results `r` of the calls on the children, from child `i = 8 - k` on: the
children as the loop leaves them. -/
def copy_loop (r : Fin 8 → Option (node U)) : Nat → (Fin 8 → node U) → Option (Fin 8 → node U)
  | 0, c => some c
  | k + 1, c =>
    if h : 8 - (k + 1) < 8 then
      match r ⟨8 - (k + 1), h⟩ with
      | none => none
      | some ci => copy_loop r k (Function.update c ⟨8 - (k + 1), h⟩ ci)
    else none

/-- The method `copy(d)` called on the node `n`: the node `n` afterwards.
Level and value are taken from `d`; when `d` is `INTERMEDIATE`, `n` is split
by `create_child()` and every child of `d` is copied into the child of `n`
with the same index; the type is taken from `d` last.  A child array that is
used but does not exist is `none`. -/
def copy : node U → node U → Option (node U)
  | n, nochild t lv v =>
    if t = INTERMEDIATE then none else some (((n.set_level lv).set_value v).set_type t)
  | n, haschild t lv v dc =>
    let n1 := (n.set_level lv).set_value v
    if t = INTERMEDIATE then
      let n2 := n1.create_child
      match n2.child with
      | none => none
      | some c =>
        match copy_loop (fun i => copy (c i) (dc i)) 8 c with
        | none => none
        | some c1 => some ((n2.set_child c1).set_type t)
    else some (n1.set_type t)

/-! ## Vocabulary of the specification: the shape of a tree -/

/-- The number of `INTERMEDIATE` nodes of a tree. -/
def inters : node U → Nat
  | nochild _ _ _ => 0
  | haschild t _ _ c =>
    if t = INTERMEDIATE then
      1 + (inters (c 0) + inters (c 1) + inters (c 2) + inters (c 3) + inters (c 4) +
        inters (c 5) + inters (c 6) + inters (c 7))
    else 0

/-- The number of nodes of a tree that are not `INTERMEDIATE`: its leaves. -/
def leaves : node U → Nat
  | nochild _ _ _ => 1
  | haschild t _ _ c =>
    if t = INTERMEDIATE then
      leaves (c 0) + leaves (c 1) + leaves (c 2) + leaves (c 3) + leaves (c 4) +
        leaves (c 5) + leaves (c 6) + leaves (c 7)
    else 1

/-- Equality of two trees node by node: the same kind, the same level and the
same value at every node, the children of an `INTERMEDIATE` node compared in
index order; only the child array of a node that is not `INTERMEDIATE` plays
no part. -/
def Same : node U → node U → Prop
  | nochild t lv v, m => m.type = t ∧ m.level = lv ∧ m.value = v
  | haschild t lv v c, m =>
    m.type = t ∧ m.level = lv ∧ m.value = v ∧
      (t = INTERMEDIATE → ∃ c1, m.child = some c1 ∧ ∀ i, Same (c i) (c1 i))

end node
end mi

/-! ## Arithmetic and the unfolding of `get` and `set` -/

namespace mi
open node

@[simp] theorem EMPTY_ne_INTERMEDIATE : ¬ (EMPTY = INTERMEDIATE) := by decide
@[simp] theorem INTERMEDIATE_ne_EMPTY : ¬ (INTERMEDIATE = EMPTY) := by decide
@[simp] theorem INVALID_ne_INTERMEDIATE : ¬ (INVALID = INTERMEDIATE) := by decide
@[simp] theorem INVALID_ne_EMPTY : ¬ (INVALID = EMPTY) := by decide

theorem wrap_int_natCast (a : Nat) (h : a < 2147483648) : wrap_int (a : Int) = a := by
  unfold wrap_int; simp only []; split_ifs <;> omega

theorem to_size_t_natCast (a : Nat) (h : a < 18446744073709551616) : to_size_t (a : Int) = a := by
  unfold to_size_t; omega

theorem pow2_size_t_pred (L : Nat) (h : L ≤ 63) :
    pow2_size_t (((L + 1 : Nat) : Int) - 1) = some (2 ^ L) := by
  unfold pow2_size_t
  have h1 : ¬ (((L + 1 : Nat) : Int) - 1 < 0) := by omega
  have h2 : (((L + 1 : Nat) : Int) - 1 ≤ 63) := by omega
  have h3 : (((L + 1 : Nat) : Int) - 1).toNat = L := by omega
  rw [if_neg h1, if_pos h2, h3]

theorem pow2_int_pred (L : Nat) (h : L ≤ 30) :
    pow2_int (((L + 1 : Nat) : Int) - 1) = some ((2 ^ L : Nat) : Int) := by
  unfold pow2_int
  have h1 : ¬ (((L + 1 : Nat) : Int) - 1 < 0) := by omega
  have h2 : (((L + 1 : Nat) : Int) - 1 ≤ 30) := by omega
  have h3 : (((L + 1 : Nat) : Int) - 1).toNat = L := by omega
  rw [if_neg h1, if_pos h2, h3]

theorem pow2_int_natCast (L : Nat) (h : L ≤ 30) :
    pow2_int (L : Int) = some ((2 ^ L : Nat) : Int) := by
  unfold pow2_int
  have h1 : ¬ ((L : Int) < 0) := by omega
  have h2 : ((L : Int) ≤ 30) := by omega
  rw [if_neg h1, if_pos h2, Int.toNat_natCast]

theorem div_lt_two {d x : Nat} (h : x < 2 * d) : x / d < 2 := by
  rcases Nat.eq_zero_or_pos d with h0 | h0
  · subst h0; simp
  · exact (Nat.div_lt_iff_lt_mul h0).2 h

theorem cidx_val {d x y z : Nat} (hx : x < 2 * d) (hy : y < 2 * d) (hz : z < 2 * d) :
    (cidx d x y z).val = x / d + 2 * (y / d) + 4 * (z / d) := by
  have := div_lt_two hx; have := div_lt_two hy; have := div_lt_two hz
  unfold cidx; simp [Fin.ofNat]; omega

theorem pow_le_pow30 {L : Nat} (h : L ≤ 30) : 2 ^ L ≤ 1073741824 := by
  calc 2 ^ L ≤ 2 ^ 30 := Nat.pow_le_pow_right (by norm_num) h
    _ = 1073741824 := by norm_num


namespace node
variable {U : Type}

@[simp] theorem type_new (lv : Nat) (v : U) : (new lv v).type = EMPTY := rfl
@[simp] theorem level_new (lv : Nat) (v : U) : (new lv v).level = lv := rfl
@[simp] theorem value_new (lv : Nat) (v : U) : (new lv v).value = v := rfl
theorem new_eq (lv : Nat) (v : U) : new lv v = nochild EMPTY lv v := rfl
theorem WF_new (lv : Nat) (v : U) : WF (new lv v) := rfl

@[simp] theorem level_set_value (n : node U) (v : U) : (n.set_value v).level = n.level := by
  cases n <;> rfl
@[simp] theorem type_set_value (n : node U) (v : U) : (n.set_value v).type = n.type := by
  cases n <;> rfl
@[simp] theorem value_set_value (n : node U) (v : U) : (n.set_value v).value = v := by
  cases n <;> rfl
@[simp] theorem level_set_child (n : node U) (c : Fin 8 → node U) :
    (n.set_child c).level = n.level := rfl
@[simp] theorem type_set_child (n : node U) (c : Fin 8 → node U) :
    (n.set_child c).type = n.type := rfl
@[simp] theorem value_set_child (n : node U) (c : Fin 8 → node U) :
    (n.set_child c).value = n.value := rfl
@[simp] theorem level_create_child (n : node U) : n.create_child.level = n.level := by
  unfold create_child; split <;> cases n <;> rfl

/-- A well-formed node is a leaf or an `INTERMEDIATE` node with an array of
well-formed children one level down. -/
theorem WF_cases {n : node U} (h : WF n) :
    n.type = EMPTY ∨ ∃ L v c, n = haschild INTERMEDIATE (L + 1) v c ∧
      ∀ i, (c i).level = L ∧ WF (c i) := by
  cases n with
  | nochild t lv v => exact Or.inl h
  | haschild t lv v c =>
    rcases h with h | ⟨h1, h2, h3⟩
    · exact Or.inl h
    · right
      obtain ⟨L, rfl⟩ := Nat.exists_eq_succ_of_ne_zero h2
      subst h1
      exact ⟨L, v, c, rfl, h3⟩

theorem get_of_type_empty {n : node U} (h : n.type = EMPTY) (x y z : Int) :
    n.get x y z = some n.value := by
  cases n <;> simp_all [get, type, value]

theorem create_child_of_type_empty {n : node U} (h : n.type = EMPTY) :
    n.create_child =
      haschild INTERMEDIATE n.level n.value (fun _ => new (dec_level n.level) n.value) := by
  unfold create_child; rw [if_pos h]; cases n <;> rfl

theorem create_child_of_intermediate (L : Nat) (v : U) (c : Fin 8 → node U) :
    (haschild INTERMEDIATE L v c).create_child = haschild INTERMEDIATE L v c := by
  unfold create_child; simp [type]

theorem tdiv_natCast (a d : Nat) : (a : Int).tdiv (d : Int) = ((a / d : Nat) : Int) := by
  rw [Int.tdiv_eq_ediv (by omega) (by omega)]; norm_cast

theorem tmod_natCast (a d : Nat) : (a : Int).tmod (d : Int) = ((a % d : Nat) : Int) := by
  rw [Int.tmod_eq_emod (by omega) (by omega)]; norm_cast

theorem get_haschild {L : Nat} (hL : L ≤ 30) (v : U) (c : Fin 8 → node U) {x y z : Nat}
    (hx : x < 2 * 2 ^ L) (hy : y < 2 * 2 ^ L) (hz : z < 2 * 2 ^ L) :
    (haschild INTERMEDIATE (L + 1) v c).get x y z =
      (c (cidx (2 ^ L) x y z)).get ((x % 2 ^ L : Nat) : Int) ((y % 2 ^ L : Nat) : Int)
        ((z % 2 ^ L : Nat) : Int) := by
  have hd : 0 < 2 ^ L := Nat.pos_pow_of_pos L (by norm_num)
  have h1 := div_lt_two hx
  have h2 := div_lt_two hy
  have h3 := div_lt_two hz
  have hc := cidx_val hx hy hz
  have hne : ¬ (((2 ^ L : Nat) : Int) = 0) := by omega
  conv_lhs => unfold get
  rw [if_pos rfl, pow2_int_pred L hL]
  simp only [tdiv_natCast, tmod_natCast]
  rw [if_neg hne]
  have key : ∀ qx qy qz : Nat, qx < 2 → qy < 2 → qz < 2 →
      0 ≤ (qx : Int) + 2 * (qy : Int) + 4 * (qz : Int) ∧
      (qx : Int) + 2 * (qy : Int) + 4 * (qz : Int) < 8 := by intros; omega
  have key2 : ∀ qx qy qz : Nat,
      ((qx : Int) + 2 * (qy : Int) + 4 * (qz : Int)).toNat = qx + 2 * qy + 4 * qz := by
    intros; omega
  rw [dif_pos (key _ _ _ h1 h2 h3)]
  congr 2
  apply Fin.ext
  rw [hc]
  exact key2 _ _ _


theorem set_fuel_level_zero {n : node U} (h : n.level = 0) (f : Nat) (x y z : Int) (v : U) :
    set_fuel (f + 1) n x y z v = some (n.set_value v) := by
  unfold set_fuel; rw [if_pos h]

theorem set_fuel_step {n : node U} {L : Nat} (hL : L ≤ 30) (hn : n.level = L + 1)
    {t : Nat} {val : U} {c : Fin 8 → node U} (hc : n.create_child = haschild t (L + 1) val c)
    (f : Nat) {x y z : Nat} (hx : x < 2 * 2 ^ L) (hy : y < 2 * 2 ^ L) (hz : z < 2 * 2 ^ L)
    (v : U) :
    set_fuel (f + 1) n x y z v =
      (set_fuel f (c (cidx (2 ^ L) x y z)) ((x % 2 ^ L : Nat) : Int) ((y % 2 ^ L : Nat) : Int)
        ((z % 2 ^ L : Nat) : Int) v).map
        (fun ci => haschild t (L + 1) val (Function.update c (cidx (2 ^ L) x y z) ci)) := by
  have hd : 0 < 2 ^ L := Nat.pos_pow_of_pos L (by norm_num)
  have hp := pow_le_pow30 hL
  have h1 := div_lt_two hx
  have h2 := div_lt_two hy
  have h3 := div_lt_two hz
  have hci := cidx_val hx hy hz
  have hmx : x % 2 ^ L < 2 ^ L := Nat.mod_lt _ hd
  have hmy : y % 2 ^ L < 2 ^ L := Nat.mod_lt _ hd
  have hmz : z % 2 ^ L < 2 ^ L := Nat.mod_lt _ hd
  have hne : n.level ≠ 0 := by omega
  conv_lhs => unfold set_fuel
  rw [if_neg hne]
  simp only [hc, child, level]
  rw [pow2_size_t_pred L (by omega)]
  simp only []
  rw [if_neg (by omega), to_size_t_natCast x (by omega), to_size_t_natCast y (by omega),
    to_size_t_natCast z (by omega)]
  have hid : (x / 2 ^ L + 2 * (y / 2 ^ L) + 4 * (z / 2 ^ L)) % 18446744073709551616 < 8 := by
    omega
  have hi : (⟨(x / 2 ^ L + 2 * (y / 2 ^ L) + 4 * (z / 2 ^ L)) % 18446744073709551616, hid⟩ :
      Fin 8) = cidx (2 ^ L) x y z := by
    apply Fin.ext; rw [hci]; simp only []; omega
  rw [dif_pos hid, hi, wrap_int_natCast _ (by omega), wrap_int_natCast _ (by omega),
    wrap_int_natCast _ (by omega)]
  cases set_fuel f (c (cidx (2 ^ L) x y z)) ((x % 2 ^ L : Nat) : Int) ((y % 2 ^ L : Nat) : Int)
      ((z % 2 ^ L : Nat) : Int) v <;> rfl


theorem WF_set_value {n : node U} (h : n.type = EMPTY) (v : U) : WF (n.set_value v) := by
  cases n with
  | nochild t lv w => exact h
  | haschild t lv w c => exact Or.inl h

theorem WF_haschild {L : Nat} {val : U} {c : Fin 8 → node U}
    (h : ∀ i, (c i).level = L ∧ WF (c i)) : WF (haschild INTERMEDIATE (L + 1) val c) :=
  Or.inr ⟨rfl, by omega, h⟩

theorem bits_inj {a b c a1 b1 c1 : Nat} (ha : a < 2) (hb : b < 2)
    (ha1 : a1 < 2) (hb1 : b1 < 2)
    (h : a + 2 * b + 4 * c = a1 + 2 * b1 + 4 * c1) : a = a1 ∧ b = b1 ∧ c = c1 := by
  omega

/-- Two local coordinates with the same child index and the same remainders
are equal. -/
theorem cidx_inj {d : Nat} {x y z x1 y1 z1 : Nat}
    (hx : x < 2 * d) (hy : y < 2 * d) (hz : z < 2 * d)
    (hx1 : x1 < 2 * d) (hy1 : y1 < 2 * d) (hz1 : z1 < 2 * d)
    (hi : cidx d x y z = cidx d x1 y1 z1)
    (hmx : x % d = x1 % d) (hmy : y % d = y1 % d) (hmz : z % d = z1 % d) :
    x = x1 ∧ y = y1 ∧ z = z1 := by
  have h := congrArg Fin.val hi
  rw [cidx_val hx hy hz, cidx_val hx1 hy1 hz1] at h
  have a1 := div_lt_two hx
  have a2 := div_lt_two hy
  have a3 := div_lt_two hz
  have b1 := div_lt_two hx1
  have b2 := div_lt_two hy1
  have b3 := div_lt_two hz1
  obtain ⟨e1, e2, e3⟩ := bits_inj a1 a2 b1 b2 h
  refine ⟨?_, ?_, ?_⟩
  · rw [← Nat.div_add_mod x d, ← Nat.div_add_mod x1 d, e1, hmx]
  · rw [← Nat.div_add_mod y d, ← Nat.div_add_mod y1 d, e2, hmy]
  · rw [← Nat.div_add_mod z d, ← Nat.div_add_mod z1 d, e3, hmz]

/-- Splitting a well-formed node keeps what `get` returns: afterwards the node
is `INTERMEDIATE` with well-formed children one level down. -/
theorem create_child_spec {n : node U} {L : Nat} (hL : L ≤ 30) (hw : WF n)
    (hn : n.level = L + 1) :
    ∃ val c, n.create_child = haschild INTERMEDIATE (L + 1) val c ∧
      (∀ i, (c i).level = L ∧ WF (c i)) ∧
      ∀ x y z : Nat, x < 2 * 2 ^ L → y < 2 * 2 ^ L → z < 2 * 2 ^ L →
        n.get x y z = (c (cidx (2 ^ L) x y z)).get ((x % 2 ^ L : Nat) : Int)
          ((y % 2 ^ L : Nat) : Int) ((z % 2 ^ L : Nat) : Int) := by
  rcases WF_cases hw with h | ⟨L1, val, c, rfl, hc⟩
  · refine ⟨n.value, fun _ => new L n.value, ?_, fun _ => ⟨rfl, WF_new _ _⟩, ?_⟩
    · rw [create_child_of_type_empty h, hn]; rfl
    · intro x y z _ _ _
      rw [get_of_type_empty h, get_of_type_empty (type_new _ _)]; rfl
  · have e : L1 = L := by simpa [level] using hn
    subst e
    refine ⟨val, c, create_child_of_intermediate _ _ _, hc, ?_⟩
    intro x y z hx hy hz
    exact get_haschild hL val c hx hy hz

/-- The effect of `set` on a well-formed node, at local coordinates in range:
it returns a well-formed node of the same level, on which `get` returns the
new value at the written coordinate and the old result elsewhere. -/
theorem set_spec (L : Nat) (hL : L ≤ 30) :
    ∀ (n : node U), WF n → n.level = L → ∀ (x y z : Nat) (v : U),
      x < 2 ^ L → y < 2 ^ L → z < 2 ^ L →
      ∃ n1, n.set x y z v = some n1 ∧ WF n1 ∧ n1.level = L ∧
        ∀ x1 y1 z1 : Nat, x1 < 2 ^ L → y1 < 2 ^ L → z1 < 2 ^ L →
          n1.get x1 y1 z1 =
            if x1 = x ∧ y1 = y ∧ z1 = z then some v else n.get x1 y1 z1 := by
  induction L with
  | zero =>
    intro n hw hn x y z v hx hy hz
    have ht : n.type = EMPTY := by
      rcases WF_cases hw with h | ⟨L1, val, c, rfl, _⟩
      · exact h
      · simp [level] at hn
    refine ⟨n.set_value v, ?_, WF_set_value ht v, by simp [hn], ?_⟩
    · unfold set; rw [hn]; exact set_fuel_level_zero hn 0 _ _ _ v
    · intro x1 y1 z1 hx1 hy1 hz1
      have : x1 = x ∧ y1 = y ∧ z1 = z := by omega
      rw [if_pos this, get_of_type_empty (by simpa using ht)]; simp
  | succ L ih =>
    intro n hw hn x y z v hx hy hz
    have hL1 : L ≤ 30 := by omega
    rw [pow_succ, Nat.mul_comm] at hx hy hz
    obtain ⟨val, c, hc, hch, hget⟩ := create_child_spec hL1 hw hn
    have hd : 0 < 2 ^ L := Nat.pos_pow_of_pos L (by norm_num)
    obtain ⟨ci, hci, hwci, hlci, hgci⟩ := ih hL1 (c (cidx (2 ^ L) x y z)) (hch _).2 (hch _).1
      (x % 2 ^ L) (y % 2 ^ L) (z % 2 ^ L) v (Nat.mod_lt _ hd) (Nat.mod_lt _ hd) (Nat.mod_lt _ hd)
    refine ⟨haschild INTERMEDIATE (L + 1) val (Function.update c (cidx (2 ^ L) x y z) ci),
      ?_, ?_, rfl, ?_⟩
    · unfold set
      rw [hn, set_fuel_step hL1 hn hc (L + 1) hx hy hz v]
      unfold set at hci
      rw [(hch _).1] at hci
      rw [hci]; rfl
    · apply WF_haschild
      intro i
      by_cases hi : i = cidx (2 ^ L) x y z
      · subst hi; simp [hlci, hwci]
      · simp [Function.update_noteq hi, hch i]
    · intro x1 y1 z1 hx1 hy1 hz1
      rw [pow_succ, Nat.mul_comm] at hx1 hy1 hz1
      rw [get_haschild hL1 _ _ hx1 hy1 hz1, hget x1 y1 z1 hx1 hy1 hz1]
      by_cases hi : cidx (2 ^ L) x1 y1 z1 = cidx (2 ^ L) x y z
      · rw [hi, Function.update_same,
          hgci _ _ _ (Nat.mod_lt _ hd) (Nat.mod_lt _ hd) (Nat.mod_lt _ hd)]
        by_cases hm : x1 % 2 ^ L = x % 2 ^ L ∧ y1 % 2 ^ L = y % 2 ^ L ∧ z1 % 2 ^ L = z % 2 ^ L
        · rw [if_pos hm, if_pos (cidx_inj hx1 hy1 hz1 hx hy hz hi hm.1 hm.2.1 hm.2.2)]
        · rw [if_neg hm, if_neg]
          rintro ⟨rfl, rfl, rfl⟩
          exact hm ⟨rfl, rfl, rfl⟩
      · rw [Function.update_noteq hi, if_neg]
        rintro ⟨rfl, rfl, rfl⟩
        exact hi rfl


end node

namespace octree
variable {T : Type}

theorem is_valid_iff (c : octree T) (x y z : Int) :
    c.is_valid x y z = true ↔
      (0 ≤ x ∧ x < c.getDimension) ∧ (0 ≤ y ∧ y < c.getDimension) ∧
      (0 ≤ z ∧ z < c.getDimension) := by
  unfold is_valid
  split_ifs <;> simp <;> omega

theorem init_eq {n : Int} {e : T} {c : octree T} (h : init n e = some c) :
    c = ⟨get_level n, ((2 ^ get_level n : Nat) : Int), e, node.new (get_level n) e⟩ ∧
      get_level n ≤ 30 := by
  unfold init at h
  simp only [] at h
  by_cases hl : get_level n ≤ 30
  · rw [pow2_int_natCast _ hl] at h
    simp only [Option.some.injEq] at h
    exact ⟨h.symm, hl⟩
  · unfold pow2_int at h
    rw [if_neg (by omega), if_neg (by omega)] at h
    simp at h

theorem init_inv {n : Int} {e : T} {c : octree T} (h : init n e = some c) : Inv c := by
  obtain ⟨rfl, hl⟩ := init_eq h
  exact ⟨hl, rfl, node.WF_new _ _, rfl⟩

/-- The effect of `set` at a valid coordinate of a container that satisfies
the invariant. -/
theorem set_valid_spec {c : octree T} (hc : Inv c) {x y z : Int} (v : T)
    (hx : 0 ≤ x ∧ x < c.getDimension) (hy : 0 ≤ y ∧ y < c.getDimension)
    (hz : 0 ≤ z ∧ z < c.getDimension) :
    ∃ c1, c.set x y z v = some c1 ∧ Inv c1 ∧ c1._level = c._level ∧
      c1._dimension = c._dimension ∧ c1._emptyValue = c._emptyValue ∧
      ∀ x1 y1 z1 : Int, 0 ≤ x1 ∧ x1 < c.getDimension → 0 ≤ y1 ∧ y1 < c.getDimension →
        0 ≤ z1 ∧ z1 < c.getDimension →
        c1.get x1 y1 z1 = if x1 = x ∧ y1 = y ∧ z1 = z then some v else c.get x1 y1 z1 := by
  have hv := (is_valid_iff c x y z).2 ⟨hx, hy, hz⟩
  have hd : c.getDimension = ((2 ^ c._level : Nat) : Int) := hc.dimension_eq
  rw [hd] at hx hy hz
  obtain ⟨r, hr, hw, hl, hg⟩ := node.set_spec c._level hc.level_le c._root hc.root_wf
    hc.root_level x.toNat y.toNat z.toNat v (by omega) (by omega) (by omega)
  rw [Int.toNat_of_nonneg hx.1, Int.toNat_of_nonneg hy.1, Int.toNat_of_nonneg hz.1] at hr
  refine ⟨{ c with _root := r }, ?_, ⟨hc.level_le, hc.dimension_eq, hw, hl⟩, rfl, rfl, rfl, ?_⟩
  · unfold set; rw [hv]; simp only [if_true, hr]
  · intro x1 y1 z1 hx1 hy1 hz1
    have hv1 := (is_valid_iff c x1 y1 z1).2 ⟨hx1, hy1, hz1⟩
    have hv2 : is_valid { c with _root := r } x1 y1 z1 = true := hv1
    rw [hd] at hx1 hy1 hz1
    have := hg x1.toNat y1.toNat z1.toNat (by omega) (by omega) (by omega)
    rw [Int.toNat_of_nonneg hx1.1, Int.toNat_of_nonneg hy1.1, Int.toNat_of_nonneg hz1.1] at this
    unfold get
    rw [hv1, hv2]
    simp only [if_true, this]
    have e1 : x1.toNat = x.toNat ↔ x1 = x := by omega
    have e2 : y1.toNat = y.toNat ↔ y1 = y := by omega
    have e3 : z1.toNat = z.toNat ↔ z1 = z := by omega
    simp only [e1, e2, e3]

/-- A `set` at a coordinate that is not valid returns the container as it
is. -/
theorem set_of_not_valid (c : octree T) {x y z : Int} (v : T)
    (h : c.is_valid x y z = false) : c.set x y z v = some c := by
  unfold set; rw [h]; rfl

end octree
end mi

/-! ## `optimize` on well-formed trees -/

namespace mi
namespace node
variable {U : Type}

theorem optimize_loop_all_true {r : Fin 8 → Option (Bool × node U)} {g : Fin 8 → node U}
    (hr : ∀ i, r i = some (true, g i)) :
    ∀ (k : Nat), k ≤ 8 → ∀ c : Fin 8 → node U,
      optimize_loop r k c = some (true, fun i => if 8 - k ≤ i.val then g i else c i) := by
  intro k
  induction k with
  | zero =>
    intro _ c
    unfold optimize_loop
    congr 2
    funext i
    have := i.isLt
    rw [if_neg (by omega)]
  | succ k ih =>
    intro hk c
    have h : 8 - (k + 1) < 8 := by omega
    unfold optimize_loop
    rw [dif_pos h, hr]
    simp only [Bool.not_true, Bool.false_eq_true, if_false]
    rw [ih (by omega)]
    congr 2
    funext i
    by_cases h1 : 8 - k ≤ i.val
    · rw [if_pos h1, if_pos (by omega)]
    · rw [if_neg h1]
      by_cases h2 : i = ⟨8 - (k + 1), h⟩
      · subst h2
        rw [Function.update_same, if_pos (by simp)]
      · rw [Function.update_noteq h2, if_neg]
        intro h3
        apply h2
        apply Fin.ext
        simp only []
        omega

/-- On a well-formed tree `optimize` returns `true` and leaves a leaf of the
same level: the tree itself when it is a leaf. -/
theorem optimize_spec (n : node U) (hw : WF n) :
    ∃ n1, n.optimize = some (true, n1) ∧ n1.type = EMPTY ∧ n1.level = n.level ∧ WF n1 ∧
      (n.type = EMPTY → n1 = n) := by
  induction n with
  | nochild t lv v =>
    have ht : t = EMPTY := hw
    subst ht
    exact ⟨nochild EMPTY lv v, by simp [optimize], rfl, rfl, hw, fun _ => rfl⟩
  | haschild t lv v c ih =>
    rcases hw with ht | ⟨ht, hlv, hch⟩
    · subst ht
      exact ⟨haschild EMPTY lv v c, by simp [optimize], rfl, rfl, Or.inl rfl, fun _ => rfl⟩
    · subst ht
      choose g hg using fun i => ih i (hch i).2
      have hl := optimize_loop_all_true (fun i => (hg i).1) 8 (le_refl _) c
      refine ⟨nochild EMPTY lv (g 0).value, ?_, rfl, rfl, rfl, ?_⟩
      · unfold optimize
        rw [if_pos rfl, hl]
        simp [remove_child, type, level, value]
      · intro h; simp [type] at h

end node
end mi

/-! ## Levels and sequences of calls -/

namespace mi
namespace octree
variable {T : Type}

theorem get_level_loop_spec (n : Int) (hn : n ≤ 1073741824) :
    ∀ (k i : Nat), i ≤ 30 → 30 < i + k → (∀ j, j < i → ((2 ^ j : Nat) : Int) < n) →
      n ≤ ((2 ^ get_level_loop n k i ((2 ^ i : Nat) : Int) : Nat) : Int) ∧
      (∀ j, j < get_level_loop n k i ((2 ^ i : Nat) : Int) → ((2 ^ j : Nat) : Int) < n) ∧
      get_level_loop n k i ((2 ^ i : Nat) : Int) ≤ 30 := by
  intro k
  induction k with
  | zero => intro i h1 h2; omega
  | succ k ih =>
    intro i h1 h2 h3
    unfold get_level_loop
    by_cases h : n ≤ ((2 ^ i : Nat) : Int)
    · rw [if_pos h]; exact ⟨h, h3, h1⟩
    · rw [if_neg h]
      have hi : i < 30 := by
        by_contra hc
        have : i = 30 := by omega
        subst this
        norm_num at h
        omega
      have hp : 2 ^ i ≤ 2 ^ 29 := Nat.pow_le_pow_right (by norm_num) (by omega)
      have e : wrap_int (((2 ^ i : Nat) : Int) * 2) = ((2 ^ (i + 1) : Nat) : Int) := by
        rw [pow_succ]
        norm_num at hp
        generalize 2 ^ i = p at hp ⊢
        unfold wrap_int
        simp only []
        split_ifs <;> omega
      rw [e]
      apply ih (i + 1) (by omega) (by omega)
      intro j hj
      by_cases hji : j = i
      · subst hji; omega
      · exact h3 j (by omega)

/-- For a requested dimension between 1 and `2^30`, `get_level` returns the
smallest level whose power of two is at least the dimension. -/
theorem get_level_spec (n : Int) (hn : n ≤ 1073741824) :
    n ≤ ((2 ^ get_level n : Nat) : Int) ∧
      (∀ j, j < get_level n → ((2 ^ j : Nat) : Int) < n) ∧ get_level n ≤ 30 := by
  have := get_level_loop_spec n hn 255 0 (by omega) (by omega) (by intro j hj; omega)
  simpa [get_level] using this

theorem apply_inv {c : octree T} (hc : Inv c) (op : Op T) :
    ∃ c1, c.apply op = some c1 ∧ Inv c1 ∧ c1._level = c._level ∧
      c1._dimension = c._dimension ∧ c1._emptyValue = c._emptyValue := by
  cases op with
  | set x y z v =>
    by_cases hv : c.is_valid x y z = true
    · obtain ⟨hx, hy, hz⟩ := (is_valid_iff c x y z).1 hv
      obtain ⟨c1, h1, h2, h3, h4, h5, _⟩ := set_valid_spec hc v hx hy hz
      exact ⟨c1, h1, h2, h3, h4, h5⟩
    · exact ⟨c, set_of_not_valid c v (by simpa using hv), hc, rfl, rfl, rfl⟩
  | optimize opt =>
    cases opt with
    | false => exact ⟨c, rfl, hc, rfl, rfl, rfl⟩
    | true =>
      obtain ⟨r, h1, _, h3, h4, _⟩ := node.optimize_spec c._root hc.root_wf
      refine ⟨{ c with _root := r }, ?_, ⟨hc.level_le, hc.dimension_eq, h4, ?_⟩, rfl, rfl, rfl⟩
      · simp [apply, optimize, h1]
      · exact h3.trans hc.root_level

theorem run_inv {ops : List (Op T)} : ∀ {c0 c : octree T}, Inv c0 → run c0 ops = some c →
    Inv c ∧ c._level = c0._level ∧ c._dimension = c0._dimension ∧
      c._emptyValue = c0._emptyValue := by
  induction ops with
  | nil =>
    intro c0 c h0 hr
    simp only [run, Option.some.injEq] at hr
    subst hr
    exact ⟨h0, rfl, rfl, rfl⟩
  | cons op ops ih =>
    intro c0 c h0 hr
    obtain ⟨c1, h1, h2, h3, h4, h5⟩ := apply_inv h0 op
    simp only [run, h1] at hr
    obtain ⟨i1, i2, i3, i4⟩ := ih h2 hr
    exact ⟨i1, i2.trans h3, i3.trans h4, i4.trans h5⟩

/-- No sequence of calls on a container that satisfies the invariant runs
into undefined behaviour. -/
theorem run_total {ops : List (Op T)} : ∀ {c0 : octree T}, Inv c0 → ∃ c, run c0 ops = some c := by
  induction ops with
  | nil => intro c0 _; exact ⟨c0, rfl⟩
  | cons op ops ih =>
    intro c0 h0
    obtain ⟨c1, h1, h2, _⟩ := apply_inv h0 op
    obtain ⟨c, hc⟩ := ih h2
    exact ⟨c, by simp only [run, h1, hc]⟩

theorem Reached.inv {n : Int} {e : T} {c : octree T} (h : Reached n e c) :
    Inv c ∧ c._emptyValue = e := by
  obtain ⟨c0, ops, h0, hr⟩ := h
  obtain ⟨i1, _, _, i4⟩ := run_inv (init_inv h0) hr
  refine ⟨i1, i4.trans ?_⟩
  rw [(init_eq h0).1]

theorem ReachedBySet.reached {n : Int} {e : T} {c : octree T} (h : ReachedBySet n e c) :
    Reached n e c := by
  obtain ⟨c0, ops, h0, _, hr⟩ := h
  exact ⟨c0, ops, h0, hr⟩

end octree
end mi

/-! ## The bounding box of a well-formed tree -/

namespace mi
namespace node
variable {U : Type}

theorem boundingbox_loop_eq (d : Int) {r : Fin 8 → Option (Bool × Box)}
    {ri : Fin 8 → Bool × Box} (hr : ∀ i, r i = some (ri i)) (m : Box) :
    boundingbox_loop d r m =
      some (([0, 1, 2, 3, 4, 5, 6, 7] : List (Fin 8)).foldl
        (fun m1 i => boundingbox_at d ri i m1) m) := by
  simp only [boundingbox_loop, List.foldlM, hr, Option.bind_eq_bind, Option.some_bind,
    Option.pure_def, List.foldl]
  rfl


theorem half_pow_succ (L : Nat) : ((2 ^ (L + 1) : Nat) : Int) / 2 = ((2 ^ L : Nat) : Int) := by
  rw [pow_succ]; push_cast; exact Int.mul_ediv_cancel _ (by norm_num)

theorem cbit_two (i : Fin 8) : cbit 2 i = i.val / 4 := by
  have := i.isLt
  simp only [cbit]
  norm_num
  omega

theorem boundingbox_at_mn (L : Nat) (ri : Fin 8 → Bool × Box) (i : Fin 8) (m : Box)
    (a : Fin 3) :
    (boundingbox_at ((2 ^ (L + 1) : Nat) : Int) ri i m).mn a =
      if (ri i).1 = true then
        if (ri i).2.mn a + coff L a i < m.mn a
        then (ri i).2.mn a + coff L a i else m.mn a
      else m.mn a := by
  unfold boundingbox_at boundingbox_step
  rw [half_pow_succ]
  cases h : (ri i).1
  · simp
  · fin_cases a
    · simp [Box.mn, cbit, coff]
    · simp [Box.mn, cbit, coff]
    · simp [Box.mn, cbit_two, coff]

theorem boundingbox_at_mx (L : Nat) (ri : Fin 8 → Bool × Box) (i : Fin 8) (m : Box)
    (a : Fin 3) :
    (boundingbox_at ((2 ^ (L + 1) : Nat) : Int) ri i m).mx a =
      if (ri i).1 = true then
        if (ri i).2.mx a + coff L a i > m.mx a
        then (ri i).2.mx a + coff L a i else m.mx a
      else m.mx a := by
  unfold boundingbox_at boundingbox_step
  rw [half_pow_succ]
  cases h : (ri i).1
  · simp
  · fin_cases a
    · simp [Box.mx, cbit, coff]
    · simp [Box.mx, cbit, coff]
    · simp [Box.mx, cbit_two, coff]


theorem cbit_lt_two (a : Fin 3) (i : Fin 8) : cbit a i < 2 := Nat.mod_lt _ (by norm_num)

theorem cbit_sum (i : Fin 8) : cbit 0 i + 2 * cbit 1 i + 4 * cbit 2 i = i.val := by
  have := i.isLt
  simp only [cbit]
  norm_num
  omega

theorem bits_of_sum {q0 q1 q2 : Nat} (h0 : q0 < 2) (h1 : q1 < 2) (h2 : q2 < 2) :
    (q0 + 2 * q1 + 4 * q2) / 1 % 2 = q0 ∧ (q0 + 2 * q1 + 4 * q2) / 2 % 2 = q1 ∧
      (q0 + 2 * q1 + 4 * q2) / 4 % 2 = q2 := by
  omega

/-- The quotient of a coordinate by the side of the children is the bit of the
child index on that axis. -/
theorem div_eq_cbit {d : Nat} {p : Fin 3 → Nat} (hp : ∀ a, p a < 2 * d) (a : Fin 3) :
    p a / d = cbit a (cidx d (p 0) (p 1) (p 2)) := by
  obtain ⟨b0, b1, b2⟩ := bits_of_sum (div_lt_two (hp 0)) (div_lt_two (hp 1)) (div_lt_two (hp 2))
  simp only [cbit, cidx_val (hp 0) (hp 1) (hp 2)]
  fin_cases a
  · simpa using b0.symm
  · simpa using b1.symm
  · simpa using b2.symm

theorem coord_eq_mod_add_coff {L : Nat} {p : Fin 3 → Nat} (hp : ∀ a, p a < 2 * 2 ^ L)
    (a : Fin 3) :
    (p a : Int) = ((p a % 2 ^ L : Nat) : Int) + coff L a (cidx (2 ^ L) (p 0) (p 1) (p 2)) := by
  unfold coff
  rw [← div_eq_cbit hp a]
  have := Nat.mod_add_div (p a) (2 ^ L)
  exact_mod_cast this.symm

/-- The voxel of child `i` with local coordinates `q`, in the coordinates of
the parent. -/
theorem lift_voxel {L : Nat} {q : Fin 3 → Nat} (hq : ∀ a, q a < 2 ^ L) (i : Fin 8) :
    (∀ a, q a + 2 ^ L * cbit a i < 2 * 2 ^ L) ∧
    cidx (2 ^ L) (q 0 + 2 ^ L * cbit 0 i) (q 1 + 2 ^ L * cbit 1 i) (q 2 + 2 ^ L * cbit 2 i) = i ∧
    (∀ a, (q a + 2 ^ L * cbit a i) % 2 ^ L = q a) ∧
    (∀ a, ((q a + 2 ^ L * cbit a i : Nat) : Int) = (q a : Int) + coff L a i) := by
  have hd : 0 < 2 ^ L := Nat.pos_pow_of_pos L (by norm_num)
  have hlt : ∀ a, q a + 2 ^ L * cbit a i < 2 * 2 ^ L := by
    intro a
    have h1 := cbit_lt_two a i
    have h2 : 2 ^ L * cbit a i ≤ 2 ^ L * 1 := Nat.mul_le_mul_left _ (by omega)
    have := hq a
    omega
  have hdiv : ∀ a, (q a + 2 ^ L * cbit a i) / 2 ^ L = cbit a i := by
    intro a
    rw [Nat.add_mul_div_left _ _ hd, Nat.div_eq_of_lt (hq a), Nat.zero_add]
  refine ⟨hlt, ?_, ?_, ?_⟩
  · apply Fin.ext
    rw [cidx_val (hlt 0) (hlt 1) (hlt 2), hdiv, hdiv, hdiv]
    exact cbit_sum i
  · intro a
    rw [Nat.add_mul_mod_self_left, Nat.mod_eq_of_lt (hq a)]
  · intro a
    unfold coff
    push_cast
    rfl

theorem occ_haschild {L : Nat} (hL : L ≤ 30) (v : U) (c : Fin 8 → node U) (e : U)
    (p : Fin 3 → Nat) :
    occ (haschild INTERMEDIATE (L + 1) v c) e (L + 1) p ↔
      (∀ a, p a < 2 * 2 ^ L) ∧
        occ (c (cidx (2 ^ L) (p 0) (p 1) (p 2))) e L (fun a => p a % 2 ^ L) := by
  have hd : 0 < 2 ^ L := Nat.pos_pow_of_pos L (by norm_num)
  have e1 : 2 ^ (L + 1) = 2 * 2 ^ L := by rw [pow_succ, Nat.mul_comm]
  unfold occ
  rw [e1]
  constructor
  · rintro ⟨hp, u, hu, hne⟩
    refine ⟨hp, fun a => Nat.mod_lt _ hd, u, ?_, hne⟩
    rw [← hu, get_haschild hL v c (hp 0) (hp 1) (hp 2)]
  · rintro ⟨hp, _, u, hu, hne⟩
    refine ⟨hp, u, ?_, hne⟩
    rw [← hu, get_haschild hL v c (hp 0) (hp 1) (hp 2)]


theorem LoopInv_start (n : node U) (e : U) (L : Nat) :
    LoopInv n e L (fun _ => False) (Box.start ((2 ^ (L + 1) : Nat) : Int)) := by
  intro a
  refine ⟨fun _ _ h => h.elim, Or.inl ?_, Or.inl ?_⟩
  · fin_cases a <;> rfl
  · fin_cases a <;> rfl

theorem LoopInv_step {L : Nat} (hL : L ≤ 30) (v : U) (c : Fin 8 → node U) (e : U)
    {ri : Fin 8 → Bool × Box} {i : Fin 8} {P : Fin 8 → Prop} {m : Box}
    (hspec : BoxSpec (c i) e L (ri i))
    (hinv : LoopInv (haschild INTERMEDIATE (L + 1) v c) e L P m) :
    LoopInv (haschild INTERMEDIATE (L + 1) v c) e L (fun j => P j ∨ j = i)
      (boundingbox_at ((2 ^ (L + 1) : Nat) : Int) ri i m) := by
  intro a
  obtain ⟨hA, hB, hC⟩ := hinv a
  obtain ⟨s1, s2, _⟩ := hspec
  rw [boundingbox_at_mn, boundingbox_at_mx]
  cases hv : (ri i).1 with
  | false =>
    simp only [Bool.false_eq_true, if_false]
    have hno : ¬ ∃ q, occ (c i) e L q := fun h => by
      have := s1.2 h; rw [hv] at this; exact Bool.noConfusion this
    refine ⟨?_, ?_, ?_⟩
    · intro p hp hP
      rcases hP with hP | hP
      · exact hA p hp hP
      · exfalso
        apply hno
        have := ((occ_haschild hL v c e p).1 hp).2
        rw [hP] at this
        exact ⟨_, this⟩
    · rcases hB with h | ⟨p, h1, h2, h3⟩
      · exact Or.inl h
      · exact Or.inr ⟨p, h1, Or.inl h2, h3⟩
    · rcases hC with h | ⟨p, h1, h2, h3⟩
      · exact Or.inl h
      · exact Or.inr ⟨p, h1, Or.inl h2, h3⟩
  | true =>
    simp only [if_true]
    obtain ⟨sA, ⟨qn, hqn, hqn1⟩, ⟨qx, hqx, hqx1⟩⟩ := s2 hv a
    refine ⟨?_, ?_, ?_⟩
    · intro p hp hP
      rcases hP with hP | hP
      · have := hA p hp hP
        constructor <;> split_ifs <;> omega
      · have hp1 := (occ_haschild hL v c e p).1 hp
        have hdec := coord_eq_mod_add_coff hp1.1 a
        have hp2 := hp1.2
        rw [hP] at hp2 hdec
        have := sA _ hp2
        simp only [] at this
        constructor <;> split_ifs <;> omega
    · by_cases hlt : (ri i).2.mn a + coff L a i < m.mn a
      · rw [if_pos hlt]
        right
        obtain ⟨l1, l2, l3, l4⟩ := lift_voxel hqn.1 i
        refine ⟨fun b => qn b + 2 ^ L * cbit b i, ?_, Or.inr l2, ?_⟩
        · rw [occ_haschild hL v c e]
          refine ⟨l1, ?_⟩
          simp only [l2, l3]
          exact hqn
        · rw [l4 a, hqn1]
      · rw [if_neg hlt]
        rcases hB with h | ⟨p, h1, h2, h3⟩
        · exact Or.inl h
        · exact Or.inr ⟨p, h1, Or.inl h2, h3⟩
    · by_cases hlt : (ri i).2.mx a + coff L a i > m.mx a
      · rw [if_pos hlt]
        right
        obtain ⟨l1, l2, l3, l4⟩ := lift_voxel hqx.1 i
        refine ⟨fun b => qx b + 2 ^ L * cbit b i, ?_, Or.inr l2, ?_⟩
        · rw [occ_haschild hL v c e]
          refine ⟨l1, ?_⟩
          simp only [l2, l3]
          exact hqx
        · rw [l4 a, hqx1]
      · rw [if_neg hlt]
        rcases hC with h | ⟨p, h1, h2, h3⟩
        · exact Or.inl h
        · exact Or.inr ⟨p, h1, Or.inl h2, h3⟩

theorem LoopInv_congr {n : node U} {e : U} {L : Nat} {P Q : Fin 8 → Prop} {m : Box}
    (h : ∀ i, P i ↔ Q i) (hinv : LoopInv n e L P m) : LoopInv n e L Q m := by
  have : P = Q := funext fun i => propext (h i)
  rwa [← this]

theorem LoopInv_foldl {L : Nat} (hL : L ≤ 30) (v : U) (c : Fin 8 → node U) (e : U)
    {ri : Fin 8 → Bool × Box} (hspec : ∀ i, BoxSpec (c i) e L (ri i)) :
    ∀ (l done : List (Fin 8)) (m : Box),
      LoopInv (haschild INTERMEDIATE (L + 1) v c) e L (fun j => j ∈ done) m →
      LoopInv (haschild INTERMEDIATE (L + 1) v c) e L (fun j => j ∈ done ++ l)
        (l.foldl (fun m1 i => boundingbox_at ((2 ^ (L + 1) : Nat) : Int) ri i m1) m) := by
  intro l
  induction l with
  | nil => intro done m h; simpa using h
  | cons i l ih =>
    intro done m h
    have h1 := LoopInv_step hL v c e (hspec i) h
    have h2 := ih (done ++ [i]) _ (LoopInv_congr (fun j => by simp) h1)
    simpa using h2

/-- When the loops of `boundingbox` are done, the flag and the box are as
`BoxSpec` asks. -/
theorem LoopInv_final {n : node U} {e : U} {L : Nat} {m : Box}
    (hinv : LoopInv n e L (fun _ => True) m) :
    BoxSpec n e (L + 1) (decide (m.mnx ≤ m.mxx ∧ m.mny ≤ m.mxy ∧ m.mnz ≤ m.mxz), m) := by
  have hd : 0 < 2 ^ L := Nat.pos_pow_of_pos L (by norm_num)
  have e1 : ((2 ^ (L + 1) : Nat) : Int) = 2 * ((2 ^ L : Nat) : Int) := by
    rw [pow_succ]; push_cast; ring
  have hval : (decide (m.mnx ≤ m.mxx ∧ m.mny ≤ m.mxy ∧ m.mnz ≤ m.mxz) = true) ↔
      ∀ a, m.mn a ≤ m.mx a := by
    rw [decide_eq_true_iff]
    constructor
    · rintro ⟨h0, h1, h2⟩ a
      fin_cases a
      · exact h0
      · exact h1
      · exact h2
    · intro h
      exact ⟨h 0, h 1, h 2⟩
  have hiff : (∀ a, m.mn a ≤ m.mx a) ↔ ∃ p, occ n e (L + 1) p := by
    constructor
    · intro h
      by_contra hno
      obtain ⟨_, hB, hC⟩ := hinv 0
      have h0 := h 0
      rcases hB with hB | ⟨p, hp, _⟩
      · rcases hC with hC | ⟨p, hp, _⟩
        · rw [hB, hC, e1] at h0
          have : (1 : Int) ≤ ((2 ^ L : Nat) : Int) := by exact_mod_cast hd
          omega
        · exact hno ⟨p, hp⟩
      · exact hno ⟨p, hp⟩
    · rintro ⟨p, hp⟩ a
      have := (hinv a).1 p hp trivial
      omega
  refine ⟨?_, ?_, ?_⟩
  · simp only []
    rw [hval, hiff]
  · intro hv a
    simp only [] at hv ⊢
    obtain ⟨p0, hp0⟩ := hiff.1 (hval.1 hv)
    obtain ⟨hA, hB, hC⟩ := hinv a
    have hin := hA p0 hp0 trivial
    have hlt : (p0 a : Int) < ((2 ^ (L + 1) : Nat) : Int) := by exact_mod_cast hp0.1 a
    refine ⟨fun p hp => hA p hp trivial, ?_, ?_⟩
    · rcases hB with hB | ⟨p, hp, _, h3⟩
      · exact ⟨p0, hp0, by omega⟩
      · exact ⟨p, hp, h3⟩
    · rcases hC with hC | ⟨p, hp, _, h3⟩
      · exact ⟨p0, hp0, by omega⟩
      · exact ⟨p, hp, h3⟩
  · intro hv
    simp only [] at hv ⊢
    have hno : ¬ ∃ p, occ n e (L + 1) p := by
      rw [← hiff, ← hval, hv]; simp
    have hB : ∀ a, m.mn a = ((2 ^ (L + 1) : Nat) : Int) - 1 := by
      intro a
      rcases (hinv a).2.1 with h | ⟨p, hp, _⟩
      · exact h
      · exact (hno ⟨p, hp⟩).elim
    have hC : ∀ a, m.mx a = 0 := by
      intro a
      rcases (hinv a).2.2 with h | ⟨p, hp, _⟩
      · exact h
      · exact (hno ⟨p, hp⟩).elim
    have b0 := hB 0
    have b1 := hB 1
    have b2 := hB 2
    have c0 := hC 0
    have c1 := hC 1
    have c2 := hC 2
    simp only [Box.mn, Box.mx, Matrix.cons_val_zero, Matrix.cons_val_one, Matrix.head_cons,
      Matrix.cons_val_two, Matrix.tail_cons] at b0 b1 b2 c0 c1 c2
    cases m
    simp only [Box.start, Box.mk.injEq]
    simp only [] at b0 b1 b2 c0 c1 c2
    exact ⟨b0, b1, b2, c0, c1, c2⟩


theorem BoxSpec_leaf [DecidableEq U] {n : node U} (ht : n.type = EMPTY) (e : U) (L : Nat) :
    BoxSpec n e L
      (if n.value ≠ e then
        (true, ⟨0, 0, 0, ((2 ^ L : Nat) : Int) - 1, ((2 ^ L : Nat) : Int) - 1,
          ((2 ^ L : Nat) : Int) - 1⟩)
      else (false, Box.start ((2 ^ L : Nat) : Int))) := by
  have hd : 0 < 2 ^ L := Nat.pos_pow_of_pos L (by norm_num)
  have hocc : ∀ p, occ n e L p ↔ (∀ a, p a < 2 ^ L) ∧ n.value ≠ e := by
    intro p
    unfold occ
    rw [get_of_type_empty ht]
    simp
  by_cases hv : n.value ≠ e
  · rw [if_pos hv]
    refine ⟨?_, ?_, ?_⟩
    · simp only [true_iff]
      exact ⟨fun _ => 0, (hocc _).2 ⟨fun _ => hd, hv⟩⟩
    · intro _ a
      have hmn : (Box.mn ⟨0, 0, 0, ((2 ^ L : Nat) : Int) - 1, ((2 ^ L : Nat) : Int) - 1,
          ((2 ^ L : Nat) : Int) - 1⟩ a) = 0 := by fin_cases a <;> rfl
      have hmx : (Box.mx ⟨0, 0, 0, ((2 ^ L : Nat) : Int) - 1, ((2 ^ L : Nat) : Int) - 1,
          ((2 ^ L : Nat) : Int) - 1⟩ a) = ((2 ^ L : Nat) : Int) - 1 := by fin_cases a <;> rfl
      simp only [hmn, hmx]
      refine ⟨?_, ?_, ?_⟩
      · intro p hp
        have := ((hocc p).1 hp).1 a
        omega
      · exact ⟨fun _ => 0, (hocc _).2 ⟨fun _ => hd, hv⟩, rfl⟩
      · refine ⟨fun _ => 2 ^ L - 1, (hocc _).2 ⟨fun _ => by omega, hv⟩, ?_⟩
        simp only []
        omega
    · intro h; simp at h
  · rw [if_neg hv]
    refine ⟨?_, ?_, ?_⟩
    · simp only [Bool.false_eq_true, false_iff]
      rintro ⟨p, hp⟩
      exact hv ((hocc p).1 hp).2
    · intro h; simp at h
    · intro _; rfl

/-- On a well-formed tree of level at most 30, `boundingbox` returns, and what
it returns is as `BoxSpec` asks. -/
theorem boundingbox_spec [DecidableEq U] (e : U) (n : node U) (hw : WF n) :
    ∀ L, L ≤ 30 → n.level = L → ∃ r, n.boundingbox e = some r ∧ BoxSpec n e L r := by
  induction n with
  | nochild t lv v =>
    intro L hL hl
    have ht : t = EMPTY := hw
    subst ht
    simp only [level] at hl
    subst hl
    refine ⟨_, ?_, BoxSpec_leaf (n := nochild EMPTY lv v) rfl e lv⟩
    unfold boundingbox
    rw [pow2_int_natCast _ hL]
    simp only [if_true, value, Box.start]
    split_ifs <;> rfl
  | haschild t lv v c ih =>
    intro L hL hl
    simp only [level] at hl
    subst hl
    rcases hw with ht | ⟨ht, hlv, hch⟩
    · subst ht
      refine ⟨_, ?_, BoxSpec_leaf (n := haschild EMPTY lv v c) rfl e lv⟩
      unfold boundingbox
      rw [pow2_int_natCast _ hL]
      simp only [if_true, value, Box.start]
      split_ifs <;> rfl
    · subst ht
      obtain ⟨L0, rfl⟩ := Nat.exists_eq_succ_of_ne_zero hlv
      have hL0 : L0 ≤ 30 := by omega
      choose ri hri using fun i => ih i (hch i).2 L0 hL0 (hch i).1
      have hinv := LoopInv_foldl hL0 v c e (fun i => (hri i).2) [0, 1, 2, 3, 4, 5, 6, 7] []
        (Box.start ((2 ^ (L0 + 1) : Nat) : Int))
        (LoopInv_congr (fun j => by simp) (LoopInv_start _ e L0))
      have hinv2 := LoopInv_congr (Q := fun _ => True) (fun j => by
        simp only [List.nil_append, iff_true]; fin_cases j <;> simp) hinv
      refine ⟨_, ?_, LoopInv_final hinv2⟩
      unfold boundingbox
      rw [pow2_int_natCast _ hL]
      simp only [INTERMEDIATE_ne_EMPTY, if_false, if_true]
      rw [boundingbox_loop_eq _ (fun i => (hri i).1)]
      rfl

end node
end mi

/-! ## Writing a tree and reading it back -/

namespace mi

theorem ofstream_write_good (s : ofstream) (bs : List Byte) (h : s.fail = false) :
    s.write bs = { s with data := s.data ++ bs } ∧ (s.write bs).fail = false := by
  unfold ofstream.write
  rw [h]
  exact ⟨rfl, h⟩

theorem ofstream_write_data (s : ofstream) (d bs : List Byte) (h : s.fail = false) :
    ({ s with data := d } : ofstream).write bs = { s with data := d ++ bs } :=
  (ofstream_write_good { s with data := d } bs h).1

theorem ifstream_read_good (s : ifstream) (bs rest : List Byte) (h : s.good = true)
    (hd : s.data = bs ++ rest) :
    s.read bs.length = (bs, { s with data := rest }) := by
  unfold ifstream.read
  rw [h, if_pos rfl, hd, if_pos (by simp)]
  simp

theorem ifstream_good_flags {s : ifstream} (h : s.good = true) (d : List Byte) :
    ({ s with data := d } : ifstream).good = true ∧ ({ s with data := d } : ifstream).fail = false ∧
      ({ s with data := d } : ifstream).bad = false := by
  unfold ifstream.good at h
  unfold ifstream.good ifstream.fail ifstream.bad
  simp only [] at h ⊢
  cases h1 : s.eofbit <;> cases h2 : s.failbit <;> cases h3 : s.badbit <;> simp_all

theorem store_full (old got : List Byte) (h : old.length ≤ got.length) : store old got = got := by
  unfold store
  rw [List.drop_eq_nil_of_le h, List.append_nil]

namespace node
variable {U : Type}

theorem encode_from_eight (enc : Fin 8 → List Byte) :
    encode_from enc 8 =
      enc 0 ++ enc 1 ++ enc 2 ++ enc 3 ++ enc 4 ++ enc 5 ++ enc 6 ++ enc 7 := by
  simp [encode_from]

theorem encode_haschild (L : Layout U) (lv : Nat) (v : U) (c : Fin 8 → node U) :
    encode L (haschild INTERMEDIATE lv v c) =
      INTERMEDIATE :: encode_from (fun i => encode L (c i)) 8 := by
  rw [encode_from_eight]
  simp [encode]

theorem encode_of_type_empty (L : Layout U) {n : node U} (h : n.type = EMPTY) :
    encode L n = EMPTY :: L.toBytes n.value := by
  cases n <;> simp_all [encode, type, value]

theorem length_le_encode_from (enc : Fin 8 → List Byte) :
    ∀ (k : Nat) (j : Fin 8), 8 - k ≤ j.val → (enc j).length ≤ (encode_from enc k).length := by
  intro k
  induction k with
  | zero => intro j hj; have := j.isLt; omega
  | succ k ih =>
    intro j hj
    by_cases hk : 8 - (k + 1) < 8
    · unfold encode_from
      rw [dif_pos hk, List.length_append]
      by_cases h : j = ⟨8 - (k + 1), hk⟩
      · subst h; omega
      · have : 8 - k ≤ j.val := by
          have : j.val ≠ 8 - (k + 1) := fun h2 => h (Fin.ext h2)
          omega
        have := ih j this
        omega
    · have := j.isLt; omega

theorem write_loop_spec {w : Fin 8 → ofstream → Option (Bool × ofstream)}
    {E : Fin 8 → List Byte}
    (hw : ∀ i s, s.fail = false → w i s = some (true, { s with data := s.data ++ E i })) :
    ∀ (k : Nat) (s : ofstream), s.fail = false →
      write_loop w k s = some (true, { s with data := s.data ++ encode_from E k }) := by
  intro k
  induction k with
  | zero => intro s _; simp [write_loop, encode_from]
  | succ k ih =>
    intro s hs
    unfold write_loop encode_from
    by_cases hk : 8 - (k + 1) < 8
    · rw [dif_pos hk, dif_pos hk, hw _ s hs]
      simp only [Bool.not_true, Bool.false_eq_true, if_false]
      rw [ih ⟨s.data ++ E ⟨8 - (k + 1), hk⟩, s.failbit, s.badbit⟩ hs]
      simp
    · rw [dif_neg hk, dif_neg hk]
      omega

/-- On a well-formed tree and a stream that has not failed, `write` returns
`true` and appends the encoding of the tree. -/
theorem write_spec (L : Layout U) (n : node U) (hw : WF n) :
    ∀ s : ofstream, s.fail = false →
      n.write L s = some (true, { s with data := s.data ++ encode L n }) := by
  induction n with
  | nochild t lv v =>
    intro s hs
    have ht : t = EMPTY := hw
    subst ht
    simp only [write, EMPTY_ne_INTERMEDIATE, if_false, if_true, encode]
    rw [(ofstream_write_good s [EMPTY] hs).1, ofstream_write_data s _ _ hs]
    simp
  | haschild t lv v c ih =>
    intro s hs
    rcases hw with ht | ⟨ht, _, hch⟩
    · subst ht
      simp only [write, EMPTY_ne_INTERMEDIATE, if_false, if_true, encode]
      rw [(ofstream_write_good s [EMPTY] hs).1, ofstream_write_data s _ _ hs]
      simp
    · subst ht
      obtain ⟨h1, h2⟩ := ofstream_write_good s [INTERMEDIATE] hs
      rw [encode_haschild]
      simp only [write, if_true]
      rw [write_loop_spec (E := fun i => encode L (c i)) (fun i s1 hs1 => ih i (hch i).2 s1 hs1)
        8 _ h2, h1]
      simp

theorem get_congr_haschild {lv : Nat} {v v1 : U} {c c1 : Fin 8 → node U}
    (h : ∀ i x y z, (c1 i).get x y z = (c i).get x y z) (x y z : Int) :
    (haschild INTERMEDIATE lv v1 c1).get x y z = (haschild INTERMEDIATE lv v c).get x y z := by
  unfold get
  simp only [if_true]
  cases pow2_int ((lv : Int) - 1) with
  | none => rfl
  | some d =>
    simp only []
    split_ifs
    · rfl
    · exact h _ _ _ _
    · rfl


theorem read_fuel_leaf (L : Layout U) (hL : L.Lawful) (f : Nat) (m : node U) (s : ifstream)
    (v : U) (rest : List Byte) (hs : s.good = true)
    (hd : s.data = EMPTY :: (L.toBytes v ++ rest)) :
    read_fuel L (f + 1) m s = some (true, m.set_value v, { s with data := rest }) := by
  have h1 := ifstream_read_good s [EMPTY] (L.toBytes v ++ rest) hs hd
  obtain ⟨g1, g2, _⟩ := ifstream_good_flags hs (L.toBytes v ++ rest)
  have h2 := ifstream_read_good { s with data := L.toBytes v ++ rest } (L.toBytes v) rest g1 rfl
  obtain ⟨_, _, g3⟩ := ifstream_good_flags hs rest
  rw [hL.length_toBytes] at h2
  simp only [List.length_singleton] at h1
  unfold read_fuel
  simp only [h1, g2, Bool.false_eq_true, if_false, List.getD_cons_zero, EMPTY_ne_INTERMEDIATE,
    if_true, h2]
  rw [store_full _ _ (by rw [hL.length_toBytes, hL.length_toBytes]), hL.ofBytes_toBytes]
  simp only [g3, Bool.not_false]

theorem read_fuel_intermediate (L : Layout U) (f : Nat) (m : node U) (s : ifstream)
    (rest : List Byte) (hm : m.type = EMPTY) (hs : s.good = true)
    (hd : s.data = INTERMEDIATE :: rest) :
    read_fuel L (f + 1) m s =
      match read_loop (read_fuel L f) 8 (fun _ => new (dec_level m.level) m.value)
          { s with data := rest } with
      | none => none
      | some (ok, c1, fin2) => some (ok, haschild INTERMEDIATE m.level m.value c1, fin2) := by
  have h1 := ifstream_read_good s [INTERMEDIATE] rest hs hd
  obtain ⟨_, g2, _⟩ := ifstream_good_flags hs rest
  simp only [List.length_singleton] at h1
  conv_lhs => unfold read_fuel
  simp only [h1, g2, Bool.false_eq_true, if_false, List.getD_cons_zero, if_true,
    create_child_of_type_empty hm, child]
  rfl

theorem read_loop_spec {R : node U → ifstream → Option (Bool × node U × ifstream)}
    {E : Fin 8 → List Byte} {P : node U → Prop} {Q : Fin 8 → node U → Prop}
    (hrd : ∀ (i : Fin 8) (m : node U) (rest : List Byte) (s : ifstream), P m →
      s.good = true → s.data = E i ++ rest →
      ∃ n1, R m s = some (true, n1, { s with data := rest }) ∧ Q i n1) :
    ∀ (k : Nat), k ≤ 8 → ∀ (c : Fin 8 → node U) (rest : List Byte) (s : ifstream),
      (∀ j : Fin 8, 8 - k ≤ j.val → P (c j)) → s.good = true →
      s.data = encode_from E k ++ rest →
      ∃ c1, read_loop R k c s = some (true, c1, { s with data := rest }) ∧
        (∀ j : Fin 8, 8 - k ≤ j.val → Q j (c1 j)) ∧ (∀ j : Fin 8, j.val < 8 - k → c1 j = c j) := by
  intro k
  induction k with
  | zero =>
    intro _ c rest s _ hs hd
    refine ⟨c, ?_, ?_, fun _ _ => rfl⟩
    · simp only [encode_from, List.nil_append] at hd
      simp only [read_loop, ← hd]
    · intro j hj; have := j.isLt; omega
  | succ k ih =>
    intro hk c rest s hpre hs hd
    have h8 : 8 - (k + 1) < 8 := by omega
    unfold encode_from at hd
    rw [dif_pos h8, List.append_assoc] at hd
    obtain ⟨n1, hn1, hq1⟩ := hrd ⟨8 - (k + 1), h8⟩ (c ⟨8 - (k + 1), h8⟩) _ s
      (hpre _ (le_refl _)) hs hd
    obtain ⟨g1, _, _⟩ := ifstream_good_flags hs (encode_from E k ++ rest)
    obtain ⟨c1, hc1, hq, hsame⟩ := ih (by omega) (Function.update c ⟨8 - (k + 1), h8⟩ n1) rest
      { s with data := encode_from E k ++ rest } (by
        intro j hj
        have hne : j ≠ ⟨8 - (k + 1), h8⟩ := by
          intro h; rw [h] at hj; simp only [] at hj; omega
        rw [Function.update_noteq hne]
        exact hpre j (by omega)) g1 rfl
    refine ⟨c1, ?_, ?_, ?_⟩
    · unfold read_loop
      rw [dif_pos h8, hn1]
      simp only [Bool.not_true, Bool.false_eq_true, if_false]
      exact hc1
    · intro j hj
      by_cases hjk : 8 - k ≤ j.val
      · exact hq j hjk
      · have hje : j = ⟨8 - (k + 1), h8⟩ := Fin.ext (by simp only []; omega)
        rw [hsame j (by omega), hje, Function.update_same]
        exact hq1
    · intro j hj
      have hne : j ≠ ⟨8 - (k + 1), h8⟩ := by
        intro h; rw [h] at hj; simp only [] at hj; omega
      rw [hsame j (by omega), Function.update_noteq hne]

/-- Reading the encoding of a well-formed tree into a fresh leaf of the same
level returns `true`, consumes exactly the encoding, and leaves a well-formed
tree of that level on which `get` returns what it returns on the tree that
was written. -/
theorem read_spec (L : Layout U) (hL : L.Lawful) (n : node U) (hw : WF n) :
    ∀ (fuel : Nat) (m : node U) (s : ifstream) (rest : List Byte),
      (encode L n).length ≤ fuel → m.type = EMPTY → m.level = n.level → s.good = true →
      s.data = encode L n ++ rest →
      ∃ n1, read_fuel L fuel m s = some (true, n1, { s with data := rest }) ∧ WF n1 ∧
        n1.level = n.level ∧ ∀ x y z, n1.get x y z = n.get x y z := by
  have leaf : ∀ n : node U, n.type = EMPTY → ∀ (fuel : Nat) (m : node U) (s : ifstream)
      (rest : List Byte), (encode L n).length ≤ fuel → m.type = EMPTY → m.level = n.level →
      s.good = true → s.data = encode L n ++ rest →
      ∃ n1, read_fuel L fuel m s = some (true, n1, { s with data := rest }) ∧ WF n1 ∧
        n1.level = n.level ∧ ∀ x y z, n1.get x y z = n.get x y z := by
    intro n ht fuel m s rest hf hm hl hs hd
    rw [encode_of_type_empty L ht] at hd hf
    rw [List.cons_append] at hd
    obtain ⟨f, rfl⟩ : ∃ f, fuel = f + 1 := ⟨fuel - 1, by simp at hf; omega⟩
    refine ⟨m.set_value n.value, read_fuel_leaf L hL f m s n.value rest hs hd,
      WF_set_value hm _, by simpa using hl, ?_⟩
    intro x y z
    rw [get_of_type_empty (by simpa using hm), get_of_type_empty ht]
    simp
  induction n with
  | nochild t lv v => exact leaf _ hw
  | haschild t lv v c ih =>
    rcases hw with ht | ⟨ht, hlv, hch⟩
    · exact leaf _ ht
    · subst ht
      intro fuel m s rest hf hm hl hs hd
      rw [encode_haschild] at hd hf
      rw [List.cons_append] at hd
      obtain ⟨f, rfl⟩ : ∃ f, fuel = f + 1 := ⟨fuel - 1, by simp at hf; omega⟩
      replace hl : m.level = lv := hl
      have hdec : dec_level lv = lv - 1 := by unfold dec_level; rw [if_neg hlv]
      obtain ⟨g1, _, _⟩ := ifstream_good_flags hs
        (encode_from (fun i => encode L (c i)) 8 ++ rest)
      obtain ⟨c1, hc1, hq, _⟩ := read_loop_spec (R := read_fuel L f)
        (E := fun i => encode L (c i))
        (P := fun m1 => m1.type = EMPTY ∧ m1.level = lv - 1)
        (Q := fun i n1 => WF n1 ∧ n1.level = lv - 1 ∧ ∀ x y z, n1.get x y z = (c i).get x y z)
        (fun i m1 rest1 s1 hp hs1 hd1 => by
          obtain ⟨n1, h1, h2, h3, h4⟩ := ih i (hch i).2 f m1 s1 rest1 (by
            have : (encode L (c i)).length ≤
                (encode_from (fun i => encode L (c i)) 8).length :=
              length_le_encode_from (fun i => encode L (c i)) 8 i (by omega)
            simp only [List.length_cons] at hf
            omega) hp.1 (hp.2.trans (hch i).1.symm) hs1 hd1
          exact ⟨n1, h1, h2, h3.trans (hch i).1, h4⟩)
        8 (le_refl _) (fun _ => new (dec_level m.level) m.value) rest
        { s with data := encode_from (fun i => encode L (c i)) 8 ++ rest }
        (fun j _ => ⟨rfl, by rw [hl, hdec]; rfl⟩) g1 rfl
      refine ⟨haschild INTERMEDIATE m.level m.value c1, ?_, ?_, hl, ?_⟩
      · rw [read_fuel_intermediate L f m s _ hm hs hd, hc1]
      · rw [hl]
        exact Or.inr ⟨rfl, hlv, fun i => ⟨(hq i (by omega)).2.1, (hq i (by omega)).1⟩⟩
      · intro x y z
        rw [hl]
        exact get_congr_haschild (fun i => (hq i (by omega)).2.2) x y z

end node
end mi

/-! ## The recursion bounds of `set` and `read` are enough -/

namespace mi

theorem ifstream_read_data_le (s : ifstream) (k : Nat) :
    (s.read k).2.data.length ≤ s.data.length := by
  unfold ifstream.read
  split_ifs <;> simp

theorem ifstream_read_one_lt (s : ifstream) (h : (s.read 1).2.fail = false) :
    (s.read 1).2.data.length + 1 = s.data.length := by
  unfold ifstream.read at h ⊢
  split_ifs at h ⊢ with h1 h2
  · simp only [List.length_drop]; omega
  · simp [ifstream.fail] at h
  · simp [ifstream.fail] at h

namespace node
variable {U : Type}

theorem set_fuel_succ (f : Nat) (n : node U) (x y z : Int) (v : U) :
    set_fuel (f + 1) n x y z v = set_body (set_fuel f) n x y z v := rfl

theorem set_body_congr {S S1 : node U → Int → Int → Int → U → Option (node U)} {n : node U}
    (h : ∀ c, n.create_child.child = some c → ∀ i x y z v, S (c i) x y z v = S1 (c i) x y z v)
    (x y z : Int) (v : U) : set_body S n x y z v = set_body S1 n x y z v := by
  unfold set_body
  split_ifs with h0
  · rfl
  · simp only []
    cases hc : n.create_child.child with
    | none => rfl
    | some c =>
      cases pow2_size_t ((n.create_child.level : Int) - 1) with
      | none => rfl
      | some d =>
        simp only []
        split_ifs with hd hi
        · rfl
        · rw [h c hc]
        · rfl

/-- The method `set(x, y, z, v)` satisfies the recursion of the source on every
node whose children, once it is split, are one level below it. -/
theorem set_eq {n : node U}
    (h : ∀ c, n.create_child.child = some c → ∀ i, (c i).level + 1 = n.level)
    (x y z : Int) (v : U) : n.set x y z v = set_body set n x y z v := by
  show set_fuel (n.level + 1) n x y z v = _
  rw [set_fuel_succ]
  apply set_body_congr
  intro c hc i x1 y1 z1 v1
  show _ = set_fuel ((c i).level + 1) (c i) x1 y1 z1 v1
  rw [h c hc i]

theorem read_fuel_succ (L : Layout U) (f : Nat) (n : node U) (fin : ifstream) :
    read_fuel L (f + 1) n fin = read_body L (read_fuel L f) n fin := rfl

/-- The loop over the children does not lengthen the stream when the call on
a child does not. -/
theorem read_loop_data_le {R : node U → ifstream → Option (Bool × node U × ifstream)}
    (hR : ∀ m s r, R m s = some r → r.2.2.data.length ≤ s.data.length) :
    ∀ (k : Nat) (c : Fin 8 → node U) (s : ifstream) (r : Bool × (Fin 8 → node U) × ifstream),
      read_loop R k c s = some r → r.2.2.data.length ≤ s.data.length := by
  intro k
  induction k with
  | zero =>
    intro c s r h
    simp only [read_loop, Option.some.injEq] at h
    rw [← h]
  | succ k ih =>
    intro c s r h
    unfold read_loop at h
    split at h
    · rename_i h8
      cases hc : R (c ⟨8 - (k + 1), h8⟩) s with
      | none => rw [hc] at h; simp at h
      | some r1 =>
        obtain ⟨ok, ci, fin1⟩ := r1
        have hle := hR _ _ _ hc
        rw [hc] at h
        simp only [] at h hle
        cases ok with
        | false =>
          simp only [Bool.not_false, if_true, Option.some.injEq] at h
          rw [← h]; exact hle
        | true =>
          simp only [Bool.not_true, Bool.false_eq_true, if_false] at h
          exact (ih _ _ _ h).trans hle
    · simp at h

theorem read_body_data_le (L : Layout U)
    {R : node U → ifstream → Option (Bool × node U × ifstream)}
    (hR : ∀ m s r, R m s = some r → r.2.2.data.length ≤ s.data.length)
    (n : node U) (s : ifstream) (r : Bool × node U × ifstream)
    (h : read_body L R n s = some r) : r.2.2.data.length ≤ s.data.length := by
  have h1 := ifstream_read_data_le s 1
  have h2 := ifstream_read_data_le (s.read 1).2 L.size
  unfold read_body at h
  simp only [] at h
  split_ifs at h with hf ht he
  · simp only [Option.some.injEq] at h; rw [← h]; exact h1
  · cases hc : n.create_child.child with
    | none => rw [hc] at h; simp at h
    | some c =>
      rw [hc] at h
      simp only [] at h
      cases hl : read_loop R 8 c (s.read 1).2 with
      | none => rw [hl] at h; simp at h
      | some r1 =>
        obtain ⟨ok, c1, fin2⟩ := r1
        rw [hl] at h
        simp only [Option.some.injEq] at h
        have := read_loop_data_le hR 8 c _ _ hl
        rw [← h]
        exact this.trans h1
  · simp only [Option.some.injEq] at h; rw [← h]; exact h2.trans h1
  · simp only [Option.some.injEq] at h; rw [← h]; exact h1

/-- A call of `read` does not lengthen the stream. -/
theorem read_fuel_data_le (L : Layout U) :
    ∀ (f : Nat) (n : node U) (s : ifstream) (r : Bool × node U × ifstream),
      read_fuel L f n s = some r → r.2.2.data.length ≤ s.data.length := by
  intro f
  induction f with
  | zero => intro n s r h; simp [read_fuel] at h
  | succ f ih =>
    intro n s r h
    rw [read_fuel_succ] at h
    exact read_body_data_le L ih n s r h

/-- The loop over the children gives the same result for two versions of the
call on a child that agree on every stream of at most `N` bytes. -/
theorem read_loop_congr {R R1 : node U → ifstream → Option (Bool × node U × ifstream)}
    (hR : ∀ m s r, R m s = some r → r.2.2.data.length ≤ s.data.length) {N : Nat}
    (hRR : ∀ m s, s.data.length ≤ N → R m s = R1 m s) :
    ∀ (k : Nat) (c : Fin 8 → node U) (s : ifstream), s.data.length ≤ N →
      read_loop R k c s = read_loop R1 k c s := by
  intro k
  induction k with
  | zero => intro c s _; rfl
  | succ k ih =>
    intro c s hs
    unfold read_loop
    split
    · rename_i h8
      rw [← hRR _ _ hs]
      cases hc : R (c ⟨8 - (k + 1), h8⟩) s with
      | none => rfl
      | some r1 =>
        obtain ⟨ok, ci, fin1⟩ := r1
        have hle := hR _ _ _ hc
        simp only [] at hle ⊢
        cases ok with
        | false => rfl
        | true =>
          simp only [Bool.not_true, Bool.false_eq_true, if_false]
          exact ih _ _ (hle.trans hs)
    · rfl

theorem read_body_congr (L : Layout U)
    {R R1 : node U → ifstream → Option (Bool × node U × ifstream)}
    (hR : ∀ m s r, R m s = some r → r.2.2.data.length ≤ s.data.length) {N : Nat}
    (hRR : ∀ m s, s.data.length ≤ N → R m s = R1 m s)
    (n : node U) (s : ifstream) (hs : s.data.length ≤ N + 1) :
    read_body L R n s = read_body L R1 n s := by
  unfold read_body
  simp only []
  split_ifs with hf ht he
  · rfl
  · have hlen := ifstream_read_one_lt s (by simpa using hf)
    cases n.create_child.child with
    | none => rfl
    | some c =>
      simp only []
      rw [read_loop_congr hR hRR 8 c _ (by omega)]
  · rfl
  · rfl

/-- More fuel than the number of bytes left does not change the result. -/
theorem read_fuel_stable (L : Layout U) :
    ∀ (f : Nat) (n : node U) (s : ifstream), s.data.length < f →
      read_fuel L f n s = read_fuel L (f + 1) n s := by
  intro f
  induction f with
  | zero => intro n s h; omega
  | succ f ih =>
    intro n s h
    rw [read_fuel_succ, read_fuel_succ]
    rcases Nat.eq_zero_or_pos f with h0 | h0
    · subst h0
      have hz : s.data.length = 0 := by omega
      unfold read_body
      simp only []
      split_ifs with hf ht he
      · rfl
      · have := ifstream_read_one_lt s (by simpa using hf)
        omega
      · rfl
      · rfl
    · exact read_body_congr L (N := f - 1) (read_fuel_data_le L f)
        (fun m s1 hs1 => ih m s1 (by omega)) n s (by omega)

theorem read_fuel_eq_read (L : Layout U) (n : node U) (s : ifstream) :
    ∀ (f : Nat), s.data.length < f → read_fuel L f n s = read L n s := by
  intro f
  induction f with
  | zero => intro h; omega
  | succ f ih =>
    intro h
    rcases Nat.lt_or_ge s.data.length f with h1 | h1
    · rw [← read_fuel_stable L f n s h1]; exact ih h1
    · have : f = s.data.length := by omega
      subst this; rfl

/-- The method `read(fin)` satisfies the recursion of the source: its result is
that of the body of the method with `read` itself as the call on a child. -/
theorem read_eq (L : Layout U) (n : node U) (fin : ifstream) :
    read L n fin = read_body L (read L) n fin := by
  show read_fuel L (fin.data.length + 1) n fin = _
  rw [read_fuel_succ]
  rcases Nat.eq_zero_or_pos fin.data.length with h0 | h0
  · rw [h0]
    unfold read_body
    simp only []
    split_ifs with hf ht he
    · rfl
    · have := ifstream_read_one_lt fin (by simpa using hf)
      omega
    · rfl
    · rfl
  · exact read_body_congr L (N := fin.data.length - 1) (read_fuel_data_le L _)
      (fun m s1 hs1 => read_fuel_eq_read L m s1 _ (by omega)) n fin (by omega)

end node
end mi

/-! ## Repeating `set` and `optimize` -/

namespace mi
namespace node
variable {U : Type}

theorem set_value_set_value (n : node U) (v w : U) :
    (n.set_value v).set_value w = n.set_value w := by
  cases n <;> rfl

/-- On a well-formed tree a second `set` of the same value at the same
coordinate returns the tree that the first one has returned. -/
theorem set_idem (L : Nat) (hL : L ≤ 30) :
    ∀ (n : node U), WF n → n.level = L → ∀ (x y z : Nat) (v : U),
      x < 2 ^ L → y < 2 ^ L → z < 2 ^ L → ∀ n1, n.set x y z v = some n1 →
      n1.set x y z v = some n1 := by
  induction L with
  | zero =>
    intro n hw hn x y z v hx hy hz n1 h
    unfold set at h
    rw [hn, set_fuel_level_zero hn] at h
    simp only [Option.some.injEq] at h
    subst h
    have hl : (n.set_value v).level = 0 := by simpa using hn
    unfold set
    rw [hl, set_fuel_level_zero hl, set_value_set_value]
  | succ L ih =>
    intro n hw hn x y z v hx hy hz n1 h
    have hL1 : L ≤ 30 := by omega
    have hd : 0 < 2 ^ L := Nat.pos_pow_of_pos L (by norm_num)
    have hx1 := hx
    have hy1 := hy
    have hz1 := hz
    rw [pow_succ, Nat.mul_comm] at hx1 hy1 hz1
    obtain ⟨val, c, hc, hch, _⟩ := create_child_spec hL1 hw hn
    obtain ⟨ci, hci, hwci, hlci, _⟩ := set_spec L hL1 (c (cidx (2 ^ L) x y z)) (hch _).2 (hch _).1
      (x % 2 ^ L) (y % 2 ^ L) (z % 2 ^ L) v (Nat.mod_lt _ hd) (Nat.mod_lt _ hd) (Nat.mod_lt _ hd)
    have hci2 := ih hL1 _ (hch _).2 (hch _).1 _ _ _ v (Nat.mod_lt _ hd) (Nat.mod_lt _ hd)
      (Nat.mod_lt _ hd) ci hci
    unfold set at h hci hci2
    rw [(hch _).1] at hci
    rw [hlci] at hci2
    rw [hn, set_fuel_step hL1 hn hc (L + 1) hx1 hy1 hz1 v, hci] at h
    simp only [Option.map_some', Option.some.injEq] at h
    subst h
    have hcc : (haschild ((2 : Nat) : Byte) (L + 1) val
        (Function.update c (cidx (2 ^ L) x y z) ci)).create_child = _ :=
      create_child_of_intermediate _ _ _
    unfold set
    simp only [level]
    have hl : (haschild ((2 : Nat) : Byte) (L + 1) val
        (Function.update c (cidx (2 ^ L) x y z) ci)).level = L + 1 := rfl
    rw [set_fuel_step hL1 hl hcc (L + 1) hx1 hy1 hz1 v, Function.update_same, hci2]
    simp only [Option.map_some', Function.update_idem]

end node
end mi

/-! ## `init` returns for every requested dimension -/

namespace mi
namespace octree
variable {T : Type}

theorem wrap_int_double_pow {j : Nat} (hj : j < 30) :
    wrap_int (((2 ^ j : Nat) : Int) * 2) = ((2 ^ (j + 1) : Nat) : Int) := by
  have hp : 2 ^ j ≤ 2 ^ 29 := Nat.pow_le_pow_right (by norm_num) (by omega)
  rw [pow_succ]
  norm_num at hp
  generalize 2 ^ j = p at hp ⊢
  unfold wrap_int
  simp only []
  split_ifs <;> omega

/-- Above `2^30` the running power of two never reaches the requested
dimension: it wraps to `-2^31` and then stays 0, and the loop runs out. -/
theorem get_level_loop_big (d : Int) (hd : 1073741824 < d) :
    ∀ (k i : Nat) (x : Int),
      (x = 0 ∨ x = -2147483648 ∨ ∃ j, j ≤ 30 ∧ x = ((2 ^ j : Nat) : Int)) →
      get_level_loop d k i x = 0 := by
  intro k
  induction k with
  | zero => intro i x _; rfl
  | succ k ih =>
    intro i x hx
    have hle : x ≤ 1073741824 := by
      rcases hx with h | h | ⟨j, hj, h⟩
      · omega
      · omega
      · have := pow_le_pow30 hj
        omega
    unfold get_level_loop
    rw [if_neg (by omega)]
    apply ih
    rcases hx with h | h | ⟨j, hj, h⟩
    · subst h; left; decide
    · subst h; left; decide
    · subst h
      by_cases h30 : j = 30
      · subst h30; right; left; decide
      · right; right
        exact ⟨j + 1, by omega, wrap_int_double_pow (by omega)⟩

theorem get_level_le (d : Int) : get_level d ≤ 30 := by
  by_cases hd : d ≤ 1073741824
  · exact (get_level_spec d hd).2.2
  · have := get_level_loop_big d (by omega) 255 0 1 (Or.inr (Or.inr ⟨0, by omega, rfl⟩))
    unfold get_level
    omega

/-- For every requested dimension `init` returns, with a level of at most 30
and the dimension two to that level. -/
theorem init_total (d : Int) (e : T) :
    init d e = some ⟨get_level d, ((2 ^ get_level d : Nat) : Int), e, node.new (get_level d) e⟩ := by
  unfold init
  simp only []
  rw [pow2_int_natCast _ (get_level_le d)]

end octree
end mi

/-! ## What `optimize` keeps -/

namespace mi
namespace node
variable {U : Type}

/-- On a well-formed tree `optimize` returns `true` and leaves a leaf that
holds the value at the end of the `_child[0]` chain. -/
theorem optimize_corner (n : node U) (hw : WF n) :
    ∃ n1, n.optimize = some (true, n1) ∧ n1.type = EMPTY ∧ n1.level = n.level ∧
      n1.value = corner n ∧ (n.type = INTERMEDIATE → n1 = nochild EMPTY n.level (corner n)) := by
  induction n with
  | nochild t lv v =>
    have ht : t = EMPTY := hw
    subst ht
    exact ⟨nochild EMPTY lv v, by simp [optimize], rfl, rfl, rfl, by simp [type]⟩
  | haschild t lv v c ih =>
    rcases hw with ht | ⟨ht, hlv, hch⟩
    · subst ht
      exact ⟨haschild EMPTY lv v c, by simp [optimize], rfl, rfl, by simp [corner, value],
        by simp [type]⟩
    · subst ht
      choose g hg using fun i => ih i (hch i).2
      have hl := optimize_loop_all_true (fun i => (hg i).1) 8 (le_refl _) c
      have hv : (g 0).value = corner (c 0) := (hg 0).2.2.2.1
      refine ⟨nochild EMPTY lv (g 0).value, ?_, rfl, rfl, ?_, ?_⟩
      · unfold optimize
        rw [if_pos rfl, hl]
        simp [remove_child, type, level, value]
      · rw [hv]
        simp [corner, value]
      · intro _
        rw [hv]
        simp [corner, level]

/-- On a well-formed tree of a level of at most 31, `get(0, 0, 0)` returns the
value at the end of the `_child[0]` chain. -/
theorem get_corner (n : node U) (hw : WF n) (hl : n.level ≤ 31) :
    n.get 0 0 0 = some (corner n) := by
  induction n with
  | nochild t lv v =>
    have ht : t = EMPTY := hw
    subst ht
    simp [get, corner]
  | haschild t lv v c ih =>
    rcases hw with ht | ⟨ht, hlv, hch⟩
    · subst ht
      simp [get, corner]
    · subst ht
      obtain ⟨L, rfl⟩ : ∃ L, lv = L + 1 := ⟨lv - 1, by omega⟩
      have hL : L ≤ 30 := by simpa [level] using hl
      have hd : 0 < 2 ^ L := Nat.pos_pow_of_pos L (by norm_num)
      have h0 : cidx (2 ^ L) 0 0 0 = 0 := by
        apply Fin.ext
        rw [cidx_val (by omega) (by omega) (by omega)]
        simp
      have h := get_haschild hL v c (x := 0) (y := 0) (z := 0) (by omega) (by omega) (by omega)
      rw [h0] at h
      simp only [Nat.zero_mod, Nat.cast_zero] at h
      rw [h, ih 0 (hch 0).2 (by rw [(hch 0).1]; omega)]
      simp [corner]

end node
end mi

/-! ## The tree that `read` builds -/

namespace mi
namespace node
variable {U : Type}

theorem Sim_leaf {n : node U} (ht : n.type = EMPTY) {m : node U} (h1 : m.type = EMPTY)
    (h2 : m.level = n.level) (h3 : m.value = n.value) : Sim n m := by
  cases n with
  | nochild t lv v => exact ⟨h1.trans ht.symm, h2, h3⟩
  | haschild t lv v c =>
    have ht1 : t = EMPTY := ht
    subst ht1
    exact ⟨h1, h2, fun h => absurd h EMPTY_ne_INTERMEDIATE, fun _ => h3⟩

/-- Reading the encoding of a well-formed tree into a leaf of the same level
returns `true`, consumes exactly the encoding, and leaves a tree structurally
equal to the one that was written. -/
theorem read_sim (L : Layout U) (hL : L.Lawful) (n : node U) (hw : WF n) :
    ∀ (fuel : Nat) (m : node U) (s : ifstream) (rest : List Byte),
      (encode L n).length ≤ fuel → m.type = EMPTY → m.level = n.level → s.good = true →
      s.data = encode L n ++ rest →
      ∃ n1, read_fuel L fuel m s = some (true, n1, { s with data := rest }) ∧ Sim n n1 := by
  have leaf : ∀ n : node U, n.type = EMPTY → ∀ (fuel : Nat) (m : node U) (s : ifstream)
      (rest : List Byte), (encode L n).length ≤ fuel → m.type = EMPTY → m.level = n.level →
      s.good = true → s.data = encode L n ++ rest →
      ∃ n1, read_fuel L fuel m s = some (true, n1, { s with data := rest }) ∧ Sim n n1 := by
    intro n ht fuel m s rest hf hm hl hs hd
    rw [encode_of_type_empty L ht] at hd hf
    rw [List.cons_append] at hd
    obtain ⟨f, rfl⟩ : ∃ f, fuel = f + 1 := ⟨fuel - 1, by simp at hf; omega⟩
    exact ⟨m.set_value n.value, read_fuel_leaf L hL f m s n.value rest hs hd,
      Sim_leaf ht (by simpa using hm) (by simpa using hl) (by simp)⟩
  induction n with
  | nochild t lv v => exact leaf _ hw
  | haschild t lv v c ih =>
    rcases hw with ht | ⟨ht, hlv, hch⟩
    · exact leaf _ ht
    · subst ht
      intro fuel m s rest hf hm hl hs hd
      rw [encode_haschild] at hd hf
      rw [List.cons_append] at hd
      obtain ⟨f, rfl⟩ : ∃ f, fuel = f + 1 := ⟨fuel - 1, by simp at hf; omega⟩
      replace hl : m.level = lv := hl
      have hdec : dec_level lv = lv - 1 := by unfold dec_level; rw [if_neg hlv]
      obtain ⟨g1, _, _⟩ := ifstream_good_flags hs
        (encode_from (fun i => encode L (c i)) 8 ++ rest)
      obtain ⟨c1, hc1, hq, _⟩ := read_loop_spec (R := read_fuel L f)
        (E := fun i => encode L (c i))
        (P := fun m1 => m1.type = EMPTY ∧ m1.level = lv - 1)
        (Q := fun i n1 => Sim (c i) n1)
        (fun i m1 rest1 s1 hp hs1 hd1 =>
          ih i (hch i).2 f m1 s1 rest1 (by
            have : (encode L (c i)).length ≤
                (encode_from (fun i => encode L (c i)) 8).length :=
              length_le_encode_from (fun i => encode L (c i)) 8 i (by omega)
            simp only [List.length_cons] at hf
            omega) hp.1 (hp.2.trans (hch i).1.symm) hs1 hd1)
        8 (le_refl _) (fun _ => new (dec_level m.level) m.value) rest
        { s with data := encode_from (fun i => encode L (c i)) 8 ++ rest }
        (fun j _ => ⟨rfl, by rw [hl, hdec]; rfl⟩) g1 rfl
      refine ⟨haschild INTERMEDIATE m.level m.value c1, ?_, rfl, hl, ?_, ?_⟩
      · rw [read_fuel_intermediate L f m s _ hm hs hd, hc1]
      · intro _
        exact ⟨c1, rfl, fun i => hq i (by omega)⟩
      · intro h
        exact absurd rfl h

end node
end mi

/-! ## A tag that is neither `EMPTY` nor `INTERMEDIATE` -/

namespace mi

theorem ifstream_read_suffix (s : ifstream) (k : Nat) : (s.read k).2.data <:+ s.data := by
  unfold ifstream.read
  split_ifs
  · exact List.drop_suffix _ _
  · exact List.nil_suffix
  · exact List.suffix_refl _

namespace node
variable {U : Type}

theorem read_loop_suffix {R : node U → ifstream → Option (Bool × node U × ifstream)}
    (hR : ∀ m s r, R m s = some r → r.2.2.data <:+ s.data) :
    ∀ (k : Nat) (c : Fin 8 → node U) (s : ifstream) (r : Bool × (Fin 8 → node U) × ifstream),
      read_loop R k c s = some r → r.2.2.data <:+ s.data := by
  intro k
  induction k with
  | zero =>
    intro c s r h
    simp only [read_loop, Option.some.injEq] at h
    rw [← h]
  | succ k ih =>
    intro c s r h
    unfold read_loop at h
    split at h
    · rename_i h8
      cases hc : R (c ⟨8 - (k + 1), h8⟩) s with
      | none => rw [hc] at h; simp at h
      | some r1 =>
        obtain ⟨ok, ci, fin1⟩ := r1
        have hle := hR _ _ _ hc
        rw [hc] at h
        simp only [] at h hle
        cases ok with
        | false =>
          simp only [Bool.not_false, if_true, Option.some.injEq] at h
          rw [← h]; exact hle
        | true =>
          simp only [Bool.not_true, Bool.false_eq_true, if_false] at h
          exact (ih _ _ _ h).trans hle
    · simp at h

theorem read_body_suffix (L : Layout U)
    {R : node U → ifstream → Option (Bool × node U × ifstream)}
    (hR : ∀ m s r, R m s = some r → r.2.2.data <:+ s.data)
    (n : node U) (s : ifstream) (r : Bool × node U × ifstream)
    (h : read_body L R n s = some r) : r.2.2.data <:+ s.data := by
  have h1 := ifstream_read_suffix s 1
  have h2 := ifstream_read_suffix (s.read 1).2 L.size
  unfold read_body at h
  simp only [] at h
  split_ifs at h with hf ht he
  · simp only [Option.some.injEq] at h; rw [← h]; exact h1
  · cases hc : n.create_child.child with
    | none => rw [hc] at h; simp at h
    | some c =>
      rw [hc] at h
      simp only [] at h
      cases hl : read_loop R 8 c (s.read 1).2 with
      | none => rw [hl] at h; simp at h
      | some r1 =>
        obtain ⟨ok, c1, fin2⟩ := r1
        rw [hl] at h
        simp only [Option.some.injEq] at h
        have := read_loop_suffix hR 8 c _ _ hl
        rw [← h]
        exact this.trans h1
  · simp only [Option.some.injEq] at h; rw [← h]; exact h2.trans h1
  · simp only [Option.some.injEq] at h; rw [← h]; exact h1

/-- What a call of `read` leaves on the stream is a final part of what was
there. -/
theorem read_fuel_suffix (L : Layout U) :
    ∀ (f : Nat) (n : node U) (s : ifstream) (r : Bool × node U × ifstream),
      read_fuel L f n s = some r → r.2.2.data <:+ s.data := by
  intro f
  induction f with
  | zero => intro n s r h; simp [read_fuel] at h
  | succ f ih =>
    intro n s r h
    rw [read_fuel_succ] at h
    exact read_body_suffix L ih n s r h

theorem read_suffix (L : Layout U) (n : node U) (s : ifstream) (r : Bool × node U × ifstream)
    (h : read L n s = some r) : r.2.2.data <:+ s.data :=
  read_fuel_suffix L _ n s r h

theorem read_upto_suffix {R : node U → ifstream → Option (Bool × node U × ifstream)}
    (hR : ∀ m s r, R m s = some r → r.2.2.data <:+ s.data) :
    ∀ (k : Nat) (c : Fin 8 → node U) (s : ifstream) (r : (Fin 8 → node U) × ifstream),
      read_upto R k c s = some r → r.2.data <:+ s.data := by
  intro k
  induction k with
  | zero =>
    intro c s r h
    simp only [read_upto, Option.some.injEq] at h
    rw [← h]
  | succ k ih =>
    intro c s r h
    unfold read_upto at h
    cases hu : read_upto R k c s with
    | none => rw [hu] at h; simp at h
    | some r1 =>
      obtain ⟨c1, fin1⟩ := r1
      have h1 := ih _ _ _ hu
      rw [hu] at h
      simp only [] at h h1
      split_ifs at h with h8
      cases hc : R (c1 ⟨k, h8⟩) fin1 with
      | none => rw [hc] at h; simp at h
      | some r2 =>
        obtain ⟨ok, ci, fin2⟩ := r2
        have h2 := hR _ _ _ hc
        rw [hc] at h
        cases ok with
        | false => simp at h
        | true =>
          simp only [Option.some.injEq] at h
          rw [← h]
          exact h2.trans h1

/-- One pass of the loop over the children, at the child `k = 8 - (j + 1)`. -/
theorem read_loop_pass {R : node U → ifstream → Option (Bool × node U × ifstream)}
    (j k : Nat) (hk : k < 8) (hjk : j + 1 + k = 8) (c : Fin 8 → node U) (s : ifstream) :
    read_loop R (j + 1) c s =
      match R (c ⟨k, hk⟩) s with
      | none => none
      | some (ok, ci, fin1) =>
        if !ok then some (false, Function.update c ⟨k, hk⟩ ci, fin1)
        else read_loop R j (Function.update c ⟨k, hk⟩ ci) fin1 := by
  obtain rfl : k = 8 - (j + 1) := by omega
  conv_lhs => unfold read_loop
  rw [dif_pos hk]

/-- After the passes `0, ..., k - 1`, each with a call that returned `true`,
the loop over the children goes on at the child `k`. -/
theorem read_loop_of_upto {R : node U → ifstream → Option (Bool × node U × ifstream)} :
    ∀ (k : Nat), k ≤ 8 → ∀ (c c1 : Fin 8 → node U) (s s1 : ifstream),
      read_upto R k c s = some (c1, s1) → read_loop R 8 c s = read_loop R (8 - k) c1 s1 := by
  intro k
  induction k with
  | zero =>
    intro _ c c1 s s1 h
    simp only [read_upto, Option.some.injEq, Prod.mk.injEq] at h
    rw [h.1, h.2]
  | succ k ih =>
    intro hk c c1 s s1 h
    unfold read_upto at h
    cases hu : read_upto R k c s with
    | none => rw [hu] at h; simp at h
    | some r1 =>
      obtain ⟨c0, fin0⟩ := r1
      rw [hu] at h
      simp only [] at h
      have h8 : k < 8 := by omega
      rw [dif_pos h8] at h
      cases hc : R (c0 ⟨k, h8⟩) fin0 with
      | none => rw [hc] at h; simp at h
      | some r2 =>
        obtain ⟨ok, ci, fin2⟩ := r2
        rw [hc] at h
        cases ok with
        | false => simp at h
        | true =>
          simp only [Option.some.injEq, Prod.mk.injEq] at h
          rw [ih (by omega) c c0 s fin0 hu]
          obtain ⟨j, hj⟩ : ∃ j, 8 - k = j + 1 := ⟨7 - k, by omega⟩
          have hj1 : 8 - (k + 1) = j := by omega
          rw [hj, hj1, read_loop_pass j k h8 (by omega), hc, ← h.1, ← h.2]
          rfl

/-- The loop over the children stops at the first call that returns `false`:
it returns `false`, with the stream as that call left it. -/
theorem read_loop_stops {R : node U → ifstream → Option (Bool × node U × ifstream)}
    (k : Nat) (hk : k < 8) (c1 : Fin 8 → node U) (s1 s2 : ifstream) (ck : node U)
    (h : R (c1 ⟨k, hk⟩) s1 = some (false, ck, s2)) :
    read_loop R (8 - k) c1 s1 = some (false, Function.update c1 ⟨k, hk⟩ ck, s2) := by
  obtain ⟨j, hj⟩ : ∃ j, 8 - k = j + 1 := ⟨7 - k, by omega⟩
  rw [hj, read_loop_pass j k hk (by omega), h]
  rfl

/-- The call of `read` on a node at which the calls come to a tag that is
neither `EMPTY` nor `INTERMEDIATE` returns `false`, with the node and the
stream as `BadTag` describes them. -/
theorem read_of_BadTag (L : Layout U) {n n1 : node U} {s s1 : ifstream} {p : List (Fin 8)}
    (h : BadTag L n s p n1 s1) : n.read L s = some (false, n1, s1) := by
  induction h with
  | here n s t rest hs hd h1 h2 =>
    have hr := ifstream_read_good s [t] rest hs hd
    obtain ⟨_, g2, _⟩ := ifstream_good_flags hs rest
    simp only [List.length_singleton] at hr
    rw [read_eq]
    unfold read_body
    simp only [hr, g2, Bool.false_eq_true, if_false, List.getD_cons_zero, if_neg h1, if_neg h2]
  | inner n s rest c c1 k s1 p ck s2 hs hd hc hu _ ih =>
    have hr := ifstream_read_good s [INTERMEDIATE] rest hs hd
    obtain ⟨_, g2, _⟩ := ifstream_good_flags hs rest
    simp only [List.length_singleton] at hr
    have hl : read_loop (read L) 8 c { s with data := rest } =
        some (false, Function.update c1 k ck, s2) := by
      rw [read_loop_of_upto k.val (by omega) c c1 _ s1 hu]
      exact read_loop_stops k.val k.isLt c1 s1 s2 ck ih
    rw [read_eq]
    unfold read_body
    simp only [hr, g2, Bool.false_eq_true, if_false, List.getD_cons_zero, if_true, hc, hl]

@[simp] theorem type_set_type (n : node U) (t : Byte) : (n.set_type t).type = t := by
  cases n <;> rfl

/-- The node at the end of the path is marked `INVALID`. -/
theorem descend_of_BadTag (L : Layout U) {n n1 : node U} {s s1 : ifstream} {p : List (Fin 8)}
    (h : BadTag L n s p n1 s1) : (n1.descend p).map type = some INVALID := by
  induction h with
  | here n s t rest hs hd h1 h2 => simp [descend]
  | inner n s rest c c1 k s1 p ck s2 hs hd hc hu _ ih =>
    simpa [descend, set_child, child] using ih

/-- The stream is left right after the tag that is neither `EMPTY` nor
`INTERMEDIATE`: everything behind that byte is still on it. -/
theorem data_of_BadTag (L : Layout U) {n n1 : node U} {s s1 : ifstream} {p : List (Fin 8)}
    (h : BadTag L n s p n1 s1) :
    ∃ pre t, s.data = pre ++ t :: s1.data ∧ t ≠ EMPTY ∧ t ≠ INTERMEDIATE := by
  induction h with
  | here n s t rest hs hd h1 h2 => exact ⟨[], t, hd, h1, h2⟩
  | inner n s rest c c1 k s1 p ck s2 hs hd hc hu _ ih =>
    obtain ⟨pre, t, h1, h2, h3⟩ := ih
    obtain ⟨pre0, h0⟩ := read_upto_suffix (read_suffix L) k.val c _ _ hu
    simp only [] at h0
    refine ⟨INTERMEDIATE :: (pre0 ++ pre), t, ?_, h2, h3⟩
    rw [hd, ← h0, h1]
    simp

end node
end mi

/-! ## The shape of the tree after `set` on a new container -/

namespace mi
namespace node
variable {U : Type}

/-- A sum over the eight children when one child has been replaced and the
others all count the same. -/
theorem sum_eight_update (f : node U → Nat) (c : Fin 8 → node U) (k : Fin 8) (ci : node U)
    (a : Nat) (hc : ∀ i, f (c i) = a) :
    f (Function.update c k ci 0) + f (Function.update c k ci 1) +
      f (Function.update c k ci 2) + f (Function.update c k ci 3) +
      f (Function.update c k ci 4) + f (Function.update c k ci 5) +
      f (Function.update c k ci 6) + f (Function.update c k ci 7) = 7 * a + f ci := by
  fin_cases k <;> simp [Function.update, hc] <;> omega

/-- A `set` on a new node of level `L` splits one node on each level from
`L` down to 1: the tree afterwards has `L` `INTERMEDIATE` nodes and `7L + 1`
leaves. -/
theorem set_new_shape (L : Nat) (hL : L ≤ 30) :
    ∀ (x y z : Nat) (e v : U), x < 2 ^ L → y < 2 ^ L → z < 2 ^ L →
      ∃ n1, (new L e).set x y z v = some n1 ∧ inters n1 = L ∧ leaves n1 = 7 * L + 1 ∧
        (1 ≤ L → n1.type = INTERMEDIATE) := by
  induction L with
  | zero =>
    intro x y z e v _ _ _
    refine ⟨(new 0 e).set_value v, ?_, rfl, rfl, fun h => absurd h (by omega)⟩
    unfold set
    exact set_fuel_level_zero (n := new 0 e) rfl 0 _ _ _ v
  | succ L ih =>
    intro x y z e v hx hy hz
    have hL1 : L ≤ 30 := by omega
    have hd : 0 < 2 ^ L := Nat.pos_pow_of_pos L (by norm_num)
    rw [pow_succ, Nat.mul_comm] at hx hy hz
    obtain ⟨ci, hci, h1, h2, _⟩ := ih hL1 (x % 2 ^ L) (y % 2 ^ L) (z % 2 ^ L) e v
      (Nat.mod_lt _ hd) (Nat.mod_lt _ hd) (Nat.mod_lt _ hd)
    have hc : (new (L + 1) e).create_child =
        haschild ((2 : Nat) : Byte) (L + 1) e (fun _ => new L e) := rfl
    refine ⟨haschild INTERMEDIATE (L + 1) e
      (Function.update (fun _ => new L e) (cidx (2 ^ L) x y z) ci), ?_, ?_, ?_, fun _ => rfl⟩
    · unfold set at hci ⊢
      simp only [level_new] at hci ⊢
      rw [set_fuel_step (n := new (L + 1) e) hL1 rfl hc (L + 1) hx hy hz v, hci]
      rfl
    · unfold inters
      rw [if_pos rfl, sum_eight_update inters (fun _ => new L e) _ _ 0 (fun _ => rfl), h1]
      omega
    · unfold leaves
      rw [if_pos rfl, sum_eight_update leaves (fun _ => new L e) _ _ 1 (fun _ => rfl), h2]
      omega

/-- The encoding of a tree starts with the tag of its root. -/
theorem encode_head (L : Layout U) (n : node U) : (encode L n).head? = some n.type := by
  cases n with
  | nochild t lv v => rfl
  | haschild t lv v c =>
    unfold encode
    split_ifs <;> rfl

theorem encode_ne_of_type_ne (L : Layout U) {n m : node U} (h : n.type ≠ m.type) :
    encode L n ≠ encode L m := by
  intro he
  have := congrArg List.head? he
  rw [encode_head, encode_head] at this
  exact h (Option.some.inj this)

end node
end mi

/-! ## `copy` on well-formed trees -/

namespace mi
namespace node
variable {U : Type}

theorem copy_loop_all {r : Fin 8 → Option (node U)} {g : Fin 8 → node U}
    (hr : ∀ i, r i = some (g i)) :
    ∀ (k : Nat), k ≤ 8 → ∀ c : Fin 8 → node U,
      copy_loop r k c = some (fun i => if 8 - k ≤ i.val then g i else c i) := by
  intro k
  induction k with
  | zero =>
    intro _ c
    unfold copy_loop
    congr 1
    funext i
    have := i.isLt
    rw [if_neg (by omega)]
  | succ k ih =>
    intro hk c
    have h : 8 - (k + 1) < 8 := by omega
    unfold copy_loop
    rw [dif_pos h, hr]
    simp only []
    rw [ih (by omega)]
    congr 1
    funext i
    by_cases h1 : 8 - k ≤ i.val
    · rw [if_pos h1, if_pos (by omega)]
    · rw [if_neg h1]
      by_cases h2 : i = ⟨8 - (k + 1), h⟩
      · subst h2
        rw [Function.update_same, if_pos (by simp)]
      · rw [Function.update_noteq h2, if_neg]
        intro h3
        apply h2
        apply Fin.ext
        simp only []
        omega

/-- On a well-formed tree `d` and a node that is a leaf, `copy(d)` returns and
leaves a tree equal to `d` node by node. -/
theorem copy_spec (d : node U) (hw : WF d) :
    ∀ m : node U, m.type = EMPTY → ∃ r, m.copy d = some r ∧ Same d r := by
  induction d with
  | nochild t lv v =>
    intro m _
    have ht : t = EMPTY := hw
    subst ht
    refine ⟨((m.set_level lv).set_value v).set_type EMPTY, by simp [copy], ?_⟩
    cases m <;> exact ⟨rfl, rfl, rfl⟩
  | haschild t lv v dc ih =>
    intro m hm
    rcases hw with ht | ⟨ht, hlv, hch⟩
    · subst ht
      refine ⟨((m.set_level lv).set_value v).set_type EMPTY, by simp [copy], ?_⟩
      cases m <;> exact ⟨rfl, rfl, rfl, fun h => absurd h EMPTY_ne_INTERMEDIATE⟩
    · subst ht
      have h1 : ((m.set_level lv).set_value v).type = EMPTY := by
        cases m <;> exact hm
      have h2 : ((m.set_level lv).set_value v).level = lv := by cases m <;> rfl
      have h3 : ((m.set_level lv).set_value v).value = v := by cases m <;> rfl
      have hcc := create_child_of_type_empty h1
      rw [h2, h3] at hcc
      choose g hg using fun i => ih i (hch i).2 (new (dec_level lv) v) rfl
      have hl := copy_loop_all (fun i => (hg i).1) 8 (le_refl _)
        (fun _ => new (dec_level lv) v)
      refine ⟨haschild INTERMEDIATE lv v g, ?_, rfl, rfl, rfl, fun _ => ⟨g, rfl, fun i => (hg i).2⟩⟩
      unfold copy
      simp only [if_true, hcc, child, hl]
      congr 1
      have e : (fun i : Fin 8 => if 8 - 8 ≤ i.val then g i else new (dec_level lv) v) = g := by
        funext i
        rw [if_pos (by omega)]
      rw [e]
      rfl

theorem Same_type {d r : node U} (h : Same d r) : r.type = d.type := by
  cases d <;> exact h.1

theorem Same_level {d r : node U} (h : Same d r) : r.level = d.level := by
  cases d <;> exact h.2.1

theorem Same_value {d r : node U} (h : Same d r) : r.value = d.value := by
  cases d with
  | nochild t lv v => exact h.2.2
  | haschild t lv v c => exact h.2.2.1

/-- A tree equal node by node to a well-formed tree is well-formed, and
`get` returns the same on both. -/
theorem WF_get_of_Same (d : node U) (hw : WF d) :
    ∀ r : node U, Same d r → WF r ∧ ∀ x y z, r.get x y z = d.get x y z := by
  induction d with
  | nochild t lv v =>
    intro r hs
    have ht : t = EMPTY := hw
    subst ht
    have hr : r.type = EMPTY := hs.1
    refine ⟨?_, fun x y z => ?_⟩
    · cases r with
      | nochild t1 lv1 v1 => exact hr
      | haschild t1 lv1 v1 c1 => exact Or.inl hr
    · rw [get_of_type_empty hr, hs.2.2]
      rfl
  | haschild t lv v dc ih =>
    intro r hs
    rcases hw with ht | ⟨ht, hlv, hch⟩
    · subst ht
      have hr : r.type = EMPTY := hs.1
      refine ⟨?_, fun x y z => ?_⟩
      · cases r with
        | nochild t1 lv1 v1 => exact hr
        | haschild t1 lv1 v1 c1 => exact Or.inl hr
      · rw [get_of_type_empty hr, hs.2.2.1, get_of_type_empty (n := haschild EMPTY lv v dc) rfl]
        rfl
    · subst ht
      obtain ⟨h1, h2, h3, h4⟩ := hs
      obtain ⟨c1, hc1, hsame⟩ := h4 rfl
      cases r with
      | nochild t1 lv1 v1 => simp [child] at hc1
      | haschild t1 lv1 v1 c0 =>
        simp only [child, Option.some.injEq] at hc1
        subst hc1
        have e1 : t1 = INTERMEDIATE := h1
        have e2 : lv1 = lv := h2
        subst e1 e2
        refine ⟨Or.inr ⟨rfl, hlv, fun i => ⟨?_, (ih i (hch i).2 _ (hsame i)).1⟩⟩, ?_⟩
        · rw [Same_level (hsame i)]
          exact (hch i).1
        · exact get_congr_haschild (fun i => (ih i (hch i).2 _ (hsame i)).2)

/-- A tree equal node by node to a well-formed tree has the same encoding. -/
theorem encode_of_Same (L : Layout U) (d : node U) (hw : WF d) :
    ∀ r : node U, Same d r → encode L r = encode L d := by
  induction d with
  | nochild t lv v =>
    intro r hs
    have ht : t = EMPTY := hw
    subst ht
    rw [encode_of_type_empty L hs.1, hs.2.2]
    rfl
  | haschild t lv v dc ih =>
    intro r hs
    rcases hw with ht | ⟨ht, hlv, hch⟩
    · subst ht
      rw [encode_of_type_empty L hs.1, hs.2.2.1,
        encode_of_type_empty L (n := haschild EMPTY lv v dc) rfl]
      rfl
    · subst ht
      obtain ⟨h1, h2, h3, h4⟩ := hs
      obtain ⟨c1, hc1, hsame⟩ := h4 rfl
      cases r with
      | nochild t1 lv1 v1 => simp [child] at hc1
      | haschild t1 lv1 v1 c0 =>
        simp only [child, Option.some.injEq] at hc1
        subst hc1
        have e1 : t1 = INTERMEDIATE := h1
        subst e1
        rw [encode_haschild, encode_haschild]
        congr 2
        funext i
        exact ih i (hch i).2 _ (hsame i)

end node
end mi

/-! ## Reading and writing voxels -/

namespace mi
namespace octree
variable {T : Type}

theorem get_init {n : Int} {e : T} {c : octree T} (h : init n e = some c) (x y z : Int) :
    c.get x y z = some e := by
  obtain ⟨rfl, _⟩ := init_eq h
  unfold get
  split
  · exact node.get_of_type_empty (n := node.new (get_level n) e) rfl x y z
  · rfl

/-- A call of `set` keeps what `get` returns at every coordinate other than
the written one. -/
theorem apply_set_frame {c c1 : octree T} (hc : Inv c) {op : Op T} (hop : Op.isSet op = true)
    (h1 : c.apply op = some c1) {x y z : Int} (hx : 0 ≤ x ∧ x < c.getDimension)
    (hy : 0 ≤ y ∧ y < c.getDimension) (hz : 0 ≤ z ∧ z < c.getDimension)
    (hne : ∀ v, op ≠ Op.set x y z v) : c1.get x y z = c.get x y z := by
  cases op with
  | optimize opt => simp [Op.isSet] at hop
  | set x0 y0 z0 v =>
    by_cases hv : c.is_valid x0 y0 z0 = true
    · obtain ⟨hx0, hy0, hz0⟩ := (is_valid_iff c x0 y0 z0).1 hv
      obtain ⟨c2, h2, _, _, _, _, hg⟩ := set_valid_spec hc v hx0 hy0 hz0
      have e : c2 = c1 := by
        have : some c2 = some c1 := h2.symm.trans h1
        simpa using this
      subst e
      rw [hg x y z hx hy hz, if_neg]
      rintro ⟨rfl, rfl, rfl⟩
      exact hne v rfl
    · have h2 := set_of_not_valid c v (by simpa using hv)
      have e : c = c1 := by
        have : some c = some c1 := h2.symm.trans h1
        simpa using this
      subst e
      rfl

theorem run_unwritten {ops : List (Op T)} : ∀ {c0 c : octree T}, Inv c0 →
    (∀ op ∈ ops, Op.isSet op = true) → run c0 ops = some c →
    ∀ {x y z : Int}, 0 ≤ x ∧ x < c0.getDimension → 0 ≤ y ∧ y < c0.getDimension →
      0 ≤ z ∧ z < c0.getDimension → (∀ v, Op.set x y z v ∉ ops) →
      c.get x y z = c0.get x y z := by
  induction ops with
  | nil =>
    intro c0 c _ _ hr x y z _ _ _ _
    simp only [run, Option.some.injEq] at hr
    rw [hr]
  | cons op ops ih =>
    intro c0 c h0 hops hr x y z hx hy hz hne
    obtain ⟨c1, h1, h2, _, h4, _⟩ := apply_inv h0 op
    simp only [run, h1] at hr
    have hd : c1.getDimension = c0.getDimension := h4
    rw [ih h2 (fun o ho => hops o (List.mem_cons_of_mem _ ho)) hr (by rwa [hd]) (by rwa [hd])
      (by rwa [hd]) (fun v hv => hne v (List.mem_cons_of_mem _ hv))]
    exact apply_set_frame h0 (hops op (List.mem_cons_self _ _)) h1 hx hy hz
      (fun v hv => hne v (by rw [hv]; exact List.mem_cons_self _ _))

/-- C1: on every container obtained from `init(n, e)` by calls of `set` (for
every requested dimension, in particular `1 ≤ n ≤ 2^30`), at every coordinate
with all components in `[0, getDimension())` and for every value `v`, the call
`set(x, y, z, v)` returns and `get(x, y, z)` then returns `v`. -/
theorem C1_set_then_get (n : Int) (e : T) (c : octree T) (hc : ReachedBySet n e c)
    (x y z : Int) (v : T) (hx : 0 ≤ x ∧ x < c.getDimension) (hy : 0 ≤ y ∧ y < c.getDimension)
    (hz : 0 ≤ z ∧ z < c.getDimension) :
    ∃ c1, c.set x y z v = some c1 ∧ c1.get x y z = some v := by
  obtain ⟨c1, h1, _, _, _, _, hg⟩ := set_valid_spec hc.reached.inv.1 v hx hy hz
  refine ⟨c1, h1, ?_⟩
  rw [hg x y z hx hy hz, if_pos ⟨rfl, rfl, rfl⟩]

/-- C1 at the container `init(4, 0)` and the coordinate `(1, 3, 2)`. -/
theorem C1_set_then_get_witness :
    ∃ c1, (⟨2, 4, 0, node.new 2 0⟩ : octree Byte).set 1 3 2 10 = some c1 ∧
      c1.get 1 3 2 = some 10 :=
  C1_set_then_get 4 0 ⟨2, 4, 0, node.new 2 0⟩ ⟨_, [], rfl, by simp, rfl⟩ 1 3 2 10
    (by decide) (by decide) (by decide)

/-- C2: on a container obtained from `init(n, e)` by the calls `ops`, all of
them calls of `set`, a `set` at an in-range coordinate `p` leaves `get` at
every other in-range coordinate `q` unchanged; and `get` returns `e` at
every in-range coordinate that none of the calls has written. -/
theorem C2_set_frame (n : Int) (e : T) (c0 c : octree T) (ops : List (Op T))
    (h0 : init n e = some c0) (hops : ∀ op ∈ ops, Op.isSet op = true)
    (hrun : run c0 ops = some c) :
    (∀ (px py pz qx qy qz : Int) (v : T),
      0 ≤ px ∧ px < c.getDimension → 0 ≤ py ∧ py < c.getDimension →
      0 ≤ pz ∧ pz < c.getDimension → 0 ≤ qx ∧ qx < c.getDimension →
      0 ≤ qy ∧ qy < c.getDimension → 0 ≤ qz ∧ qz < c.getDimension →
      (px, py, pz) ≠ (qx, qy, qz) →
      ∃ c1, c.set px py pz v = some c1 ∧ c1.get qx qy qz = c.get qx qy qz) ∧
    (∀ (qx qy qz : Int), 0 ≤ qx ∧ qx < c.getDimension → 0 ≤ qy ∧ qy < c.getDimension →
      0 ≤ qz ∧ qz < c.getDimension → (∀ v, Op.set qx qy qz v ∉ ops) →
      c.get qx qy qz = some e) := by
  obtain ⟨hi, _, hd, _⟩ := run_inv (init_inv h0) hrun
  constructor
  · intro px py pz qx qy qz v hpx hpy hpz hqx hqy hqz hne
    obtain ⟨c1, h1, _, _, _, _, hg⟩ := set_valid_spec hi v hpx hpy hpz
    refine ⟨c1, h1, ?_⟩
    rw [hg qx qy qz hqx hqy hqz, if_neg]
    rintro ⟨rfl, rfl, rfl⟩
    exact hne rfl
  · intro qx qy qz hqx hqy hqz hne
    have hd1 : c.getDimension = c0.getDimension := hd
    rw [hd1] at hqx hqy hqz
    rw [run_unwritten (init_inv h0) hops hrun hqx hqy hqz hne]
    exact get_init h0 _ _ _

/-- C2 at `init(4, 0)` followed by no call: writing `(1, 3, 2)` keeps
`get(0, 3, 2)`, and `(0, 3, 2)`, never written, reads 0. -/
theorem C2_set_frame_witness :
    (∃ c1, (⟨2, 4, 0, node.new 2 0⟩ : octree Byte).set 1 3 2 10 = some c1 ∧
      c1.get 0 3 2 = (⟨2, 4, 0, node.new 2 0⟩ : octree Byte).get 0 3 2) ∧
    (⟨2, 4, 0, node.new 2 0⟩ : octree Byte).get 0 3 2 = some 0 :=
  have h := C2_set_frame 4 (0 : Byte) ⟨2, 4, 0, node.new 2 0⟩ ⟨2, 4, 0, node.new 2 0⟩ [] rfl
    (by simp) rfl
  ⟨h.1 1 3 2 0 3 2 10 (by decide) (by decide) (by decide) (by decide) (by decide) (by decide)
      (by decide),
    h.2 0 3 2 (by decide) (by decide) (by decide) (by simp)⟩

end octree
end mi

/-! ## The bounding box of a container -/

namespace mi
namespace octree
variable {T : Type}

theorem occ_of_occupied {c : octree T} (hc : Inv c) {x y z : Int} (h : c.occupied x y z) :
    node.occ c._root c._emptyValue c._level ![x.toNat, y.toNat, z.toNat] := by
  obtain ⟨hx, hy, hz, u, hu, hne⟩ := h
  have hv := (is_valid_iff c x y z).2 ⟨hx, hy, hz⟩
  have hd : c.getDimension = ((2 ^ c._level : Nat) : Int) := hc.dimension_eq
  rw [hd] at hx hy hz
  refine ⟨?_, u, ?_, hne⟩
  · intro a
    fin_cases a
    · show x.toNat < 2 ^ c._level; omega
    · show y.toNat < 2 ^ c._level; omega
    · show z.toNat < 2 ^ c._level; omega
  · show c._root.get (x.toNat : Int) (y.toNat : Int) (z.toNat : Int) = some u
    rw [Int.toNat_of_nonneg hx.1, Int.toNat_of_nonneg hy.1, Int.toNat_of_nonneg hz.1]
    unfold get at hu
    rw [hv] at hu
    exact hu

theorem occupied_of_occ {c : octree T} (hc : Inv c) {p : Fin 3 → Nat}
    (h : node.occ c._root c._emptyValue c._level p) :
    c.occupied (p 0 : Int) (p 1 : Int) (p 2 : Int) := by
  obtain ⟨hp, u, hu, hne⟩ := h
  have hd : c.getDimension = ((2 ^ c._level : Nat) : Int) := hc.dimension_eq
  have h0 := hp 0
  have h1 := hp 1
  have h2 := hp 2
  have hx : 0 ≤ (p 0 : Int) ∧ (p 0 : Int) < c.getDimension := by rw [hd]; omega
  have hy : 0 ≤ (p 1 : Int) ∧ (p 1 : Int) < c.getDimension := by rw [hd]; omega
  have hz : 0 ≤ (p 2 : Int) ∧ (p 2 : Int) < c.getDimension := by rw [hd]; omega
  refine ⟨hx, hy, hz, u, ?_, hne⟩
  unfold get
  rw [(is_valid_iff c _ _ _).2 ⟨hx, hy, hz⟩]
  exact hu

/-- C3: on a container obtained from `init(n, e)` by calls of `set`, in which
some in-range voxel holds a value other than the empty value,
`boundingbox(optimized = true)` returns the tight box: every occupied voxel
lies between the minimum and the maximum on each axis, and each of the six
bounds is the coordinate of some occupied voxel.  With dimension 1024 and
empty value 0, `set(1,3,4,10)` gives `(1,3,4)-(1,3,4)` and a further
`set(100,200,300,3)` gives `(1,3,4)-(100,200,300)`. -/
theorem C3_boundingbox_tight [DecidableEq T] (n : Int) (e : T) (c : octree T)
    (hc : ReachedBySet n e c) (hne : ∃ x y z, c.occupied x y z) :
    (∃ b, c.boundingbox true = some b ∧
      (∀ x y z, c.occupied x y z →
        (b.mnx ≤ x ∧ x ≤ b.mxx) ∧ (b.mny ≤ y ∧ y ≤ b.mxy) ∧ (b.mnz ≤ z ∧ z ≤ b.mxz)) ∧
      (∃ x y z, c.occupied x y z ∧ x = b.mnx) ∧ (∃ x y z, c.occupied x y z ∧ x = b.mxx) ∧
      (∃ x y z, c.occupied x y z ∧ y = b.mny) ∧ (∃ x y z, c.occupied x y z ∧ y = b.mxy) ∧
      (∃ x y z, c.occupied x y z ∧ z = b.mnz) ∧ (∃ x y z, c.occupied x y z ∧ z = b.mxz)) ∧
    ((init 1024 (0 : Int)).bind fun c0 => (c0.run [Op.set 1 3 4 10]).bind fun c1 =>
      c1.boundingbox true) = some ⟨1, 3, 4, 1, 3, 4⟩ ∧
    ((init 1024 (0 : Int)).bind fun c0 =>
      (c0.run [Op.set 1 3 4 10, Op.set 100 200 300 3]).bind fun c1 =>
      c1.boundingbox true) = some ⟨1, 3, 4, 100, 200, 300⟩ := by
  refine ⟨?_, by decide!, by decide!⟩
  obtain ⟨hi, he⟩ := hc.reached.inv
  obtain ⟨r, hr, s1, s2, _⟩ :=
    node.boundingbox_spec c._emptyValue c._root hi.root_wf c._level hi.level_le hi.root_level
  obtain ⟨x0, y0, z0, h0⟩ := hne
  have hv : r.1 = true := s1.2 ⟨_, occ_of_occupied hi h0⟩
  have hs := s2 hv
  refine ⟨r.2, ?_, ?_, ?_, ?_, ?_, ?_, ?_, ?_⟩
  · unfold boundingbox; rw [if_pos rfl, hr]
  · intro x y z h
    have ho := occ_of_occupied hi h
    obtain ⟨hx, hy, hz, _⟩ := h
    have a0 := (hs 0).1 _ ho
    have a1 := (hs 1).1 _ ho
    have a2 := (hs 2).1 _ ho
    simp only [Box.mn, Box.mx, Matrix.cons_val_zero, Matrix.cons_val_one, Matrix.head_cons,
      Matrix.cons_val_two, Matrix.tail_cons] at a0 a1 a2
    omega
  · obtain ⟨p, hp, h⟩ := (hs 0).2.1
    exact ⟨_, _, _, occupied_of_occ hi hp, h⟩
  · obtain ⟨p, hp, h⟩ := (hs 0).2.2
    exact ⟨_, _, _, occupied_of_occ hi hp, h⟩
  · obtain ⟨p, hp, h⟩ := (hs 1).2.1
    exact ⟨_, _, _, occupied_of_occ hi hp, h⟩
  · obtain ⟨p, hp, h⟩ := (hs 1).2.2
    exact ⟨_, _, _, occupied_of_occ hi hp, h⟩
  · obtain ⟨p, hp, h⟩ := (hs 2).2.1
    exact ⟨_, _, _, occupied_of_occ hi hp, h⟩
  · obtain ⟨p, hp, h⟩ := (hs 2).2.2
    exact ⟨_, _, _, occupied_of_occ hi hp, h⟩

/-- C3 at the container `init(1, 0)` after `set(0, 0, 0, 5)`: the voxel
`(0, 0, 0)` is occupied and the box is `(0,0,0)-(0,0,0)`. -/
theorem C3_boundingbox_tight_witness :
    (∃ x y z, (⟨0, 1, 0, node.nochild EMPTY 0 5⟩ : octree Int).occupied x y z) ∧
    ∃ b, (⟨0, 1, 0, node.nochild EMPTY 0 5⟩ : octree Int).boundingbox true = some b ∧
      (∀ x y z, (⟨0, 1, 0, node.nochild EMPTY 0 5⟩ : octree Int).occupied x y z →
        (b.mnx ≤ x ∧ x ≤ b.mxx) ∧ (b.mny ≤ y ∧ y ≤ b.mxy) ∧ (b.mnz ≤ z ∧ z ≤ b.mxz)) ∧
      (∃ x y z, (⟨0, 1, 0, node.nochild EMPTY 0 5⟩ : octree Int).occupied x y z ∧ x = b.mnx) :=
  have hocc : ∃ x y z, (⟨0, 1, 0, node.nochild EMPTY 0 5⟩ : octree Int).occupied x y z :=
    ⟨0, 0, 0, by decide, by decide, by decide, 5, rfl, by decide⟩
  have h := (C3_boundingbox_tight 1 (0 : Int) ⟨0, 1, 0, node.nochild EMPTY 0 5⟩
    ⟨⟨0, 1, 0, node.new 0 0⟩, [Op.set 0 0 0 5], rfl, by simp [Op.isSet], rfl⟩ hocc).1
  ⟨hocc, h.imp fun _ hb => ⟨hb.1, hb.2.1, hb.2.2.1⟩⟩

/-- C4: on a container obtained from `init(n, e)` by calls of `set` and
`optimize`, the method `boundingbox` of the root returns the flag `true`
exactly when some in-range voxel holds a value other than the empty value;
on the container that `init` returns the flag is `false`. -/
theorem C4_boundingbox_valid_iff [DecidableEq T] (n : Int) (e : T) (c : octree T)
    (hc : Reached n e c) :
    (∃ r, c._root.boundingbox c._emptyValue = some r ∧
      (r.1 = true ↔ ∃ x y z, c.occupied x y z)) ∧
    (∀ c0, init n e = some c0 →
      ∃ r, c0._root.boundingbox c0._emptyValue = some r ∧ r.1 = false) := by
  have key : ∀ c1 : octree T, Inv c1 →
      ∃ r, c1._root.boundingbox c1._emptyValue = some r ∧
        (r.1 = true ↔ ∃ x y z, c1.occupied x y z) := by
    intro c1 hi
    obtain ⟨r, hr, s1, _, _⟩ :=
      node.boundingbox_spec c1._emptyValue c1._root hi.root_wf c1._level hi.level_le
        hi.root_level
    refine ⟨r, hr, s1.trans ⟨?_, ?_⟩⟩
    · rintro ⟨p, hp⟩
      exact ⟨_, _, _, occupied_of_occ hi hp⟩
    · rintro ⟨x, y, z, h⟩
      exact ⟨_, occ_of_occupied hi h⟩
  refine ⟨key c hc.inv.1, ?_⟩
  intro c0 h0
  obtain ⟨r, hr, hiff⟩ := key c0 (init_inv h0)
  refine ⟨r, hr, ?_⟩
  rw [← Bool.not_eq_true, hiff]
  rintro ⟨x, y, z, _, _, _, u, hu, hne⟩
  rw [get_init h0] at hu
  have : c0.getEmptyValue = e := by rw [(init_eq h0).1]; rfl
  rw [this] at hne
  simp only [Option.some.injEq] at hu
  exact hne hu.symm

/-- C4 at the container `init(4, 0)`. -/
theorem C4_boundingbox_valid_iff_witness :
    (∃ r, (node.new 2 (0 : Int)).boundingbox 0 = some r ∧
      (r.1 = true ↔ ∃ x y z, (⟨2, 4, 0, node.new 2 0⟩ : octree Int).occupied x y z)) ∧
    (∀ c0, init 4 (0 : Int) = some c0 →
      ∃ r, c0._root.boundingbox c0._emptyValue = some r ∧ r.1 = false) :=
  C4_boundingbox_valid_iff 4 (0 : Int) ⟨2, 4, 0, node.new 2 0⟩ ⟨_, [], rfl, rfl⟩

end octree
end mi

/-! ## The round trip of a container -/

namespace mi

theorem bytes_sum (u : Nat) (h : u < 4294967296) :
    u % 256 % 256 + 256 * (u / 256 % 256 % 256) + 65536 * (u / 65536 % 256 % 256) +
      16777216 * (u / 16777216 % 256 % 256) = u := by
  omega

theorem wrap_int_toNat_emod (a : Int) (h1 : -2147483648 ≤ a) (h2 : a < 2147483648) :
    wrap_int (((a % 4294967296).toNat : Nat) : Int) = a := by
  unfold wrap_int
  simp only []
  split_ifs <;> omega

theorem int_ofBytes_toBytes (a : Int) (h1 : -2147483648 ≤ a) (h2 : a < 2147483648) :
    int_ofBytes (int_toBytes a) = a := by
  have hu : (a % 4294967296).toNat < 4294967296 := by omega
  unfold int_ofBytes int_toBytes
  simp only [List.getD_cons_zero, List.getD_cons_succ, Fin.ofNat, Fin.val_mk]
  rw [bytes_sum _ hu]
  exact wrap_int_toNat_emod a h1 h2

theorem length_int_toBytes (a : Int) : (int_toBytes a).length = 4 := rfl

namespace octree
variable {T : Type}

theorem get_level_pow {L : Nat} (hL : L ≤ 30) : get_level ((2 ^ L : Nat) : Int) = L := by
  have hp := pow_le_pow30 hL
  obtain ⟨h1, h2, h3⟩ := get_level_spec ((2 ^ L : Nat) : Int) (by exact_mod_cast hp)
  have a1 : 2 ^ L ≤ 2 ^ get_level ((2 ^ L : Nat) : Int) := by exact_mod_cast h1
  have a2 : L ≤ get_level ((2 ^ L : Nat) : Int) := (Nat.pow_le_pow_iff_right (by norm_num)).1 a1
  by_contra hne
  have := h2 L (by omega)
  omega

theorem init_pow (e : T) {L : Nat} (hL : L ≤ 30) :
    init ((2 ^ L : Nat) : Int) e = some ⟨L, ((2 ^ L : Nat) : Int), e, node.new L e⟩ := by
  unfold init
  simp only [get_level_pow hL]
  rw [pow2_int_natCast _ hL]

/-- On a container that satisfies the invariant, `write` on a fresh stream
returns `true` and produces the header followed by the encoding of the
root. -/
theorem write_container_spec (L : Layout T) {c : octree T} (hc : Inv c) :
    c.write L ofstream.empty =
      some (true, ⟨int_toBytes c._dimension ++ L.toBytes c._emptyValue ++
        node.encode L c._root, false, false⟩) := by
  unfold write
  have h0 : ofstream.empty.fail = false := rfl
  rw [h0]
  simp only [Bool.false_eq_true, if_false]
  rw [(ofstream_write_good ofstream.empty _ h0).1, ofstream_write_data _ _ _ h0]
  have h2 : ofstream.fail ⟨ofstream.empty.data ++ int_toBytes c._dimension ++
      L.toBytes c._emptyValue, ofstream.empty.failbit, ofstream.empty.badbit⟩ = false := rfl
  rw [h2]
  simp only [Bool.false_eq_true, if_false]
  rw [node.write_spec L c._root hc.root_wf _ h2]
  rfl

/-- The result of `read` in terms of the results of its steps: the two reads
of the header, `init`, and the read of the root. -/
theorem read_of_steps (L : Layout T) (dimension0 : Int) (emptyValue0 : T)
    {fin fin1 fin2 fin3 : ifstream} {got1 got2 : List Byte} {c0 : octree T} {ok : Bool}
    {r : node T} (h1 : fin.read 4 = (got1, fin1)) (h2 : fin1.read L.size = (got2, fin2))
    (h3 : init (int_ofBytes (store (int_toBytes dimension0) got1))
      (L.ofBytes (store (L.toBytes emptyValue0) got2)) = some c0)
    (h4 : fin2.fail = false) (h5 : c0._root.read L fin2 = some (ok, r, fin3)) :
    read L dimension0 emptyValue0 fin = some (ok, { c0 with _root := r }, fin3) := by
  unfold read
  simp only [h1, h2, h3, h4, h5, Bool.false_eq_true, if_false]

/-- Reading what `write` has produced for a container that satisfies the
invariant returns `true` and a container with the same dimension, the same
empty value and the same result of `get` at every coordinate. -/
theorem read_write_spec (L : Layout T) (hL : L.Lawful) {c : octree T} (hc : Inv c)
    (dimension0 : Int) (emptyValue0 : T) :
    ∃ c1 fin1, read L dimension0 emptyValue0 (ifstream.ofBytes
        (int_toBytes c._dimension ++ L.toBytes c._emptyValue ++ node.encode L c._root)) =
        some (true, c1, fin1) ∧
      c1.getDimension = c.getDimension ∧ c1.getEmptyValue = c.getEmptyValue ∧
      ∀ x y z, c1.get x y z = c.get x y z := by
  have hp := pow_le_pow30 hc.level_le
  have hdim : c._dimension = ((2 ^ c._level : Nat) : Int) := hc.dimension_eq
  have hr1 : -2147483648 ≤ c._dimension ∧ c._dimension < 2147483648 := by
    have h : ((2 ^ c._level : Nat) : Int) ≤ 1073741824 := by exact_mod_cast hp
    have h0 : (0 : Int) ≤ ((2 ^ c._level : Nat) : Int) := Int.natCast_nonneg _
    rw [hdim]
    constructor <;> linarith
  have hinit : init (int_ofBytes (store (int_toBytes dimension0) (int_toBytes c._dimension)))
      (L.ofBytes (store (L.toBytes emptyValue0) (L.toBytes c._emptyValue))) =
      some ⟨c._level, c._dimension, c._emptyValue, node.new c._level c._emptyValue⟩ := by
    rw [store_full _ _ (by simp [length_int_toBytes]),
      store_full _ _ (by rw [hL.length_toBytes, hL.length_toBytes]),
      int_ofBytes_toBytes _ hr1.1 hr1.2, hL.ofBytes_toBytes, hdim]
    exact init_pow _ hc.level_le
  have g0 : (ifstream.ofBytes (int_toBytes c._dimension ++ L.toBytes c._emptyValue ++
      node.encode L c._root)).good = true := rfl
  have r1 := ifstream_read_good _ (int_toBytes c._dimension)
    (L.toBytes c._emptyValue ++ node.encode L c._root) g0 (List.append_assoc _ _ _)
  rw [length_int_toBytes] at r1
  obtain ⟨g1, _, _⟩ := ifstream_good_flags g0 (L.toBytes c._emptyValue ++ node.encode L c._root)
  have r2 := ifstream_read_good _ (L.toBytes c._emptyValue) (node.encode L c._root) g1 rfl
  rw [hL.length_toBytes] at r2
  obtain ⟨g2, f2, _⟩ := ifstream_good_flags g0 (node.encode L c._root)
  obtain ⟨n1, hn1, hw1, hl1, hg1⟩ := node.read_spec L hL c._root hc.root_wf
    ((node.encode L c._root).length + 1) (node.new c._level c._emptyValue)
    { ifstream.ofBytes (int_toBytes c._dimension ++ L.toBytes c._emptyValue ++
        node.encode L c._root) with data := node.encode L c._root } []
    (by omega) rfl hc.root_level.symm g2 (List.append_nil _).symm
  refine ⟨_, _, read_of_steps L dimension0 emptyValue0 r1 r2 hinit f2 hn1, rfl, rfl, ?_⟩
  intro x y z
  unfold get
  have hv : is_valid (⟨c._level, c._dimension, c._emptyValue, n1⟩ : octree T) x y z =
      c.is_valid x y z := rfl
  rw [hv]
  split
  · exact hg1 x y z
  · rfl

/-- C5: for a container obtained from `init(n, e)` by calls of `set` (for
every requested dimension, in particular `1 ≤ n ≤ 2^30`) and a lawful
layout of the values, `write` on a fresh stream returns `true`, and `read` of
the bytes written returns `true` and a container with the same
`getDimension()`, the same `getEmptyValue()` and the same `get(x, y, z)` at
every coordinate. -/
theorem C5_write_read_round_trip (L : Layout T) (hL : L.Lawful) (n : Int) (e : T)
    (c : octree T) (hc : ReachedBySet n e c) :
    ∃ bytes, c.write L ofstream.empty = some (true, ⟨bytes, false, false⟩) ∧
      ∀ (dimension0 : Int) (emptyValue0 : T),
        ∃ c1 fin1, read L dimension0 emptyValue0 (ifstream.ofBytes bytes) =
            some (true, c1, fin1) ∧
          c1.getDimension = c.getDimension ∧ c1.getEmptyValue = c.getEmptyValue ∧
          ∀ x y z, c1.get x y z = c.get x y z :=
  ⟨_, write_container_spec L hc.reached.inv.1, fun d0 e0 => read_write_spec L hL hc.reached.inv.1 d0 e0⟩

theorem ucharLayout_lawful : ucharLayout.Lawful := ⟨fun _ => rfl, fun _ => rfl⟩

/-- C5 at the container `init(1, 0)` after `set(0, 0, 0, 5)`, with values of
type `unsigned char`. -/
theorem C5_write_read_round_trip_witness :
    ∃ bytes, (⟨0, 1, 0, node.nochild EMPTY 0 5⟩ : octree Byte).write ucharLayout ofstream.empty =
        some (true, ⟨bytes, false, false⟩) ∧
      ∀ (dimension0 : Int) (emptyValue0 : Byte),
        ∃ c1 fin1, read ucharLayout dimension0 emptyValue0 (ifstream.ofBytes bytes) =
            some (true, c1, fin1) ∧
          c1.getDimension = 1 ∧ c1.getEmptyValue = 0 ∧
          ∀ x y z, c1.get x y z =
            (⟨0, 1, 0, node.nochild EMPTY 0 5⟩ : octree Byte).get x y z :=
  C5_write_read_round_trip ucharLayout ucharLayout_lawful 1 0 ⟨0, 1, 0, node.nochild EMPTY 0 5⟩
    ⟨⟨0, 1, 0, node.new 0 0⟩, [Op.set 0 0 0 5], rfl, by simp [Op.isSet], rfl⟩

end octree
end mi

/-! ## Rounding of the dimension -/

namespace mi
namespace octree
variable {T : Type}

/-- C6: for a requested dimension `n` with `1 ≤ n ≤ 2^30`, `init(n, e)`
returns a container whose level `L` is the smallest with `2^L ≥ n` and whose
dimension is `2^L`, so that `n ≤ getDimension() < 2n`; `init(1024, e)` and
`init(1000, e)` both give the dimension 1024. -/
theorem C6_dimension_rounding (n : Int) (e : T) (hn1 : 1 ≤ n) (hn2 : n ≤ 2 ^ 30) :
    (∃ c, init n e = some c ∧ n ≤ 2 ^ c._level ∧ (∀ L : Nat, n ≤ 2 ^ L → c._level ≤ L) ∧
      c.getDimension = 2 ^ c._level ∧ n ≤ c.getDimension ∧ c.getDimension < 2 * n) ∧
    (init 1024 e).map getDimension = some 1024 ∧
    (init 1000 e).map getDimension = some 1024 := by
  obtain ⟨h1, h2, h3⟩ := get_level_spec n (by norm_num at hn2; exact hn2)
  refine ⟨⟨⟨get_level n, ((2 ^ get_level n : Nat) : Int), e, node.new (get_level n) e⟩,
    ?_, ?_, ?_, ?_, ?_, ?_⟩, ?_, ?_⟩
  · unfold init; simp only []; rw [pow2_int_natCast _ h3]
  · simpa using h1
  · intro L hL
    show get_level n ≤ L
    by_contra hlt
    have := h2 L (by omega)
    push_cast at this
    omega
  · simp [getDimension]
  · simpa [getDimension] using h1
  · simp only [getDimension]
    rcases Nat.eq_zero_or_pos (get_level n) with h0 | h0
    · rw [h0]; norm_num; omega
    · have := h2 (get_level n - 1) (by omega)
      have e2 : 2 ^ get_level n = 2 * 2 ^ (get_level n - 1) := by
        rw [← pow_succ']; congr 1; omega
      rw [e2]; push_cast; push_cast at this; omega
  · have : get_level 1024 = 10 := by decide
    simp [init, this, pow2_int, getDimension]
  · have : get_level 1000 = 10 := by decide
    simp [init, this, pow2_int, getDimension]

/-- C6 at the requested dimension 1000. -/
theorem C6_dimension_rounding_witness :
    (∃ c, init 1000 (0 : Byte) = some c ∧ (1000 : Int) ≤ 2 ^ c._level ∧
      (∀ L : Nat, (1000 : Int) ≤ 2 ^ L → c._level ≤ L) ∧
      c.getDimension = 2 ^ c._level ∧ 1000 ≤ c.getDimension ∧ c.getDimension < 2 * 1000) ∧
    (init 1024 (0 : Byte)).map getDimension = some 1024 ∧
    (init 1000 (0 : Byte)).map getDimension = some 1024 :=
  C6_dimension_rounding 1000 0 (by decide) (by norm_num)

end octree
end mi

/-! ## `optimize` and the stored values -/

namespace mi
namespace octree

/-- C7, evaluated: after `init(2, 0)` and `set(1, 0, 0, 10)`, `get(1, 0, 0)`
returns 10; after a call of `optimize()` it returns 0. -/
theorem C7_optimize_discards_value :
    ((init 2 (0 : Int)).bind fun c => (c.run [Op.set 1 0 0 10]).bind fun c1 =>
        c1.get 1 0 0) = some 10 ∧
    ((init 2 (0 : Int)).bind fun c => (c.run [Op.set 1 0 0 10, Op.optimize true]).bind fun c1 =>
        c1.get 1 0 0) = some 0 := by
  decide!

end octree
end mi

/-! ## Coordinates out of range -/

namespace mi
namespace octree
variable {T : Type}

/-- C8: in every container state, a `set` at a coordinate with a component
outside `[0, getDimension())` returns the container unchanged, root tree
included, so that `get` at every coordinate and the bytes that `write`
produces are the same as before. -/
theorem C8_set_out_of_range (c : octree T) (x y z : Int) (v : T)
    (h : ¬ ((0 ≤ x ∧ x < c.getDimension) ∧ (0 ≤ y ∧ y < c.getDimension) ∧
      (0 ≤ z ∧ z < c.getDimension))) :
    ∃ c1, c.set x y z v = some c1 ∧ c1 = c ∧ c1._root = c._root ∧
      (∀ x1 y1 z1, c1.get x1 y1 z1 = c.get x1 y1 z1) ∧
      (∀ (L : Layout T) (fout : ofstream), c1.write L fout = c.write L fout) := by
  have hv : c.is_valid x y z = false := by
    rw [← Bool.not_eq_true, is_valid_iff]; exact h
  exact ⟨c, set_of_not_valid c v hv, rfl, rfl, fun _ _ _ => rfl, fun _ _ => rfl⟩

/-- C8 at `init(4, 0)` and the coordinate `(4, 0, -1)`. -/
theorem C8_set_out_of_range_witness :
    ∃ c1, (⟨2, 4, 0, node.new 2 0⟩ : octree Byte).set 4 0 (-1) 10 = some c1 ∧
      c1 = ⟨2, 4, 0, node.new 2 0⟩ ∧ c1._root = node.new 2 0 ∧
      (∀ x1 y1 z1, c1.get x1 y1 z1 = (⟨2, 4, 0, node.new 2 0⟩ : octree Byte).get x1 y1 z1) ∧
      (∀ (L : Layout Byte) (fout : ofstream),
        c1.write L fout = (⟨2, 4, 0, node.new 2 0⟩ : octree Byte).write L fout) :=
  C8_set_out_of_range ⟨2, 4, 0, node.new 2 0⟩ 4 0 (-1) 10 (by decide)

/-- C9: in every container state, `get` at a coordinate with a component that
is negative or at least `getDimension()` returns `getEmptyValue()`, whatever
the tree holds. -/
theorem C9_get_out_of_range (c : octree T) (x y z : Int)
    (h : x < 0 ∨ c.getDimension ≤ x ∨ y < 0 ∨ c.getDimension ≤ y ∨ z < 0 ∨
      c.getDimension ≤ z) :
    c.get x y z = some c.getEmptyValue := by
  have hv : c.is_valid x y z = false := by
    rw [← Bool.not_eq_true, is_valid_iff]; omega
  unfold get; rw [hv]; rfl

/-- C9 at a container of dimension 4 whose root holds 7 everywhere, at the
coordinate `(0, 4, 0)`. -/
theorem C9_get_out_of_range_witness :
    (⟨2, 4, 0, node.new 2 7⟩ : octree Byte).get 0 4 0 = some 0 :=
  C9_get_out_of_range ⟨2, 4, 0, node.new 2 7⟩ 0 4 0 (by decide)

end octree
end mi

/-! ## Truncated streams -/

namespace mi
namespace octree

/-- C10, evaluated: the stream holds the header of a container of `int`
(dimension 1, empty value 0), the leaf tag and only two of the four bytes of
the leaf's value; `read` returns `true`, with both `eofbit` and `failbit`
set on the stream. -/
theorem C10_truncated_leaf_value_read_succeeds :
    (read intLayout 0 0 (ifstream.ofBytes [1, 0, 0, 0, 0, 0, 0, 0, 1, 10, 0])).map
        (fun r => (r.1, r.2.2)) = some (true, ⟨[], true, true, false⟩) := by
  decide!

end octree
end mi

/-! ## C11: a tag that is neither `EMPTY` nor `INTERMEDIATE` -/

namespace mi
namespace octree
variable {T : Type}

/-- C11: the stream holds a whole header (four bytes `hd` of the dimension
and `sizeof(T)` bytes `he` of the empty value) and then `body`; `c0` is the
container that `init` builds from the header.  When the calls of `read` on
the root come, along the path `p`, to a tag that is neither 0x01 nor 0x02
(`node.BadTag`), `read` on the container returns `false`; the node at the end
of `p` is marked `INVALID`; the stream is left right after that tag, so no
byte behind it has been read; and every call of `read` on a node from which
the calls come to such a tag returns `false`, which is how the failure goes
up through the ancestors. -/
theorem C11_bad_tag_fails (L : Layout T) (hL : L.Lawful) (d0 : Int) (e0 : T)
    (hd he body : List Byte) (h4 : hd.length = 4) (hsz : he.length = L.size)
    (c0 : octree T) (h0 : init (int_ofBytes hd) (L.ofBytes he) = some c0)
    (p : List (Fin 8)) (n1 : node T) (s1 : ifstream)
    (hb : node.BadTag L c0._root (ifstream.ofBytes body) p n1 s1) :
    read L d0 e0 (ifstream.ofBytes (hd ++ he ++ body)) =
      some (false, { c0 with _root := n1 }, s1) ∧
    (n1.descend p).map node.type = some INVALID ∧
    (∃ pre t, body = pre ++ t :: s1.data ∧ t ≠ 0x01 ∧ t ≠ 0x02) ∧
    (∀ (n m : node T) (s s2 : ifstream) (q : List (Fin 8)),
      node.BadTag L n s q m s2 → n.read L s = some (false, m, s2)) := by
  refine ⟨?_, node.descend_of_BadTag L hb, node.data_of_BadTag L hb,
    fun n m s s2 q h => node.read_of_BadTag L h⟩
  have r1 := ifstream_read_good (ifstream.ofBytes (hd ++ he ++ body)) hd (he ++ body) rfl
    (List.append_assoc _ _ _)
  have r2 := ifstream_read_good
    { ifstream.ofBytes (hd ++ he ++ body) with data := he ++ body } he body rfl rfl
  rw [h4] at r1
  rw [hsz] at r2
  have e1 : store (int_toBytes d0) hd = hd :=
    store_full _ _ (by rw [length_int_toBytes, h4])
  have e2 : store (L.toBytes e0) he = he :=
    store_full _ _ (by rw [hL.length_toBytes, hsz])
  exact read_of_steps L d0 e0 r1 r2 (by rw [e1, e2]; exact h0) rfl (node.read_of_BadTag L hb)

/-- C11 on a stream for `octree<unsigned char>`: dimension 2, empty value 0,
the root `INTERMEDIATE`, child 0 a leaf with the value 5, then the tag 9 for
child 1 and two more bytes, which stay on the stream. -/
theorem C11_bad_tag_fails_witness :
    read ucharLayout 0 0 (ifstream.ofBytes ([2, 0, 0, 0] ++ [0] ++ [2, 1, 5, 9, 1, 6])) =
      some (false, { (⟨1, 2, 0, node.new 1 0⟩ : octree Byte) with
        _root := (node.new 1 (0 : Byte)).create_child.set_child
          (Function.update (Function.update (fun _ => node.new 0 0) 0 (node.nochild EMPTY 0 5)) 1
            ((node.new 0 (0 : Byte)).set_type INVALID)) },
        ⟨[1, 6], false, false, false⟩) :=
  (C11_bad_tag_fails ucharLayout ucharLayout_lawful 0 0 [2, 0, 0, 0] [0] [2, 1, 5, 9, 1, 6]
    rfl rfl ⟨1, 2, 0, node.new 1 0⟩ rfl [1] _ _
    (node.BadTag.inner (node.new 1 0) (ifstream.ofBytes [2, 1, 5, 9, 1, 6]) [1, 5, 9, 1, 6]
      (fun _ => node.new 0 0)
      (Function.update (fun _ => node.new 0 0) 0 (node.nochild EMPTY 0 5)) 1
      ⟨[9, 1, 6], false, false, false⟩ [] _ _ rfl rfl rfl rfl
      (node.BadTag.here _ _ 9 [1, 6] rfl rfl (by decide) (by decide)))).1

end octree
end mi

/-! ## C12: the dimension in the header -/

namespace mi
namespace octree
variable {T : Type}

/-- C12, as the code has it: on every container obtained from `init(n, e)` by
calls of `set` and `optimize`, `write` on a fresh stream returns `true` and
the first four bytes written are the bytes of `getDimension()`, which is two
to the level that `init` has chosen for `n`, the rounded dimension, and they
decode to it; after `init(1000, e)` the four bytes are those of 1024. -/
theorem C12_header_holds_rounded_dimension (L : Layout T) (n : Int) (e : T) (c : octree T)
    (hc : Reached n e c) :
    (∃ rest, c.write L ofstream.empty =
      some (true, ⟨int_toBytes c.getDimension ++ rest, false, false⟩)) ∧
    c.getDimension = ((2 ^ get_level n : Nat) : Int) ∧
    int_ofBytes (int_toBytes c.getDimension) = c.getDimension ∧
    ((init 1000 e).bind fun c1 => (c1.write L ofstream.empty).map fun r => r.2.data.take 4) =
      some (int_toBytes 1024) := by
  have hi := hc.inv.1
  obtain ⟨c0, ops, h0, hr⟩ := hc
  have hd0 : c._dimension = c0._dimension := (run_inv (init_inv h0) hr).2.2.1
  have hd : c.getDimension = ((2 ^ get_level n : Nat) : Int) := by
    show c._dimension = _
    rw [hd0, (init_eq h0).1]
  have hp := pow_le_pow30 (get_level_le n)
  refine ⟨⟨L.toBytes c._emptyValue ++ node.encode L c._root, ?_⟩, hd, ?_, ?_⟩
  · rw [write_container_spec L hi, List.append_assoc]
    rfl
  · rw [hd]
    generalize 2 ^ get_level n = p at hp
    exact int_ofBytes_toBytes _ (by omega) (by omega)
  · have h10 : get_level 1000 = 10 := by decide
    have h1 := init_total 1000 e
    rw [h10] at h1
    rw [h1]
    simp only [Option.some_bind]
    rw [write_container_spec L (init_inv h1)]
    simp only [Option.map_some', List.append_assoc]
    exact congrArg some (List.take_left' (length_int_toBytes _))

/-- C12 at the container `init(1000, 0)` after `set(1, 3, 4, 10)`. -/
theorem C12_header_holds_rounded_dimension_witness :
    ∃ c : octree Int, run ⟨10, 1024, 0, node.new 10 0⟩ [Op.set 1 3 4 10] = some c ∧
      (∃ rest, c.write intLayout ofstream.empty =
        some (true, ⟨int_toBytes c.getDimension ++ rest, false, false⟩)) ∧
      c.getDimension = 1024 := by
  obtain ⟨c, h⟩ := @run_total Int [Op.set 1 3 4 10] _
    (init_inv (init_total 1000 (0 : Int)))
  have h10 : get_level 1000 = 10 := by decide
  have ht := init_total 1000 (0 : Int)
  simp only [h10] at h ht
  have hc := C12_header_holds_rounded_dimension intLayout 1000 0 c ⟨_, _, ht, h⟩
  refine ⟨c, h, hc.1, ?_⟩
  rw [hc.2.1, h10]
  rfl

/-- C12 as stated fails: after `init(1000, 0)` the header written holds the
bytes of 1024, which are not the bytes of 1000. -/
theorem C12_header_counterexample :
    ((init 1000 (0 : Int)).bind fun c =>
      (c.write intLayout ofstream.empty).map fun r => (r.1, r.2.data.take 4)) =
        some (true, int_toBytes 1024) ∧
    int_toBytes 1024 ≠ int_toBytes 1000 ∧
    int_ofBytes (int_toBytes 1024) = 1024 := by
  decide!

end octree
end mi

/-! ## C13: the bounding box of an empty container -/

namespace mi
namespace octree
variable {T : Type}

/-- C13, as the code has it: on every container obtained from `init(n, e)` by
calls of `set` and `optimize` in which `get` returns the empty value at every
in-range coordinate, `boundingbox(optimized = true)` returns the box with the
minimum `getDimension() - 1` and the maximum 0 on every axis, which has the
minimum above the maximum on every axis when `getDimension()` is at least 2
and is `(0,0,0)-(0,0,0)` when `getDimension()` is 1; the container that
`init(n, e)` returns is such a container, for every `n`. -/
theorem C13_boundingbox_of_empty [DecidableEq T] (n : Int) (e : T) (c : octree T)
    (hc : Reached n e c)
    (hall : ∀ x y z : Int, 0 ≤ x ∧ x < c.getDimension → 0 ≤ y ∧ y < c.getDimension →
      0 ≤ z ∧ z < c.getDimension → c.get x y z = some c.getEmptyValue) :
    (∃ b, c.boundingbox true = some b ∧
      b = ⟨c.getDimension - 1, c.getDimension - 1, c.getDimension - 1, 0, 0, 0⟩ ∧
      (2 ≤ c.getDimension → b.mnx > b.mxx ∧ b.mny > b.mxy ∧ b.mnz > b.mxz) ∧
      (c.getDimension = 1 → b = ⟨0, 0, 0, 0, 0, 0⟩)) ∧
    (∃ c0, init n e = some c0 ∧
      (∀ x y z : Int, c0.get x y z = some c0.getEmptyValue) ∧
      c0.boundingbox true =
        some ⟨c0.getDimension - 1, c0.getDimension - 1, c0.getDimension - 1, 0, 0, 0⟩) := by
  have key : ∀ c1 : octree T, Inv c1 →
      (∀ x y z : Int, 0 ≤ x ∧ x < c1.getDimension → 0 ≤ y ∧ y < c1.getDimension →
        0 ≤ z ∧ z < c1.getDimension → c1.get x y z = some c1.getEmptyValue) →
      c1.boundingbox true =
        some ⟨c1.getDimension - 1, c1.getDimension - 1, c1.getDimension - 1, 0, 0, 0⟩ := by
    intro c1 hi h1
    obtain ⟨r, hr, s1, _, s3⟩ :=
      node.boundingbox_spec c1._emptyValue c1._root hi.root_wf c1._level hi.level_le
        hi.root_level
    have hf : r.1 = false := by
      rw [← Bool.not_eq_true, s1]
      rintro ⟨p, hp⟩
      obtain ⟨hx, hy, hz, u, hu, hne⟩ := occupied_of_occ hi hp
      rw [h1 _ _ _ hx hy hz] at hu
      simp only [Option.some.injEq] at hu
      exact hne hu.symm
    have hd : c1.getDimension = ((2 ^ c1._level : Nat) : Int) := hi.dimension_eq
    unfold boundingbox
    rw [if_pos rfl, hr]
    simp only []
    rw [s3 hf, hd]
    rfl
  refine ⟨⟨_, key c hc.inv.1 hall, rfl, ?_, ?_⟩, ?_⟩
  · intro h
    simp only [gt_iff_lt]
    omega
  · intro h
    rw [h]
    rfl
  · have h0 := init_total n e
    have hg : ∀ x y z : Int, (⟨get_level n, ((2 ^ get_level n : Nat) : Int), e,
        node.new (get_level n) e⟩ : octree T).get x y z = some e := fun x y z => get_init h0 x y z
    exact ⟨_, h0, hg, key _ (init_inv h0) (fun x y z _ _ _ => hg x y z)⟩

/-- C13 at the container `init(4, 0)`. -/
theorem C13_boundingbox_of_empty_witness :
    ∃ b, (⟨2, 4, 0, node.new 2 0⟩ : octree Int).boundingbox true = some b ∧
      b = ⟨3, 3, 3, 0, 0, 0⟩ :=
  have h := (C13_boundingbox_of_empty 4 (0 : Int) ⟨2, 4, 0, node.new 2 0⟩ ⟨_, [], rfl, rfl⟩
    (fun x y z _ _ _ => get_init (rfl : init 4 (0 : Int) = some ⟨2, 4, 0, node.new 2 0⟩) x y z)).1
  h.imp fun _ hb => ⟨hb.1, hb.2.1⟩

/-- C13 as stated fails: the container `init(1, 0)` holds the empty value at
its one voxel, and `boundingbox(optimized = true)` returns `(0,0,0)-(0,0,0)`,
where no minimum is above the maximum. -/
theorem C13_boundingbox_counterexample :
    ((init 1 (0 : Int)).bind fun c => c.get 0 0 0) = some 0 ∧
    ((init 1 (0 : Int)).map fun c => c.getDimension) = some 1 ∧
    ((init 1 (0 : Int)).bind fun c => c.boundingbox true) = some ⟨0, 0, 0, 0, 0, 0⟩ ∧
    ¬ ((⟨0, 0, 0, 0, 0, 0⟩ : Box).mnx > (⟨0, 0, 0, 0, 0, 0⟩ : Box).mxx) := by
  decide!

end octree
end mi

/-! ## C14: `set` is idempotent -/

namespace mi
namespace octree
variable {T : Type}

/-- C14: on every container obtained from `init(n, e)` by calls of `set`, at
every in-range coordinate and for every value `v`, the call `set(x, y, z, v)`
returns a container `c1`, and the same call on `c1` returns `c1` again: the
tree after two calls is the tree after one call, node for node. -/
theorem C14_set_idempotent (n : Int) (e : T) (c : octree T) (hc : ReachedBySet n e c)
    (x y z : Int) (v : T) (hx : 0 ≤ x ∧ x < c.getDimension) (hy : 0 ≤ y ∧ y < c.getDimension)
    (hz : 0 ≤ z ∧ z < c.getDimension) :
    ∃ c1, c.set x y z v = some c1 ∧ c1.set x y z v = some c1 := by
  have hi := hc.reached.inv.1
  have hv := (is_valid_iff c x y z).2 ⟨hx, hy, hz⟩
  have hd : c.getDimension = ((2 ^ c._level : Nat) : Int) := hi.dimension_eq
  rw [hd] at hx hy hz
  obtain ⟨r, hr, _, _, _⟩ := node.set_spec c._level hi.level_le c._root hi.root_wf
    hi.root_level x.toNat y.toNat z.toNat v (by omega) (by omega) (by omega)
  have hr2 := node.set_idem c._level hi.level_le c._root hi.root_wf hi.root_level
    x.toNat y.toNat z.toNat v (by omega) (by omega) (by omega) r hr
  rw [Int.toNat_of_nonneg hx.1, Int.toNat_of_nonneg hy.1, Int.toNat_of_nonneg hz.1] at hr hr2
  have hv1 : ({ c with _root := r } : octree T).is_valid x y z = true := hv
  refine ⟨{ c with _root := r }, ?_, ?_⟩
  · unfold set
    rw [if_pos hv, hr]
  · unfold set
    rw [if_pos hv1]
    simp only [hr2]

/-- C14 at the container `init(4, 0)` and the coordinate `(1, 3, 2)`. -/
theorem C14_set_idempotent_witness :
    ∃ c1, (⟨2, 4, 0, node.new 2 0⟩ : octree Byte).set 1 3 2 10 = some c1 ∧
      c1.set 1 3 2 10 = some c1 :=
  C14_set_idempotent 4 0 ⟨2, 4, 0, node.new 2 0⟩ ⟨_, [], rfl, by simp, rfl⟩ 1 3 2 10
    (by decide) (by decide) (by decide)

end octree
end mi

/-! ## C15: `optimize` is idempotent -/

namespace mi
namespace octree
variable {T : Type}

/-- C15: for every container `c`: when the tree of `c` is well-formed,
`optimize()` on its root returns `true` and leaves a tree `r` on which
`optimize()` returns `true` and leaves `r` again, so that a second container
call `optimize(true)` returns the container the first call has returned; and
`optimize(false)` returns `c` as it is, whatever its tree. -/
theorem C15_optimize_idempotent (c : octree T) :
    (node.WF c._root →
      ∃ r, c._root.optimize = some (true, r) ∧ r.optimize = some (true, r) ∧
        c.optimize true = some { c with _root := r } ∧
        ({ c with _root := r } : octree T).optimize true = some { c with _root := r }) ∧
    c.optimize false = some c := by
  refine ⟨fun hw => ?_, rfl⟩
  obtain ⟨r, h1, ht, _, hwr, _⟩ := node.optimize_spec c._root hw
  obtain ⟨r2, h2, _, _, _, he⟩ := node.optimize_spec r hwr
  rw [he ht] at h2
  refine ⟨r, h1, h2, ?_, ?_⟩
  · unfold optimize
    simp only [if_true, h1]
  · unfold optimize
    simp only [if_true, h2]

/-- C15 at the container `init(4, 0)` after `set(1, 3, 2, 10)`. -/
theorem C15_optimize_idempotent_witness :
    ∃ c : octree Byte, init 4 0 = some c ∧ ∃ c1, c.set 1 3 2 10 = some c1 ∧
      ∃ r, c1._root.optimize = some (true, r) ∧ r.optimize = some (true, r) ∧
        c1.optimize true = some { c1 with _root := r } ∧
        ({ c1 with _root := r } : octree Byte).optimize true = some { c1 with _root := r } := by
  obtain ⟨c1, h1, hi, _⟩ := set_valid_spec (init_inv (init_total 4 (0 : Byte))) (10 : Byte)
    (x := 1) (y := 3) (z := 2) (by decide) (by decide) (by decide)
  exact ⟨_, init_total 4 0, c1, h1, (C15_optimize_idempotent c1).1 hi.root_wf⟩

end octree
end mi

/-! ## C16: the node invariant is preserved -/

namespace mi
namespace octree
variable {T : Type}

/-- C16: with well-formed trees as in `node.WF` (every node `EMPTY` or
`INTERMEDIATE`, an `INTERMEDIATE` node at a level of at least 1 with eight
children, each at the parent's level minus one): `init(n, e)` returns a
container whose tree is well-formed, with the root at the container's level;
and on a container whose tree is well-formed (level at most 30, dimension two
to the level, root at that level, as in every container that `init` has
built), every call `set(x, y, z, v)`, in range or out of range, and every call
`optimize(opt)` returns a container whose tree is well-formed with the same
root level. -/
theorem C16_node_invariant_preserved (n : Int) (e : T) :
    (∃ c0, init n e = some c0 ∧ node.WF c0._root ∧ c0._root.level = c0._level ∧ Inv c0) ∧
    ∀ c : octree T, Inv c → ∀ op : Op T,
      ∃ c1, c.apply op = some c1 ∧ node.WF c1._root ∧ c1._root.level = c._root.level ∧
        Inv c1 := by
  refine ⟨⟨_, init_total n e, ?_⟩, ?_⟩
  · have hi := init_inv (init_total n e)
    exact ⟨hi.root_wf, hi.root_level, hi⟩
  · intro c hc op
    obtain ⟨c1, h1, hi, hl, _⟩ := apply_inv hc op
    exact ⟨c1, h1, hi.root_wf, by rw [hi.root_level, hl, hc.root_level], hi⟩

/-- C16 at the container `init(4, 0)` and the calls `set(1, 3, 2, 10)` and
`optimize()`. -/
theorem C16_node_invariant_preserved_witness :
    (∃ c1, (⟨2, 4, 0, node.new 2 0⟩ : octree Int).apply (Op.set 1 3 2 10) = some c1 ∧
      node.WF c1._root ∧ c1._root.level = 2 ∧ Inv c1) ∧
    (∃ c1, (⟨2, 4, 0, node.new 2 0⟩ : octree Int).apply (Op.optimize true) = some c1 ∧
      node.WF c1._root ∧ c1._root.level = 2 ∧ Inv c1) :=
  have hi : Inv (⟨2, 4, 0, node.new 2 0⟩ : octree Int) :=
    init_inv (rfl : init 4 (0 : Int) = some ⟨2, 4, 0, node.new 2 0⟩)
  ⟨(C16_node_invariant_preserved 4 (0 : Int)).2 _ hi (Op.set 1 3 2 10),
    (C16_node_invariant_preserved 4 (0 : Int)).2 _ hi (Op.optimize true)⟩

end octree
end mi

/-! ## C17: `read` and the node invariant -/

namespace mi
namespace octree

/-- C17, evaluated: on the stream `split_at_level_zero` (header of a container
of `int` with dimension 1 and empty value 0, the tag `INTERMEDIATE` for the
root, eight leaves), `read` returns `true`, consumes the whole stream and
leaves a root that is `INTERMEDIATE` at level 0 with children at level 255,
not a well-formed tree; `get(0, 0, 0)`, which is in range, has no defined
result (it divides by `2^(0-1) = 0`). -/
theorem C17_read_breaks_node_invariant :
    (read intLayout 0 0 (ifstream.ofBytes split_at_level_zero)).map
      (fun r => (r.1, r.2.1.getDimension, r.2.2.data)) = some (true, 1, []) ∧
    (read intLayout 0 0 (ifstream.ofBytes split_at_level_zero)).map
      (fun r => (r.2.1._root.type, r.2.1._root.level)) = some (INTERMEDIATE, 0) ∧
    (read intLayout 0 0 (ifstream.ofBytes split_at_level_zero)).map
      (fun r => r.2.1._root.child.map fun c => ((c 0).type, (c 0).level, (c 7).level)) =
        some (some (EMPTY, 255, 255)) ∧
    (read intLayout 0 0 (ifstream.ofBytes split_at_level_zero)).map
      (fun r => (r.2.1.is_valid 0 0 0, r.2.1.get 0 0 0)) = some (true, none) := by
  decide!

end octree
end mi

/-! ## C18: what `optimize` merges into -/

namespace mi
namespace octree
variable {T : Type}

/-- C18: for every well-formed tree `n`, `optimize()` returns `true` and
leaves a leaf whose value is the one at the end of the `_child[0]` chain of
`n`, which is what `get(0, 0, 0)` returned on `n` (for a level of at most 31,
where `get` is defined); hence on a container that satisfies the invariant,
after `optimize(true)` every in-range `get` returns what `get(0, 0, 0)`
returned before; and on the container `init(1024, 0)` after
`set(1, 3, 4, 10)`, `get(1, 3, 4)` returns 10 before `optimize()` and 0
after it. -/
theorem C18_optimize_keeps_corner (n : node T) (hw : node.WF n) :
    (∃ n1, n.optimize = some (true, n1) ∧ n1.type = EMPTY ∧ n1.level = n.level ∧
      n1.value = node.corner n ∧
      (n.type = INTERMEDIATE → n1 = node.nochild EMPTY n.level (node.corner n)) ∧
      (n.level ≤ 31 → n.get 0 0 0 = some n1.value)) ∧
    (∀ c : octree T, Inv c → c._root = n →
      ∃ c1 v0, c.optimize true = some c1 ∧ c.get 0 0 0 = some v0 ∧
        ∀ x y z : Int, 0 ≤ x ∧ x < c.getDimension → 0 ≤ y ∧ y < c.getDimension →
          0 ≤ z ∧ z < c.getDimension → c1.get x y z = some v0) ∧
    (((init 1024 (0 : Int)).bind fun c => (c.run [Op.set 1 3 4 10]).bind fun c1 =>
        c1.get 1 3 4) = some 10 ∧
      ((init 1024 (0 : Int)).bind fun c =>
        (c.run [Op.set 1 3 4 10, Op.optimize true]).bind fun c1 => c1.get 1 3 4) = some 0) := by
  obtain ⟨n1, h1, ht, hl, hv, hn⟩ := node.optimize_corner n hw
  refine ⟨⟨n1, h1, ht, hl, hv, hn, fun h => ?_⟩, ?_, by decide!⟩
  · rw [hv]
    exact node.get_corner n hw h
  · intro c hc hr
    subst hr
    have hp : 0 < 2 ^ c._level := Nat.pos_pow_of_pos _ (by norm_num)
    have hd : c.getDimension = ((2 ^ c._level : Nat) : Int) := hc.dimension_eq
    have h0 : c.is_valid 0 0 0 = true :=
      (is_valid_iff c 0 0 0).2 ⟨by omega, by omega, by omega⟩
    refine ⟨{ c with _root := n1 }, node.corner c._root, ?_, ?_, ?_⟩
    · unfold optimize
      simp only [if_true, h1]
    · unfold get
      rw [if_pos h0]
      exact node.get_corner _ hw (by rw [hc.root_level]; have := hc.level_le; omega)
    · intro x y z hx hy hz
      have hv1 : ({ c with _root := n1 } : octree T).is_valid x y z = true :=
        (is_valid_iff c x y z).2 ⟨hx, hy, hz⟩
      unfold get
      rw [if_pos hv1]
      simp only []
      rw [node.get_of_type_empty ht, hv]

/-- C18 at the tree of the container `init(4, 0)` after `set(1, 3, 2, 10)`. -/
theorem C18_optimize_keeps_corner_witness :
    ∃ c1, (⟨2, 4, 0, node.new 2 0⟩ : octree Int).set 1 3 2 10 = some c1 ∧
      ∃ n1, c1._root.optimize = some (true, n1) ∧ n1.type = EMPTY ∧
        n1.value = node.corner c1._root := by
  obtain ⟨c1, h1, hi, _⟩ := set_valid_spec
    (init_inv (rfl : init 4 (0 : Int) = some ⟨2, 4, 0, node.new 2 0⟩)) (10 : Int)
    (x := 1) (y := 3) (z := 2) (by decide) (by decide) (by decide)
  obtain ⟨n1, a, b, _, d, _⟩ := (C18_optimize_keeps_corner c1._root hi.root_wf).1
  exact ⟨c1, h1, n1, a, b, d⟩

end octree
end mi

/-! ## C19: the encoding of a tree and its structural round trip -/

namespace mi
namespace node
variable {U : Type}

/-- C19: for every well-formed tree `t` and lawful layout of the values:
the encoding of `t` is the tag `0x01` followed by the bytes of the value when
`t` is a leaf, and the tag `0x02` followed by the encodings of the children 0
to 7 when `t` is `INTERMEDIATE` (no level in it); `write` on a stream that has
not failed returns `true` and appends exactly the encoding; and `read` on a
leaf of the level of `t` (in particular a new one) and a good stream that
holds the encoding followed by any bytes `rest` returns `true`, leaves
exactly `rest` on the stream, and leaves a well-formed tree structurally equal
to `t`. -/
theorem C19_node_encoding_round_trip (L : Layout U) (hL : L.Lawful) (t : node U)
    (hw : WF t) :
    (t.type = EMPTY → encode L t = (0x01 : Byte) :: L.toBytes t.value) ∧
    (∀ lv v c, t = haschild INTERMEDIATE lv v c →
      encode L t = (0x02 : Byte) :: (encode L (c 0) ++ encode L (c 1) ++ encode L (c 2) ++
        encode L (c 3) ++ encode L (c 4) ++ encode L (c 5) ++ encode L (c 6) ++
        encode L (c 7))) ∧
    (t.type = EMPTY ∨ ∃ lv v c, t = haschild INTERMEDIATE lv v c) ∧
    (∀ s : ofstream, s.fail = false →
      t.write L s = some (true, { s with data := s.data ++ encode L t })) ∧
    (∀ (m : node U) (s : ifstream) (rest : List Byte), m.type = EMPTY → m.level = t.level →
      s.good = true → s.data = encode L t ++ rest →
      ∃ t1, m.read L s = some (true, t1, { s with data := rest }) ∧ WF t1 ∧ Sim t t1) ∧
    (∀ (e : U) (rest : List Byte),
      ∃ t1, (new t.level e).read L (ifstream.ofBytes (encode L t ++ rest)) =
        some (true, t1, ifstream.ofBytes rest) ∧ WF t1 ∧ Sim t t1) := by
  have hread : ∀ (m : node U) (s : ifstream) (rest : List Byte), m.type = EMPTY →
      m.level = t.level → s.good = true → s.data = encode L t ++ rest →
      ∃ t1, m.read L s = some (true, t1, { s with data := rest }) ∧ WF t1 ∧ Sim t t1 := by
    intro m s rest hm hl hs hd
    have hf : (encode L t).length ≤ s.data.length + 1 := by
      rw [hd, List.length_append]
      omega
    obtain ⟨t1, h1, h2⟩ := read_sim L hL t hw _ m s rest hf hm hl hs hd
    obtain ⟨t2, h3, h4, _⟩ := read_spec L hL t hw _ m s rest hf hm hl hs hd
    rw [h1] at h3
    simp only [Option.some.injEq, Prod.mk.injEq, true_and] at h3
    rw [← h3.1] at h4
    exact ⟨t1, h1, h4, h2⟩
  refine ⟨fun h => encode_of_type_empty L h, ?_, ?_, write_spec L t hw, hread, ?_⟩
  · rintro lv v c rfl
    simp only [encode, if_true]
  · rcases WF_cases hw with h | ⟨lv, v, c, h, _⟩
    · exact Or.inl h
    · exact Or.inr ⟨lv + 1, v, c, h⟩
  · intro e rest
    exact hread (new t.level e) (ifstream.ofBytes (encode L t ++ rest)) rest rfl rfl rfl rfl

/-- C19 at the tree of one leaf at level 0 with the value 5. -/
theorem C19_node_encoding_round_trip_witness :
    encode ucharLayout (nochild EMPTY 0 (5 : Byte)) = [0x01, 5] ∧
    ∃ t1, (new 0 (0 : Byte)).read ucharLayout (ifstream.ofBytes
        (encode ucharLayout (nochild EMPTY 0 (5 : Byte)) ++ [7])) =
      some (true, t1, ifstream.ofBytes [7]) ∧ WF t1 ∧ Sim (nochild EMPTY 0 (5 : Byte)) t1 :=
  have h := C19_node_encoding_round_trip ucharLayout ⟨fun _ => rfl, fun _ => rfl⟩
    (nochild EMPTY 0 (5 : Byte)) rfl
  ⟨h.1 rfl, h.2.2.2.2.2 0 [7]⟩

end node
end mi

/-! ## C20: child addressing is in bounds -/

namespace mi
namespace node
variable {U : Type}

/-- C20: at a node of level `L + 1` and a local coordinate `(x, y, z)` with
every component below `2^(L+1)`, with `d = 2^L`: each quotient by `d` is 0 or
1, the child index `x/d + 2*(y/d) + 4*(z/d)` is at most 7, the remainders are
below `2^L`, and two such coordinates with the same index and the same
remainders are equal.  When `d` fits the arithmetic of the code (`L ≤ 30`),
`get` on an `INTERMEDIATE` node returns what `get` returns on the child at
that index for the remainders, and `set` on a well-formed node is `set` on
that child for the remainders, the other children kept. -/
theorem C20_child_addressing (L x y z : Nat) (hx : x < 2 ^ (L + 1)) (hy : y < 2 ^ (L + 1))
    (hz : z < 2 ^ (L + 1)) :
    (x / 2 ^ L < 2 ∧ y / 2 ^ L < 2 ∧ z / 2 ^ L < 2) ∧
    x / 2 ^ L + 2 * (y / 2 ^ L) + 4 * (z / 2 ^ L) ≤ 7 ∧
    (cidx (2 ^ L) x y z).val = x / 2 ^ L + 2 * (y / 2 ^ L) + 4 * (z / 2 ^ L) ∧
    (x % 2 ^ L < 2 ^ L ∧ y % 2 ^ L < 2 ^ L ∧ z % 2 ^ L < 2 ^ L) ∧
    (∀ x1 y1 z1 : Nat, x1 < 2 ^ (L + 1) → y1 < 2 ^ (L + 1) → z1 < 2 ^ (L + 1) →
      cidx (2 ^ L) x y z = cidx (2 ^ L) x1 y1 z1 →
      x % 2 ^ L = x1 % 2 ^ L → y % 2 ^ L = y1 % 2 ^ L → z % 2 ^ L = z1 % 2 ^ L →
      x = x1 ∧ y = y1 ∧ z = z1) ∧
    (L ≤ 30 →
      (∀ (v : U) (c : Fin 8 → node U),
        (haschild INTERMEDIATE (L + 1) v c).get x y z =
          (c (cidx (2 ^ L) x y z)).get ((x % 2 ^ L : Nat) : Int) ((y % 2 ^ L : Nat) : Int)
            ((z % 2 ^ L : Nat) : Int)) ∧
      (∀ (n : node U) (v : U), WF n → n.level = L + 1 →
        ∃ val c, n.create_child = haschild INTERMEDIATE (L + 1) val c ∧
          n.set x y z v =
            ((c (cidx (2 ^ L) x y z)).set ((x % 2 ^ L : Nat) : Int) ((y % 2 ^ L : Nat) : Int)
              ((z % 2 ^ L : Nat) : Int) v).map
              (fun ci => haschild INTERMEDIATE (L + 1) val
                (Function.update c (cidx (2 ^ L) x y z) ci)))) := by
  have hd : 0 < 2 ^ L := Nat.pos_pow_of_pos L (by norm_num)
  have hx1 := hx
  have hy1 := hy
  have hz1 := hz
  rw [pow_succ, Nat.mul_comm] at hx1 hy1 hz1
  have h1 := div_lt_two hx1
  have h2 := div_lt_two hy1
  have h3 := div_lt_two hz1
  refine ⟨⟨h1, h2, h3⟩, by omega, cidx_val hx1 hy1 hz1,
    ⟨Nat.mod_lt _ hd, Nat.mod_lt _ hd, Nat.mod_lt _ hd⟩, ?_, ?_⟩
  · intro x1 y1 z1 a b c hi hmx hmy hmz
    rw [pow_succ, Nat.mul_comm] at a b c
    exact cidx_inj hx1 hy1 hz1 a b c hi hmx hmy hmz
  · intro hL
    refine ⟨fun v c => get_haschild hL v c hx1 hy1 hz1, ?_⟩
    intro n v hw hn
    obtain ⟨val, c, hc, hch, _⟩ := create_child_spec hL hw hn
    refine ⟨val, c, hc, ?_⟩
    unfold set
    rw [hn, set_fuel_step hL hn hc (L + 1) hx1 hy1 hz1 v, (hch _).1]
    rfl

/-- C20 at a node of level 2 and the coordinate `(1, 3, 2)`: index 6,
remainders `(1, 1, 0)`. -/
theorem C20_child_addressing_witness :
    (cidx (2 ^ 1) 1 3 2).val = 1 / 2 ^ 1 + 2 * (3 / 2 ^ 1) + 4 * (2 / 2 ^ 1) ∧
      1 / 2 ^ 1 + 2 * (3 / 2 ^ 1) + 4 * (2 / 2 ^ 1) ≤ 7 :=
  have h := C20_child_addressing (U := Byte) 1 1 3 2 (by decide) (by decide) (by decide)
  ⟨h.2.2.1, h.2.1⟩

end node
end mi

/-! ## C21: requested dimensions without a level -/

namespace mi
namespace octree
variable {T : Type}

/-- C21: with `int` as 32 bits with wrap-around, for every requested
dimension `n` above `2^30` and for every `n ≤ 1` (zero and the negative
numbers among them), `get_level(n)` returns 0 and `init(n, e)` returns a
container of level 0 with `getDimension() = 1` and a single leaf.  Above
`2^30` no pass of the loop finds a level: started at the second pass
(`i = 1`, `x = 2`), where a level found would be at least 1, the loop returns
0 however many passes are left, and the dimension 1 is below the requested
one. -/
theorem C21_level_overflow (n : Int) (e : T) (h : 1073741824 < n ∨ n ≤ 1) :
    get_level n = 0 ∧
    init n e = some ⟨0, 1, e, node.new 0 e⟩ ∧
    (init n e).map getDimension = some 1 ∧
    (1073741824 < n →
      (∀ k, get_level_loop n k 1 2 = 0) ∧ ∀ c, init n e = some c → c.getDimension < n) := by
  have h0 : get_level n = 0 := by
    rcases h with h | h
    · exact get_level_loop_big n h 255 0 1 (Or.inr (Or.inr ⟨0, by omega, rfl⟩))
    · unfold get_level get_level_loop
      rw [if_pos h]
  have hi : init n e = some ⟨0, 1, e, node.new 0 e⟩ := by
    rw [init_total, h0]
    rfl
  refine ⟨h0, hi, by rw [hi]; rfl, fun hb => ⟨fun k => ?_, fun c hc => ?_⟩⟩
  · exact get_level_loop_big n hb k 1 2 (Or.inr (Or.inr ⟨1, by omega, rfl⟩))
  · rw [hi] at hc
    simp only [Option.some.injEq] at hc
    rw [← hc]
    show (1 : Int) < n
    omega

/-- C21 at the requested dimension 2000000000. -/
theorem C21_level_overflow_witness :
    get_level 2000000000 = 0 ∧
    init 2000000000 (0 : Int) = some ⟨0, 1, 0, node.new 0 0⟩ ∧
    (init 2000000000 (0 : Int)).map getDimension = some 1 :=
  have h := C21_level_overflow 2000000000 (0 : Int) (Or.inl (by decide))
  ⟨h.1, h.2.1, h.2.2.1⟩

end octree
end mi

/-! ## C22: `set` splits down to level 0 and never merges -/

namespace mi
namespace octree
variable {T : Type}

/-- C22: on the container `c` that `init(n, e)` returns, when its level is at
least 1, and at every in-range coordinate, `set(x, y, z, e)` with the empty
value itself returns a container `c1` with the same `get` at every
coordinate, whose root is `INTERMEDIATE` where the root of `c` is a single
leaf: the tree of `c1` has as many `INTERMEDIATE` nodes as the level `L` and
`7L + 1` leaves, `1 + 8L` nodes in all, and `write` produces different bytes
for `c` and `c1`. -/
theorem C22_set_splits_without_pruning (L : Layout T) (n : Int) (e : T) (c : octree T)
    (h0 : init n e = some c) (hl : 1 ≤ c._level) (x y z : Int)
    (hx : 0 ≤ x ∧ x < c.getDimension) (hy : 0 ≤ y ∧ y < c.getDimension)
    (hz : 0 ≤ z ∧ z < c.getDimension) :
    ∃ c1, c.set x y z e = some c1 ∧
      (∀ x1 y1 z1 : Int, c1.get x1 y1 z1 = c.get x1 y1 z1) ∧
      (c._root.type = EMPTY ∧ node.inters c._root = 0 ∧ node.leaves c._root = 1) ∧
      (c1._root.type = INTERMEDIATE ∧ node.inters c1._root = c._level ∧
        node.leaves c1._root = 7 * c._level + 1 ∧
        node.inters c1._root + node.leaves c1._root = 1 + 8 * c._level) ∧
      ∃ b b1, c.write L ofstream.empty = some (true, ⟨b, false, false⟩) ∧
        c1.write L ofstream.empty = some (true, ⟨b1, false, false⟩) ∧ b ≠ b1 := by
  have hi := init_inv h0
  have hg := get_init h0
  obtain ⟨hce, hle⟩ := init_eq h0
  obtain ⟨c1, h1, hi1, _, hdim, hev, hget⟩ := set_valid_spec hi e hx hy hz
  have hv := (is_valid_iff c x y z).2 ⟨hx, hy, hz⟩
  have hd : c.getDimension = ((2 ^ c._level : Nat) : Int) := hi.dimension_eq
  have hroot : c._root = node.new c._level e := by rw [hce]
  have hx1 := hx
  have hy1 := hy
  have hz1 := hz
  rw [hd] at hx1 hy1 hz1
  obtain ⟨n1, hn1, s1, s2, s3⟩ := node.set_new_shape c._level hi.level_le x.toNat y.toNat
    z.toNat e e (by omega) (by omega) (by omega)
  rw [Int.toNat_of_nonneg hx.1, Int.toNat_of_nonneg hy.1, Int.toNat_of_nonneg hz.1,
    ← hroot] at hn1
  have hc1 : c1 = { c with _root := n1 } := by
    unfold set at h1
    rw [if_pos hv, hn1] at h1
    simp only [Option.some.injEq] at h1
    exact h1.symm
  have hr1 : c1._root = n1 := by rw [hc1]
  refine ⟨c1, h1, ?_, ?_, ?_, ?_⟩
  · intro x1 y1 z1
    by_cases hv1 : c.is_valid x1 y1 z1 = true
    · obtain ⟨a1, a2, a3⟩ := (is_valid_iff c x1 y1 z1).1 hv1
      rw [hget x1 y1 z1 a1 a2 a3, hg]
      split_ifs <;> rfl
    · have hv2 : c1.is_valid x1 y1 z1 = c.is_valid x1 y1 z1 := by rw [hc1]; rfl
      unfold get
      rw [hv2, if_neg hv1, if_neg hv1, hev]
  · rw [hroot]
    exact ⟨rfl, rfl, rfl⟩
  · rw [hr1]
    exact ⟨s3 hl, s1, s2, by omega⟩
  · refine ⟨_, _, write_container_spec L hi, write_container_spec L hi1, ?_⟩
    rw [hdim, hev]
    intro hb
    have ht : c._root.type ≠ c1._root.type := by
      rw [hroot, hr1, s3 hl]
      exact EMPTY_ne_INTERMEDIATE
    exact node.encode_ne_of_type_ne L ht (List.append_cancel_left hb)

/-- C22 at the container `init(4, 0)` and the coordinate `(1, 3, 2)`: the
tree afterwards has 2 `INTERMEDIATE` nodes and 15 leaves. -/
theorem C22_set_splits_without_pruning_witness :
    ∃ c1, (⟨2, 4, 0, node.new 2 0⟩ : octree Byte).set 1 3 2 0 = some c1 ∧
      (∀ x1 y1 z1 : Int, c1.get x1 y1 z1 =
        (⟨2, 4, 0, node.new 2 0⟩ : octree Byte).get x1 y1 z1) ∧
      c1._root.type = INTERMEDIATE ∧ node.inters c1._root = 2 ∧ node.leaves c1._root = 15 := by
  obtain ⟨c1, a, b, _, d, _⟩ := C22_set_splits_without_pruning ucharLayout 4 (0 : Byte)
    ⟨2, 4, 0, node.new 2 0⟩ rfl (by decide) 1 3 2 (by decide) (by decide) (by decide)
  exact ⟨c1, a, b, d.1, d.2.1, d.2.2.1⟩

end octree
end mi

/-! ## C23: the container after a failed `read` -/

namespace mi
namespace octree
variable {T : Type}

/-- C23: for every stream that holds a header with a dimension `d`,
`2 ≤ d ≤ 2^30`, and an empty value `e`, and then a tag byte `t` that is neither
0x01 nor 0x02 (followed by any bytes `rest`), `read` returns `false` and
leaves a container whose root is `INVALID` at a level of at least 1 and has no
child array.  On that container `get` at every in-range coordinate still
returns `e`; `create_child()` leaves the root as it is, and `set` at every
in-range coordinate has no defined result: it indexes the child array that
does not exist. -/
theorem C23_failed_read_unsafe (L : Layout T) (hL : L.Lawful) (d0 : Int) (e0 : T)
    (d : Int) (hd1 : 2 ≤ d) (hd2 : d ≤ 1073741824) (e : T) (t : Byte)
    (ht1 : t ≠ EMPTY) (ht2 : t ≠ INTERMEDIATE) (rest : List Byte) :
    ∃ c, read L d0 e0 (ifstream.ofBytes (int_toBytes d ++ L.toBytes e ++ t :: rest)) =
        some (false, c, ifstream.ofBytes rest) ∧
      c._root.type = INVALID ∧ 1 ≤ c._root.level ∧ c._root.child = none ∧
      c._root.create_child = c._root ∧ d ≤ c.getDimension ∧ c.getEmptyValue = e ∧
      ∀ x y z : Int, 0 ≤ x ∧ x < c.getDimension → 0 ≤ y ∧ y < c.getDimension →
        0 ≤ z ∧ z < c.getDimension →
        c.get x y z = some e ∧ ∀ v, c.set x y z v = none := by
  obtain ⟨g1, g2, _⟩ := get_level_spec d hd2
  have hlv : 1 ≤ get_level d := by
    by_contra hc
    have h0 : get_level d = 0 := by omega
    rw [h0] at g1
    norm_num at g1
    omega
  have r1 := ifstream_read_good (ifstream.ofBytes (int_toBytes d ++ L.toBytes e ++ t :: rest))
    (int_toBytes d) (L.toBytes e ++ t :: rest) rfl (List.append_assoc _ _ _)
  have r2 := ifstream_read_good
    { ifstream.ofBytes (int_toBytes d ++ L.toBytes e ++ t :: rest) with
      data := L.toBytes e ++ t :: rest } (L.toBytes e) (t :: rest) rfl rfl
  rw [length_int_toBytes] at r1
  rw [hL.length_toBytes] at r2
  have e1 : store (int_toBytes d0) (int_toBytes d) = int_toBytes d :=
    store_full _ _ (by rw [length_int_toBytes, length_int_toBytes])
  have e2 : store (L.toBytes e0) (L.toBytes e) = L.toBytes e :=
    store_full _ _ (by rw [hL.length_toBytes, hL.length_toBytes])
  have h3 : init (int_ofBytes (store (int_toBytes d0) (int_toBytes d)))
      (L.ofBytes (store (L.toBytes e0) (L.toBytes e))) =
      some ⟨get_level d, ((2 ^ get_level d : Nat) : Int), e, node.new (get_level d) e⟩ := by
    rw [e1, e2, int_ofBytes_toBytes d (by omega) (by omega), hL.ofBytes_toBytes, init_total]
  have hb := node.BadTag.here (L := L) (node.new (get_level d) e)
    { ifstream.ofBytes (int_toBytes d ++ L.toBytes e ++ t :: rest) with data := t :: rest }
    t rest rfl rfl ht1 ht2
  have hr := read_of_steps L d0 e0 r1 r2 h3 rfl (node.read_of_BadTag L hb)
  refine ⟨_, hr, rfl, hlv, rfl, rfl, g1, rfl, ?_⟩
  intro x y z hx hy hz
  have hv : (⟨get_level d, ((2 ^ get_level d : Nat) : Int), e,
      (node.new (get_level d) e).set_type INVALID⟩ : octree T).is_valid x y z = true :=
    (is_valid_iff _ x y z).2 ⟨hx, hy, hz⟩
  constructor
  · unfold get
    rw [if_pos hv]
    rfl
  · intro v
    unfold set
    rw [if_pos hv]
    have hs : ((node.new (get_level d) e).set_type INVALID).set x y z v = none := by
      obtain ⟨k, hk⟩ : ∃ k, get_level d = k + 1 := ⟨get_level d - 1, by omega⟩
      rw [hk]
      simp [node.set, node.set_fuel, node.new, node.init, node.set_type, node.set_level,
        node.set_value, node.level, node.create_child, node.type, node.child]
    simp only [hs]

/-- C23 on a stream for `octree<unsigned char>`: dimension 2, empty value 0,
then the tag 9. -/
theorem C23_failed_read_unsafe_witness :
    ∃ c, read ucharLayout 0 0 (ifstream.ofBytes (int_toBytes 2 ++ [0] ++ [9])) =
        some (false, c, ifstream.ofBytes []) ∧
      c._root.type = INVALID ∧ 1 ≤ c._root.level ∧ c._root.child = none ∧
      c.get 0 1 0 = some 0 ∧ c.set 0 1 0 7 = none := by
  obtain ⟨c, h1, h2, h3, h4, _, h6, h7, h8⟩ :=
    C23_failed_read_unsafe ucharLayout ucharLayout_lawful 0 0 2 (by decide) (by decide) 0 9
      (by decide) (by decide) []
  have hd : (2 : Int) ≤ c.getDimension := h6
  have h := h8 0 1 0 (by omega) (by omega) (by omega)
  exact ⟨c, h1, h2, h3, h4, h.1, h.2 7⟩

end octree
end mi

/-! ## C24: `copy` is faithful -/

namespace mi
namespace node
variable {U : Type}

/-- C24: for every well-formed tree `d`, `copy(d)` called on a leaf (in
particular on a node just constructed, of any level and value) returns and
leaves a tree `r` equal to `d` node by node: the same kind, level and value
at every node, the children of every `INTERMEDIATE` node in index order.
Hence `r` is well-formed, `get` returns the same on `r` and `d` at every
coordinate, the encodings are equal, and `write` returns the same flag and
stream on both. -/
theorem C24_copy_faithful (d : node U) (hw : WF d) :
    (∀ m : node U, m.type = EMPTY →
      ∃ r, m.copy d = some r ∧ Same d r ∧ WF r ∧
        (∀ x y z : Int, r.get x y z = d.get x y z) ∧
        (∀ L : Layout U, encode L r = encode L d ∧
          ∀ s : ofstream, s.fail = false → r.write L s = d.write L s)) ∧
    (∀ (lv0 : Nat) (v0 : U), ∃ r, (new lv0 v0).copy d = some r ∧ Same d r) := by
  have key : ∀ m : node U, m.type = EMPTY →
      ∃ r, m.copy d = some r ∧ Same d r ∧ WF r ∧
        (∀ x y z : Int, r.get x y z = d.get x y z) ∧
        (∀ L : Layout U, encode L r = encode L d ∧
          ∀ s : ofstream, s.fail = false → r.write L s = d.write L s) := by
    intro m hm
    obtain ⟨r, h1, h2⟩ := copy_spec d hw m hm
    obtain ⟨h3, h4⟩ := WF_get_of_Same d hw r h2
    refine ⟨r, h1, h2, h3, h4, fun L => ⟨encode_of_Same L d hw r h2, fun s hs => ?_⟩⟩
    rw [write_spec L r h3 s hs, write_spec L d hw s hs, encode_of_Same L d hw r h2]
  refine ⟨key, fun lv0 v0 => ?_⟩
  obtain ⟨r, h1, h2, _⟩ := key (new lv0 v0) rfl
  exact ⟨r, h1, h2⟩

/-- C24 at a tree of level 1 whose eight leaves hold the index of the
child. -/
theorem C24_copy_faithful_witness :
    ∃ r, (new 0 (0 : Byte)).copy
        (haschild INTERMEDIATE 1 7 (fun i => nochild EMPTY 0 (Fin.ofNat i.val))) = some r ∧
      Same (haschild INTERMEDIATE 1 7 (fun i => nochild EMPTY 0 (Fin.ofNat i.val))) r ∧
      r.get 1 1 0 = some 3 := by
  have hw : WF (haschild INTERMEDIATE 1 (7 : Byte)
      (fun i => nochild EMPTY 0 (Fin.ofNat i.val))) :=
    Or.inr ⟨rfl, by decide, fun _ => ⟨rfl, rfl⟩⟩
  obtain ⟨r, h1, h2, _, h4, _⟩ := (C24_copy_faithful _ hw).1 (new 0 (0 : Byte)) rfl
  refine ⟨r, h1, h2, ?_⟩
  rw [h4]
  decide

end node
end mi
